import Mathlib

/-!
Shallow embedding of the integrity & provenance core of the `nft-rescue`
repository: the URL storage classifier (`src/storage-classifier.ts`), the
resilient downloader (`src/downloader.ts`) and the versioned manifest store
(`src/manifest.ts`), together with theorems settling the frozen claims
C1..C10 about them.

Strings are modelled by Lean `String`; JavaScript `startsWith` / `endsWith` /
`includes` are modelled on the underlying character lists.  File-system state
is modelled as an association list from structural paths (`List String`) to
parsed file contents.  Timestamps (`new Date().toISOString()`) are passed in
as explicit string parameters.
-/

namespace NftRescue

/-! ## JavaScript string primitives -/

/-- Model of JavaScript `s.startsWith(p)`. -/
def strStartsWith (s p : String) : Bool := p.data.isPrefixOf s.data

/-- Model of JavaScript `s.endsWith(p)`. -/
def strEndsWith (s p : String) : Bool := p.data.isSuffixOf s.data

/-- Model of JavaScript `s.includes(p)` (substring containment). -/
def strIncludes (s p : String) : Bool := decide (p.data <:+: s.data)

/-- Model of JavaScript `s.toLowerCase()` (ASCII range; the inputs the
classifier compares are ASCII host names). -/
def jsToLower (s : String) : String := ⟨s.data.map Char.toLower⟩

/-- Model of JavaScript `s.trim()`: drop leading and trailing whitespace. -/
def jsTrim (s : String) : String :=
  ⟨((s.data.dropWhile Char.isWhitespace).reverse.dropWhile Char.isWhitespace).reverse⟩

/-- JavaScript truthiness of an optional string: `undefined` and the empty
string are falsy. -/
def jsTruthy (o : Option String) : Bool :=
  match o with
  | some s => s ≠ ""
  | none => false

/-! ## Configuration constants (`src/config.ts`) -/

/-- Known IPFS gateway hostnames from `config.ts`. -/
def IPFS_GATEWAY_HOSTS : List String :=
  ["ipfs.io", "cloudflare-ipfs.com", "gateway.pinata.cloud", "dweb.link",
   "w3s.link", "nftstorage.link", "ipfs.infura.io", "ipfs.fleek.co",
   "4everland.io", "cf-ipfs.com"]

/-- Known Arweave gateway hostnames from `config.ts`. -/
def ARWEAVE_GATEWAY_HOSTS : List String :=
  ["arweave.net", "arweave.dev", "ar-io.net", "g8way.io", "arweave.live"]

/-- IPFS gateway base URLs used by the downloader, from `config.ts`. -/
def IPFS_GATEWAY_URLS : List String :=
  ["https://ipfs.io/ipfs/", "https://cloudflare-ipfs.com/ipfs/",
   "https://gateway.pinata.cloud/ipfs/", "https://dweb.link/ipfs/",
   "https://w3s.link/ipfs/", "https://nftstorage.link/ipfs/"]

/-- `RETRY_CONFIG.maxRetries` from `config.ts`. -/
def RETRY_CONFIG_maxRetries : Nat := 3

/-- `RETRY_CONFIG.baseDelay` (ms) from `config.ts`. -/
def RETRY_CONFIG_baseDelay : Nat := 1000

/-- `RETRY_CONFIG.maxDelay` (ms) from `config.ts`. -/
def RETRY_CONFIG_maxDelay : Nat := 10000

/-! ## Data model (`src/types.ts`) -/

/-- Storage type of a URL (`StorageType` in `types.ts`). -/
inductive StorageType where
  | ipfs
  | arweave
  | dataUri
  | centralized
deriving DecidableEq, Repr

/-- Result of classifying one URL (`StorageAnalysis` in `types.ts`). -/
structure StorageAnalysis where
  type : StorageType
  isAtRisk : Bool
  originalUrl : String
  host : Option String
deriving DecidableEq, Repr

/-- Aggregated storage report for one NFT (`NFTStorageReport` in `types.ts`). -/
structure NFTStorageReport where
  tokenUri : StorageAnalysis
  image : Option StorageAnalysis
  animation : Option StorageAnalysis
  isFullyDecentralized : Bool
  atRiskUrls : List String
deriving DecidableEq, Repr

/-- Fields of `NFTMetadata` used by the classifier (`types.ts`). -/
structure NFTMetadata where
  name : Option String
  description : Option String
  image : Option String
  animation_url : Option String
deriving DecidableEq, Repr

/-- Fields of `DiscoveredNFT` used by the classifier (`types.ts`). -/
structure DiscoveredNFT where
  contractAddress : String
  tokenId : String
  tokenUri : Option String
  name : Option String
deriving DecidableEq, Repr

/-! ## Storage classifier (`src/storage-classifier.ts`) -/

/-- Characters allowed by the CID-v0 pattern `[1-9A-HJ-NP-Za-km-z]`
(base58: alphanumerics without `0`, `O`, `I`, `l`). -/
def isBase58Char (c : Char) : Bool :=
  c.isAlphanum && !(c = '0' || c = 'O' || c = 'I' || c = 'l')

/-- Characters allowed by the CID-v1 pattern `[a-z2-7]` (base32). -/
def isBase32Char (c : Char) : Bool :=
  c.isLower || ('2' ≤ c && c ≤ '7')

/-- Model of `isIpfsCid`: the whole string matches
`^Qm[1-9A-HJ-NP-Za-km-z]{44}$` or `^bafy[a-z2-7]{55,}$`. -/
def isIpfsCid (s : String) : Bool :=
  (match s.data with
   | 'Q' :: 'm' :: rest => rest.length = 44 && rest.all isBase58Char
   | _ => false) ||
  (match s.data with
   | 'b' :: 'a' :: 'f' :: 'y' :: rest => 55 ≤ rest.length && rest.all isBase32Char
   | _ => false)

/-- Capture of the alternation `(Qm[a-zA-Z0-9]+|bafy[a-zA-Z0-9]+)` when it
matches at the head of `cs` (the `Qm` branch is tried first, each branch takes
the maximal alphanumeric run, which must be nonempty). -/
def ipfsCapAt (cs : List Char) : Option (List Char) :=
  match cs with
  | 'Q' :: 'm' :: rest =>
    let run := rest.takeWhile Char.isAlphanum
    if run.isEmpty then
      match cs with
      | 'b' :: 'a' :: 'f' :: 'y' :: rest2 =>
        let run2 := rest2.takeWhile Char.isAlphanum
        if run2.isEmpty then none else some ('b' :: 'a' :: 'f' :: 'y' :: run2)
      | _ => none
    else some ('Q' :: 'm' :: run)
  | 'b' :: 'a' :: 'f' :: 'y' :: rest =>
    let run := rest.takeWhile Char.isAlphanum
    if run.isEmpty then none else some ('b' :: 'a' :: 'f' :: 'y' :: run)
  | _ => none

/-- First match of the regex `\/ipfs\/(Qm[a-zA-Z0-9]+|bafy[a-zA-Z0-9]+)`:
scan left to right for a position where `/ipfs/` is followed by a CID-like
capture, and return that capture. -/
def findIpfsCap : List Char → Option (List Char)
  | [] => none
  | c :: rest =>
    if ("/ipfs/".data).isPrefixOf (c :: rest) then
      match ipfsCapAt ((c :: rest).drop 6) with
      | some cap => some cap
      | none => findIpfsCap rest
    else findIpfsCap rest

/-- Scheme characters of a URL after the leading letter. -/
def isSchemeChar (c : Char) : Bool :=
  c.isAlphanum || c = '+' || c = '-' || c = '.'

/-- Split a leading `scheme:` off a URL string, if present. -/
def splitScheme (s : String) : Option (String × String) :=
  match s.data with
  | [] => none
  | c :: _ =>
    if c.isAlpha then
      let sch := s.data.takeWhile isSchemeChar
      match s.data.drop sch.length with
      | ':' :: r => some (⟨sch⟩, ⟨r⟩)
      | _ => none
    else none

/-- Model of `getHost` (`new URL(url).hostname.toLowerCase()`, with parse
failures mapped to `none`): for hierarchical URLs (`scheme://...`) the
authority is taken up to the first `/`, `?` or `#`, user-info up to the last
`@` is dropped, and a port after `:` is dropped; URLs with a scheme but no
`//` have an empty hostname; everything else fails to parse. -/
def jsUrlHost (s : String) : Option String :=
  match splitScheme s with
  | none => none
  | some (_, rest) =>
    if strStartsWith rest "//" then
      let auth := (rest.data.drop 2).takeWhile (fun c => !(c = '/' || c = '?' || c = '#'))
      let afterAt := if auth.contains '@' then (auth.reverse.takeWhile (· ≠ '@')).reverse else auth
      let host : List Char := afterAt.takeWhile (· ≠ ':')
      if host.isEmpty then none else some (jsToLower ⟨host⟩)
    else some ""

/-- Model of `hostMatchesPatterns`: exact or dotted-suffix match against a
pattern list, case-insensitively. -/
def hostMatchesPatterns (host : String) (patterns : List String) : Bool :=
  let lowerHost := jsToLower host
  patterns.any fun pattern =>
    let lowerPattern := jsToLower pattern
    lowerHost = lowerPattern || strEndsWith lowerHost ("." ++ lowerPattern)

/-- Model of `classifyUrl` from `storage-classifier.ts`. -/
def classifyUrl (url : String) : StorageAnalysis :=
  if url = "" then ⟨.centralized, true, url, none⟩
  else
    let trimmedUrl := jsTrim url
    if strStartsWith trimmedUrl "data:" then ⟨.dataUri, false, url, none⟩
    else if strStartsWith trimmedUrl "ipfs://" then ⟨.ipfs, false, url, none⟩
    else if strStartsWith trimmedUrl "ar://" then ⟨.arweave, false, url, none⟩
    else if strIncludes trimmedUrl "/ipfs/" && (findIpfsCap trimmedUrl.data).isSome then
      ⟨.ipfs, false, url, none⟩
    else if isIpfsCid trimmedUrl then ⟨.ipfs, false, url, none⟩
    else
      match jsUrlHost trimmedUrl with
      | some host =>
        if host ≠ "" then
          if hostMatchesPatterns host IPFS_GATEWAY_HOSTS then ⟨.ipfs, false, url, some host⟩
          else if hostMatchesPatterns host ARWEAVE_GATEWAY_HOSTS then ⟨.arweave, false, url, some host⟩
          else ⟨.centralized, true, url, some host⟩
        else ⟨.centralized, true, url, none⟩
      | none => ⟨.centralized, true, url, none⟩

/-- Model of `analyzeNFTStorage` from `storage-classifier.ts`: classify the
token URI always, `metadata.image` / `metadata.animation_url` only when
truthy, and accumulate the original URLs of at-risk analyses in evaluation
order, a URL being pushed only when it is itself truthy. -/
def analyzeNFTStorage (nft : DiscoveredNFT) (metadata : Option NFTMetadata) :
    NFTStorageReport :=
  let tokenUriAnalysis := classifyUrl (nft.tokenUri.getD "")
  let atRisk0 : List String :=
    if tokenUriAnalysis.isAtRisk && jsTruthy nft.tokenUri then [nft.tokenUri.getD ""] else []
  let img := metadata.bind NFTMetadata.image
  let imagePart : Option StorageAnalysis × List String :=
    match img with
    | some u =>
      if u ≠ "" then
        let a := classifyUrl u
        (some a, if a.isAtRisk then [u] else [])
      else (none, [])
    | none => (none, [])
  let anim := metadata.bind NFTMetadata.animation_url
  let animPart : Option StorageAnalysis × List String :=
    match anim with
    | some u =>
      if u ≠ "" then
        let a := classifyUrl u
        (some a, if a.isAtRisk then [u] else [])
      else (none, [])
    | none => (none, [])
  let analyses := ([some tokenUriAnalysis, imagePart.1, animPart.1].filterMap id)
  { tokenUri := tokenUriAnalysis
    image := imagePart.1
    animation := animPart.1
    isFullyDecentralized := analyses.all fun a => !a.isAtRisk
    atRiskUrls := atRisk0 ++ imagePart.2 ++ animPart.2 }

/-! ## Claims C5, C6, C8: the storage classifier -/

/-- Truthiness of a missing value. -/
@[simp] theorem jsTruthy_none : jsTruthy none = false := rfl

/-- Truthiness of a present string value. -/
@[simp] theorem jsTruthy_some (s : String) : jsTruthy (some s) = decide (s ≠ "") := rfl

/-- Every branch of `classifyUrl` returns the input as `originalUrl`. -/
theorem classifyUrl_originalUrl (url : String) : (classifyUrl url).originalUrl = url := by
  simp only [classifyUrl]
  repeat' split
  all_goals rfl

/-- Closed-form characterization of `analyzeNFTStorage`, obtained by running
the accumulation code on each shape of the inputs. -/
theorem analyzeNFTStorage_eq (nft : DiscoveredNFT) (metadata : Option NFTMetadata) :
    analyzeNFTStorage nft metadata =
      { tokenUri := classifyUrl (nft.tokenUri.getD "")
        image := if jsTruthy (metadata.bind NFTMetadata.image) then
            some (classifyUrl ((metadata.bind NFTMetadata.image).getD "")) else none
        animation := if jsTruthy (metadata.bind NFTMetadata.animation_url) then
            some (classifyUrl ((metadata.bind NFTMetadata.animation_url).getD "")) else none
        isFullyDecentralized :=
          !(classifyUrl (nft.tokenUri.getD "")).isAtRisk &&
          (if jsTruthy (metadata.bind NFTMetadata.image) then
              !(classifyUrl ((metadata.bind NFTMetadata.image).getD "")).isAtRisk else true) &&
          (if jsTruthy (metadata.bind NFTMetadata.animation_url) then
              !(classifyUrl ((metadata.bind NFTMetadata.animation_url).getD "")).isAtRisk else true)
        atRiskUrls :=
          (if (classifyUrl (nft.tokenUri.getD "")).isAtRisk && jsTruthy nft.tokenUri
           then [nft.tokenUri.getD ""] else []) ++
          (if jsTruthy (metadata.bind NFTMetadata.image) &&
              (classifyUrl ((metadata.bind NFTMetadata.image).getD "")).isAtRisk
           then [(metadata.bind NFTMetadata.image).getD ""] else []) ++
          (if jsTruthy (metadata.bind NFTMetadata.animation_url) &&
              (classifyUrl ((metadata.bind NFTMetadata.animation_url).getD "")).isAtRisk
           then [(metadata.bind NFTMetadata.animation_url).getD ""] else []) } := by
  rcases himg : metadata.bind NFTMetadata.image with _ | ui <;>
    rcases hanim : metadata.bind NFTMetadata.animation_url with _ | ua <;>
    simp only [analyzeNFTStorage, himg, hanim] <;>
    (try by_cases hi : ui = "") <;>
    (try by_cases ha : ua = "") <;>
    cases htu : jsTruthy nft.tokenUri <;>
    cases h : (classifyUrl (nft.tokenUri.getD "")).isAtRisk <;>
    (try cases hia : (classifyUrl ui).isAtRisk) <;>
    (try cases haa : (classifyUrl ua).isAtRisk) <;>
    simp_all [List.filterMap]

/-- A concrete asset with no token URI, used to refute claim C5. -/
def nftNoUri : DiscoveredNFT :=
  { contractAddress := "0xa", tokenId := "1", tokenUri := none, name := none }

/-- Claim C5, counterexample: for an asset whose token-URI is absent, the
token-URI analysis is at risk (absence is at-risk by policy), yet
`atRiskUrls` is empty — the code pushes the token-URI only when it is
truthy, so no entry for the absent token-URI is ever added, contradicting
the claim that `atRiskUrls` includes an entry for the absent token-URI. -/
theorem claim_C5_counterexample :
    (analyzeNFTStorage nftNoUri none).tokenUri.isAtRisk = true ∧
    (analyzeNFTStorage nftNoUri none).atRiskUrls = [] := by
  constructor <;> rfl

/-- Claim C5 (amended): `analyzeNFTStorage` returns an `atRiskUrls` list
containing exactly the original URL strings (not normalized forms) of every
at-risk sub-analysis whose source URL is present (truthy), in evaluation
order (token-URI, image, animation); when the token-URI is absent its
analysis is still at-risk by policy but contributes no entry. -/
theorem claim_C5_at_risk_urls (nft : DiscoveredNFT) (metadata : Option NFTMetadata) :
    (analyzeNFTStorage nft metadata).atRiskUrls =
      (if (analyzeNFTStorage nft metadata).tokenUri.isAtRisk ∧ jsTruthy nft.tokenUri
       then [(analyzeNFTStorage nft metadata).tokenUri.originalUrl] else []) ++
      (match (analyzeNFTStorage nft metadata).image with
       | some a => if a.isAtRisk then [a.originalUrl] else []
       | none => []) ++
      (match (analyzeNFTStorage nft metadata).animation with
       | some a => if a.isAtRisk then [a.originalUrl] else []
       | none => []) := by
  rw [analyzeNFTStorage_eq]
  simp only [classifyUrl_originalUrl]
  cases htu : jsTruthy nft.tokenUri <;>
    cases hti : (classifyUrl (nft.tokenUri.getD "")).isAtRisk <;>
    cases hji : jsTruthy (metadata.bind NFTMetadata.image) <;>
    cases hja : jsTruthy (metadata.bind NFTMetadata.animation_url) <;>
    cases hia : (classifyUrl ((metadata.bind NFTMetadata.image).getD "")).isAtRisk <;>
    cases haa : (classifyUrl ((metadata.bind NFTMetadata.animation_url).getD "")).isAtRisk <;>
    simp_all [classifyUrl_originalUrl]

/-- Claim C6: `isFullyDecentralized` is true iff every present sub-analysis
(token-URI always; image and animation exactly when the corresponding
metadata field is truthy) has `isAtRisk = false`. -/
theorem claim_C6_fully_decentralized (nft : DiscoveredNFT) (metadata : Option NFTMetadata) :
    (analyzeNFTStorage nft metadata).isFullyDecentralized =
      (!(analyzeNFTStorage nft metadata).tokenUri.isAtRisk &&
        (analyzeNFTStorage nft metadata).image.all (fun a => !a.isAtRisk) &&
        (analyzeNFTStorage nft metadata).animation.all (fun a => !a.isAtRisk)) ∧
    (analyzeNFTStorage nft metadata).image.isSome
        = jsTruthy (metadata.bind NFTMetadata.image) ∧
    (analyzeNFTStorage nft metadata).animation.isSome
        = jsTruthy (metadata.bind NFTMetadata.animation_url) := by
  rw [analyzeNFTStorage_eq]
  cases hji : jsTruthy (metadata.bind NFTMetadata.image) <;>
    cases hja : jsTruthy (metadata.bind NFTMetadata.animation_url) <;>
    simp_all

/-- Claim C8: `classifyUrl` is total — every string input yields a result
carrying the input back as `originalUrl` (conjunct 1); input whose trimmed
form is empty (this includes the empty and whitespace-only strings) yields
`centralized`/at-risk (conjunct 2); and input matching none of the
decentralized syntactic rules (spec §4.1 rules 2–6) that then fails URL
parsing (rule 7, "unparsable") also yields `centralized`/at-risk
(conjunct 3). -/
theorem claim_C8_total_and_default :
    (∀ url, (classifyUrl url).originalUrl = url) ∧
    (∀ url, jsTrim url = "" → classifyUrl url = ⟨.centralized, true, url, none⟩) ∧
    (∀ url, strStartsWith (jsTrim url) "data:" = false →
      strStartsWith (jsTrim url) "ipfs://" = false →
      strStartsWith (jsTrim url) "ar://" = false →
      findIpfsCap (jsTrim url).data = none →
      isIpfsCid (jsTrim url) = false →
      jsUrlHost (jsTrim url) = none →
      classifyUrl url = ⟨.centralized, true, url, none⟩) := by
  refine ⟨fun url => ?_, fun url h => ?_, fun url h1 h2 h3 h4 h5 h6 => ?_⟩
  · exact classifyUrl_originalUrl url
  · by_cases hu : url = ""
    · simp [classifyUrl, hu]
    · simp only [classifyUrl, hu, if_false, h]
      rfl
  · by_cases hu : url = ""
    · simp [classifyUrl, hu]
    · simp only [classifyUrl, hu, if_false, h1, h2, h3, h4, h5, h6,
        Bool.false_eq_true, Option.isSome_none, Bool.and_false, if_false]

/-- Witness for C8 at concrete inputs: conjunct 2 at the whitespace-only
string and conjunct 3 at a malformed URL. -/
theorem claim_C8_witness :
    classifyUrl "   " = ⟨.centralized, true, "   ", none⟩ ∧
    classifyUrl "http//missing.colon" = ⟨.centralized, true, "http//missing.colon", none⟩ := by
  exact ⟨claim_C8_total_and_default.2.1 "   " (by decide),
    claim_C8_total_and_default.2.2 "http//missing.colon" (by decide) (by decide) (by decide)
      (by decide) (by decide) (by decide)⟩

/-! ## Manifest data model (`src/types.ts`) -/

/-- `BackupSummary` from `types.ts`. -/
structure BackupSummary where
  totalNFTs : Nat
  fullyDecentralized : Nat
  atRisk : Nat
  backedUp : Nat
  failed : Nat
deriving DecidableEq, Repr

/-- `NormalizedTrait` from `types.ts`. -/
structure NormalizedTrait where
  trait_type : String
  value : String
  display_type : Option String
deriving DecidableEq, Repr

/-- One element of `BackupManifest.nfts` from `types.ts`; `storageStatus`
holds one of `"decentralized"`, `"at-risk"`, `"mixed"`. -/
structure NftEntry where
  contractAddress : String
  tokenId : String
  name : Option String
  collectionName : Option String
  traits : Option (List NormalizedTrait)
  metadataFile : Option String
  imageFile : Option String
  animationFile : Option String
  imageUrl : Option String
  animationUrl : Option String
  storageReportFile : Option String
  storageStatus : String
  error : Option String
deriving DecidableEq, Repr

/-- `BackupManifest` from `types.ts`. -/
structure BackupManifest where
  walletAddress : String
  ensName : Option String
  chainName : String
  chainId : Nat
  backupDate : String
  summary : BackupSummary
  nfts : List NftEntry
deriving DecidableEq, Repr

/-! ## JSON serialization used by the fingerprint -/

/-- Escape one character for a JSON string literal (quote and backslash; the
manifest fields contain no control characters). -/
def jsonEscChar (c : Char) : List Char :=
  if c = '"' || c = '\\' then ['\\', c] else [c]

/-- JSON string literal for `s`. -/
def jsonStr (s : String) : String :=
  ⟨'"' :: (s.data.flatMap jsonEscChar) ++ ['"']⟩

/-- Join a list of strings with a separator. -/
def joinWith (sep : String) : List String → String
  | [] => ""
  | [x] => x
  | x :: y :: xs => x ++ sep ++ joinWith sep (y :: xs)

/-- Serialize one `NormalizedTrait` the way `JSON.stringify` does (keys in
insertion order). -/
def serializeTrait (t : NormalizedTrait) : String :=
  "\x7b" ++ jsonStr "trait_type" ++ ":" ++ jsonStr t.trait_type ++ "," ++
    jsonStr "value" ++ ":" ++ jsonStr t.value ++
    (match t.display_type with
     | some d => "," ++ jsonStr "display_type" ++ ":" ++ jsonStr d
     | none => "") ++ "\x7d"

/-- Serialize a trait array. -/
def serializeTraits (ts : List NormalizedTrait) : String :=
  "[" ++ joinWith "," (ts.map serializeTrait) ++ "]"

/-- The present `(key, serialized value)` pairs of a manifest entry, in the
declaration order of the `BackupManifest.nfts` element type (absent optional
fields produce no key, as in JavaScript). -/
def entryPairs (e : NftEntry) : List (String × String) :=
  [("contractAddress", jsonStr e.contractAddress), ("tokenId", jsonStr e.tokenId)] ++
  (match e.name with | some v => [("name", jsonStr v)] | none => []) ++
  (match e.collectionName with | some v => [("collectionName", jsonStr v)] | none => []) ++
  (match e.traits with | some v => [("traits", serializeTraits v)] | none => []) ++
  (match e.metadataFile with | some v => [("metadataFile", jsonStr v)] | none => []) ++
  (match e.imageFile with | some v => [("imageFile", jsonStr v)] | none => []) ++
  (match e.animationFile with | some v => [("animationFile", jsonStr v)] | none => []) ++
  (match e.imageUrl with | some v => [("imageUrl", jsonStr v)] | none => []) ++
  (match e.animationUrl with | some v => [("animationUrl", jsonStr v)] | none => []) ++
  (match e.storageReportFile with | some v => [("storageReportFile", jsonStr v)] | none => []) ++
  [("storageStatus", jsonStr e.storageStatus)] ++
  (match e.error with | some v => [("error", jsonStr v)] | none => [])

/-- Code-unit comparison underlying the JavaScript default sort comparator:
`jsLebL xs ys` is true when `xs` is lexicographically at most `ys`. -/
def jsLebL : List Char → List Char → Bool
  | [], _ => true
  | _ :: _, [] => false
  | x :: xs, y :: ys => if x = y then jsLebL xs ys else decide (x < y)

/-- String comparison of the JavaScript default sort comparator. -/
def jsLeb (a b : String) : Bool := jsLebL a.data b.data

/-- JavaScript `Array.prototype.sort()` with the default comparator on
strings, modelled as insertion sort by code-unit order. -/
def jsSortStrings (l : List String) : List String :=
  List.insertionSort (fun a b : String => jsLeb a b = true) l

/-- Model of `getEntryFingerprint`: stringify the entry with its keys sorted
(`Object.keys(entry).sort()` rebuilt into an ordered record, then
`JSON.stringify`). -/
def getEntryFingerprint (e : NftEntry) : String :=
  let sorted := List.insertionSort (fun p q : String × String => jsLeb p.1 q.1 = true) (entryPairs e)
  "\x7b" ++ joinWith "," (sorted.map fun p => jsonStr p.1 ++ ":" ++ p.2) ++ "\x7d"

/-- Model of `getNftId`: the stable Asset ID
`"{chainId}:{contractAddress}:{tokenId}"`. -/
def getNftId (manifest : BackupManifest) (entry : NftEntry) : String :=
  toString manifest.chainId ++ ":" ++ entry.contractAddress ++ ":" ++ entry.tokenId

/-! ## JavaScript `Map` model (insertion-ordered association list) -/

/-- `Map.prototype.set`: replace in place when the key exists, else append. -/
def mapSet (m : List (String × String)) (k v : String) : List (String × String) :=
  match m with
  | [] => [(k, v)]
  | (k', v') :: rest => if k' = k then (k, v) :: rest else (k', v') :: mapSet rest k v

/-- `Map.prototype.get` (`none` models `undefined`). -/
def mapGet? (m : List (String × String)) (k : String) : Option String :=
  (m.find? fun p => p.1 == k).map Prod.snd

/-- `Map.prototype.has`. -/
def mapHas (m : List (String × String)) (k : String) : Bool :=
  (mapGet? m k).isSome

/-- Keys of a map, in iteration order. -/
def mapKeys (m : List (String × String)) : List String := m.map Prod.fst

/-- The `Map` from Asset ID to fingerprint built from a manifest by
`buildDelta`'s first loops. -/
def manifestEntryMap (m : BackupManifest) : List (String × String) :=
  m.nfts.foldl (fun acc e => mapSet acc (getNftId m e) (getEntryFingerprint e)) []

/-- The previous-manifest map (`previous` may be `null`). -/
def prevMapOf : Option BackupManifest → List (String × String)
  | some p => manifestEntryMap p
  | none => []

/-! ## Delta computation (`buildDelta` in `src/manifest.ts`) -/

/-- Summary counts of a delta record. -/
structure DeltaSummary where
  added : Nat
  updated : Nat
  removed : Nat
deriving DecidableEq, Repr

/-- A delta/run record as written under `runs/`. -/
structure DeltaRecord where
  runId : String
  walletAddress : String
  chainName : String
  chainId : Nat
  added : List String
  updated : List String
  removed : List String
  summary : DeltaSummary
deriving DecidableEq, Repr

/-- Model of `buildDelta`: classify the new map's Asset IDs against the
previous map (the per-entry push loop is expressed as a filter over the
map's entries, which preserves iteration order), collect removed IDs, and
sort each list. -/
def buildDelta (previous : Option BackupManifest) (next : BackupManifest) : DeltaRecord :=
  let previousMap := prevMapOf previous
  let nextMap := manifestEntryMap next
  let added := (nextMap.filter fun kv => !(mapHas previousMap kv.1)).map Prod.fst
  let updated := (nextMap.filter fun kv =>
    mapHas previousMap kv.1 && !(mapGet? previousMap kv.1 == some kv.2)).map Prod.fst
  let removed := (previousMap.filter fun kv => !(mapHas nextMap kv.1)).map Prod.fst
  let addedS := jsSortStrings added
  let updatedS := jsSortStrings updated
  let removedS := jsSortStrings removed
  { runId := next.backupDate
    walletAddress := next.walletAddress
    chainName := next.chainName
    chainId := next.chainId
    added := addedS
    updated := updatedS
    removed := removedS
    summary := ⟨addedS.length, updatedS.length, removedS.length⟩ }

/-! ## Association-list lemmas for the `Map` model -/

/-- Keys after `mapSet`: unchanged when the key was present, appended
otherwise. -/
theorem mapKeys_mapSet (m : List (String × String)) (k v : String) :
    mapKeys (mapSet m k v) =
      if k ∈ mapKeys m then mapKeys m else mapKeys m ++ [k] := by
  induction m with
  | nil => simp [mapSet, mapKeys]
  | cons p rest ih =>
    rcases p with ⟨k1, v1⟩
    by_cases hk : k1 = k
    · simp [mapSet, mapKeys, hk]
    · simp only [mapSet, if_neg hk, mapKeys, List.map_cons]
      simp only [mapKeys] at ih
      rw [ih]
      by_cases hmem : k ∈ List.map Prod.fst rest <;>
        simp [hmem, Ne.symm hk]

/-- `mapSet` preserves key nodup-ness. -/
theorem nodup_mapKeys_mapSet (m : List (String × String)) (k v : String)
    (h : (mapKeys m).Nodup) : (mapKeys (mapSet m k v)).Nodup := by
  rw [mapKeys_mapSet]
  by_cases hmem : k ∈ mapKeys m <;> simp [hmem, h, List.nodup_append]

/-- The map built from a manifest has nodup keys. -/
theorem nodup_manifestEntryMap (m : BackupManifest) :
    (mapKeys (manifestEntryMap m)).Nodup := by
  have h : ∀ (l : List NftEntry) (acc : List (String × String)), (mapKeys acc).Nodup →
      (mapKeys (l.foldl (fun acc e => mapSet acc (getNftId m e) (getEntryFingerprint e)) acc)).Nodup := by
    intro l
    induction l with
    | nil => intro acc h; simpa using h
    | cons e rest ih =>
      intro acc h
      exact ih _ (nodup_mapKeys_mapSet _ _ _ h)
  exact h m.nfts [] (by simp [mapKeys])

/-- The previous map has nodup keys. -/
theorem nodup_prevMapOf (previous : Option BackupManifest) :
    (mapKeys (prevMapOf previous)).Nodup := by
  rcases previous with _ | p
  · simp [prevMapOf, mapKeys]
  · exact nodup_manifestEntryMap p

/-- `mapHas` tests key membership. -/
theorem mapHas_iff_mem (m : List (String × String)) (k : String) :
    mapHas m k = true ↔ k ∈ mapKeys m := by
  induction m with
  | nil => simp [mapHas, mapGet?, mapKeys]
  | cons p rest ih =>
    rcases p with ⟨k1, v1⟩
    by_cases hk : k1 = k
    · subst hk
      simp [mapHas, mapGet?, List.find?, mapKeys]
    · have hbeq : (k1 == k) = false := by simpa using hk
      simp only [mapHas, mapGet?, List.find?, hbeq, mapKeys, List.map_cons,
        List.mem_cons] at ih ⊢
      simp [ih, Ne.symm hk]

/-- On nodup-key maps, `mapGet?` returns exactly the stored pair. -/
theorem mapGet?_eq_some_iff (m : List (String × String)) (k v : String)
    (h : (mapKeys m).Nodup) : mapGet? m k = some v ↔ (k, v) ∈ m := by
  induction m with
  | nil => simp [mapGet?]
  | cons p rest ih =>
    rcases p with ⟨k1, v1⟩
    simp only [mapKeys, List.map_cons, List.nodup_cons] at h
    by_cases hk : k1 = k
    · subst hk
      simp only [mapGet?, List.find?, beq_self_eq_true]
      constructor
      · intro h1
        have hv : v1 = v := by simpa using h1
        subst hv
        exact List.mem_cons_self _ _
      · intro h1
        rcases List.mem_cons.mp h1 with h2 | h2
        · have hv : v = v1 := by simpa using congrArg Prod.snd h2
          simp [hv]
        · exact absurd (List.mem_map_of_mem Prod.fst h2) (by simpa using h.1)
    · have hbeq : (k1 == k) = false := by simpa using hk
      simp only [mapGet?, List.find?, hbeq]
      rw [List.mem_cons]
      constructor
      · intro h1
        exact Or.inr ((ih h.2).mp h1)
      · rintro (h2 | h2)
        · exact absurd (congrArg Prod.fst h2).symm hk
        · exact (ih h.2).mpr h2

/-- Membership in the first projection of a filtered map, for nodup-key
maps, in terms of `mapHas` and `mapGet?`. -/
theorem mem_map_fst_filter_iff (m : List (String × String)) (p : String × String → Bool)
    (h : (mapKeys m).Nodup) (id : String) :
    (id ∈ (m.filter p).map Prod.fst) ↔ ∃ v, mapGet? m id = some v ∧ p (id, v) = true := by
  constructor
  · intro hm
    rcases List.mem_map.mp hm with ⟨⟨k, v⟩, hkv, hfst⟩
    rcases List.mem_filter.mp hkv with ⟨hmem, hp⟩
    subst hfst
    exact ⟨v, (mapGet?_eq_some_iff m _ v h).mpr hmem, hp⟩
  · rintro ⟨v, hget, hp⟩
    have hmem := (mapGet?_eq_some_iff m id v h).mp hget
    exact List.mem_map.mpr ⟨(id, v), List.mem_filter.mpr ⟨hmem, hp⟩, rfl⟩

/-- Membership survives the JS sort. -/
theorem mem_jsSortStrings (l : List String) (s : String) :
    s ∈ jsSortStrings l ↔ s ∈ l := List.mem_insertionSort _

/-- The JS comparator is total. -/
theorem jsLebL_total : ∀ xs ys : List Char, jsLebL xs ys = true ∨ jsLebL ys xs = true := by
  intro xs
  induction xs with
  | nil => intro ys; left; rfl
  | cons x xs ih =>
    intro ys
    rcases ys with _ | ⟨y, ys⟩
    · right; rfl
    · by_cases hxy : x = y
      · subst hxy
        simpa [jsLebL] using ih ys
      · rcases lt_or_gt_of_ne hxy with h | h
        · left; simp [jsLebL, hxy, h]
        · right; simp [jsLebL, Ne.symm hxy, h]

/-- The JS comparator is transitive. -/
theorem jsLebL_trans : ∀ xs ys zs : List Char,
    jsLebL xs ys = true → jsLebL ys zs = true → jsLebL xs zs = true := by
  intro xs
  induction xs with
  | nil => intro ys zs _ _; rfl
  | cons x xs ih =>
    intro ys zs h1 h2
    rcases ys with _ | ⟨y, ys⟩
    · simp [jsLebL] at h1
    · rcases zs with _ | ⟨z, zs⟩
      · simp [jsLebL] at h2
      · by_cases hxy : x = y <;> by_cases hyz : y = z
        · subst hxy; subst hyz
          simp only [jsLebL, if_pos rfl] at h1 h2 ⊢
          exact ih ys zs h1 h2
        · subst hxy
          simp only [jsLebL, if_neg hyz] at h2
          simp only [jsLebL, if_neg hyz]
          exact h2
        · subst hyz
          simp only [jsLebL, if_neg hxy] at h1
          simp only [jsLebL, if_neg hxy]
          exact h1
        · simp only [jsLebL, if_neg hxy] at h1
          simp only [jsLebL, if_neg hyz] at h2
          have hxz : x < z := lt_trans (of_decide_eq_true h1) (of_decide_eq_true h2)
          simp [jsLebL, ne_of_lt hxz, hxz]

instance : IsTotal String (fun a b => jsLeb a b = true) :=
  ⟨fun a b => jsLebL_total a.data b.data⟩

instance : IsTrans String (fun a b => jsLeb a b = true) :=
  ⟨fun a b c => jsLebL_trans a.data b.data c.data⟩

/-- The JS sort sorts by the JS comparator. -/
theorem sorted_jsSortStrings (l : List String) :
    (jsSortStrings l).Sorted (fun a b => jsLeb a b = true) :=
  List.sorted_insertionSort _ l

/-! ## Claims C1 and C10: the delta algorithm -/

/-- Build a manifest entry with the given contract, token and name (other
optional fields absent, `storageStatus` fixed). -/
def mkEntry (addr tok : String) (nm : Option String) : NftEntry :=
  ⟨addr, tok, nm, none, none, none, none, none, none, none, none, "decentralized", none⟩

/-- Previous manifest of the worked example: entries A (`0xa/1`) and
B (`0xb/2`). -/
def examplePrev : BackupManifest :=
  { walletAddress := "0xw", ensName := none, chainName := "ethereum", chainId := 1,
    backupDate := "2026-01-01T00:00:00.000Z", summary := ⟨2, 0, 0, 0, 0⟩,
    nfts := [mkEntry "0xa" "1" none, mkEntry "0xb" "2" none] }

/-- Next manifest of the worked example: B changed (renamed) and C
(`0xc/3`) new, A absent. -/
def exampleNext : BackupManifest :=
  { walletAddress := "0xw", ensName := none, chainName := "ethereum", chainId := 1,
    backupDate := "2026-01-02T00:00:00.000Z", summary := ⟨2, 0, 0, 0, 0⟩,
    nfts := [mkEntry "0xb" "2" (some "renamed"), mkEntry "0xc" "3" none] }

/-- Claim C1: `buildDelta` classifies each Asset ID of the new entry set as
`added` iff it is absent from the previous set, as `updated` iff it is
present in both but its key-sorted JSON fingerprint differs (equal
fingerprints are omitted); every previous-only Asset ID is `removed`; all
three lists are sorted; and on previous entries `{A, B}` and new entries
`{B', C}` with B changed the delta is
`added:[C], updated:[B], removed:[A]`. -/
theorem claim_C1_delta_classification (previous : Option BackupManifest)
    (next : BackupManifest) :
    ((∀ id, id ∈ (buildDelta previous next).added ↔
        mapHas (manifestEntryMap next) id = true ∧
        mapHas (prevMapOf previous) id = false) ∧
     (∀ id, id ∈ (buildDelta previous next).updated ↔
        mapHas (prevMapOf previous) id = true ∧
        ∃ fp, mapGet? (manifestEntryMap next) id = some fp ∧
          mapGet? (prevMapOf previous) id ≠ some fp) ∧
     (∀ id, id ∈ (buildDelta previous next).removed ↔
        mapHas (prevMapOf previous) id = true ∧
        mapHas (manifestEntryMap next) id = false) ∧
     (buildDelta previous next).added.Sorted (fun a b => jsLeb a b = true) ∧
     (buildDelta previous next).updated.Sorted (fun a b => jsLeb a b = true) ∧
     (buildDelta previous next).removed.Sorted (fun a b => jsLeb a b = true)) ∧
    ((buildDelta (some examplePrev) exampleNext).added = ["1:0xc:3"] ∧
     (buildDelta (some examplePrev) exampleNext).updated = ["1:0xb:2"] ∧
     (buildDelta (some examplePrev) exampleNext).removed = ["1:0xa:1"] ∧
     (buildDelta (some examplePrev) exampleNext).summary = ⟨1, 1, 1⟩) := by
  have hnmN := nodup_manifestEntryMap next
  have hnmP := nodup_prevMapOf previous
  refine ⟨⟨fun id => ?_, fun id => ?_, fun id => ?_, ?_, ?_, ?_⟩, by decide⟩
  · rw [show (buildDelta previous next).added =
        jsSortStrings (((manifestEntryMap next).filter fun kv =>
          !(mapHas (prevMapOf previous) kv.1)).map Prod.fst) from rfl]
    rw [mem_jsSortStrings, mem_map_fst_filter_iff _ _ hnmN]
    constructor
    · rintro ⟨v, hget, hp⟩
      refine ⟨?_, by simpa using hp⟩
      rw [mapHas_iff_mem]
      exact List.mem_map_of_mem Prod.fst ((mapGet?_eq_some_iff _ _ _ hnmN).mp hget)
    · rintro ⟨hhas, hnot⟩
      rcases Option.isSome_iff_exists.mp (by simpa [mapHas] using hhas) with ⟨v, hv⟩
      exact ⟨v, hv, by simpa using hnot⟩
  · rw [show (buildDelta previous next).updated =
        jsSortStrings (((manifestEntryMap next).filter fun kv =>
          mapHas (prevMapOf previous) kv.1 &&
            !(mapGet? (prevMapOf previous) kv.1 == some kv.2)).map Prod.fst) from rfl]
    rw [mem_jsSortStrings, mem_map_fst_filter_iff _ _ hnmN]
    constructor
    · rintro ⟨v, hget, hp⟩
      simp only [Bool.and_eq_true, Bool.not_eq_true', beq_eq_false_iff_ne] at hp
      exact ⟨hp.1, v, hget, hp.2⟩
    · rintro ⟨hhas, v, hget, hne⟩
      refine ⟨v, hget, ?_⟩
      simp only [Bool.and_eq_true, Bool.not_eq_true', beq_eq_false_iff_ne]
      exact ⟨hhas, hne⟩
  · rw [show (buildDelta previous next).removed =
        jsSortStrings (((prevMapOf previous).filter fun kv =>
          !(mapHas (manifestEntryMap next) kv.1)).map Prod.fst) from rfl]
    rw [mem_jsSortStrings, mem_map_fst_filter_iff _ _ hnmP]
    constructor
    · rintro ⟨v, hget, hp⟩
      refine ⟨?_, by simpa using hp⟩
      rw [mapHas_iff_mem]
      exact List.mem_map_of_mem Prod.fst ((mapGet?_eq_some_iff _ _ _ hnmP).mp hget)
    · rintro ⟨hhas, hnot⟩
      rcases Option.isSome_iff_exists.mp (by simpa [mapHas] using hhas) with ⟨v, hv⟩
      exact ⟨v, hv, by simpa using hnot⟩
  · exact sorted_jsSortStrings _
  · exact sorted_jsSortStrings _
  · exact sorted_jsSortStrings _

/-- Claim C10: writing the same manifest twice in a row gives an empty
delta — `buildDelta` of a manifest against itself yields empty `added`,
`updated` and `removed` lists and zero summary counts, because the entry
fingerprint is deterministic. -/
theorem claim_C10_self_delta_empty (m : BackupManifest) :
    (buildDelta (some m) m).added = [] ∧
    (buildDelta (some m) m).updated = [] ∧
    (buildDelta (some m) m).removed = [] ∧
    (buildDelta (some m) m).summary = ⟨0, 0, 0⟩ := by
  have hnm := nodup_manifestEntryMap m
  have hprev : prevMapOf (some m) = manifestEntryMap m := rfl
  have hAdded : ((manifestEntryMap m).filter fun kv =>
      !(mapHas (manifestEntryMap m) kv.1)) = [] := by
    rw [List.filter_eq_nil_iff]
    rintro ⟨k, v⟩ hmem
    have : mapHas (manifestEntryMap m) k = true := by
      rw [mapHas_iff_mem]
      exact List.mem_map_of_mem Prod.fst hmem
    simp [this]
  have hUpdated : ((manifestEntryMap m).filter fun kv =>
      mapHas (manifestEntryMap m) kv.1 &&
        !(mapGet? (manifestEntryMap m) kv.1 == some kv.2)) = [] := by
    rw [List.filter_eq_nil_iff]
    rintro ⟨k, v⟩ hmem
    have hget : mapGet? (manifestEntryMap m) k = some v :=
      (mapGet?_eq_some_iff _ _ _ hnm).mpr hmem
    simp [hget]
  refine ⟨?_, ?_, ?_, ?_⟩ <;>
    simp only [buildDelta, hprev, hAdded, hUpdated, List.map_nil, jsSortStrings,
      List.insertionSort, List.length_nil]

/-! ## Resilient downloader (`src/downloader.ts`) -/

/-- The fixed MIME-type → extension table of `getExtensionFromUrl`. -/
def mimeExtMap : List (String × String) :=
  [("image/png", ".png"), ("image/jpeg", ".jpg"), ("image/jpg", ".jpg"),
   ("image/gif", ".gif"), ("image/webp", ".webp"), ("image/svg+xml", ".svg"),
   ("video/mp4", ".mp4"), ("video/webm", ".webm"), ("video/quicktime", ".mov"),
   ("audio/mpeg", ".mp3"), ("audio/wav", ".wav"), ("text/html", ".html"),
   ("application/pdf", ".pdf")]

/-- Pathname of a URL under the same parse model as `jsUrlHost` (`none`
models a `new URL` throw): for hierarchical URLs the path runs from the
first `/` after the authority to `?` or `#` (default `/`); a scheme without
`//` has the remainder as an opaque path. -/
def jsUrlPathname (s : String) : Option String :=
  match splitScheme s with
  | none => none
  | some (_, rest) =>
    if strStartsWith rest "//" then
      let auth := (rest.data.drop 2).takeWhile (fun c => !(c = '/' || c = '?' || c = '#'))
      let afterAt := if auth.contains '@' then (auth.reverse.takeWhile (· ≠ '@')).reverse else auth
      let host : List Char := afterAt.takeWhile (· ≠ ':')
      if host.isEmpty then none
      else
        let afterAuth := (rest.data.drop 2).dropWhile (fun c => !(c = '/' || c = '?' || c = '#'))
        match afterAuth with
        | '/' :: _ => some ⟨afterAuth.takeWhile (fun c => !(c = '?' || c = '#'))⟩
        | _ => some "/"
    else some ⟨rest.data.takeWhile (fun c => !(c = '?' || c = '#'))⟩

/-- First match of the regex `\.([a-zA-Z0-9]+)(\?|$)`: scan for a dot whose
maximal alphanumeric run is nonempty and ends at the string end or at `?`,
and return the run (the captured group). -/
def extMatch : List Char → Option (List Char)
  | [] => none
  | c :: rest =>
    if c = '.' then
      let run := rest.takeWhile Char.isAlphanum
      if !run.isEmpty &&
          (match rest.drop run.length with
           | [] => true
           | '?' :: _ => true
           | _ => false) then
        some run
      else extMatch rest
    else extMatch rest

/-- Model of `getExtensionFromUrl`: the content-type table wins, then the
extension of the URL path (of the raw string when the URL does not parse),
else `.bin`. -/
def getExtensionFromUrl (url : String) (contentType : Option String) : String :=
  let fromType : Option String :=
    match contentType with
    | some ct =>
      let key := jsToLower (jsTrim ⟨ct.data.takeWhile (· ≠ ';')⟩)
      (mimeExtMap.find? fun p => p.1 == key).map Prod.snd
    | none => none
  match fromType with
  | some ext => ext
  | none =>
    match jsUrlPathname url with
    | some pathname =>
      match extMatch pathname.data with
      | some run => "." ++ jsToLower ⟨run⟩
      | none => ".bin"
    | none =>
      match extMatch url.data with
      | some run => "." ++ jsToLower ⟨run⟩
      | none => ".bin"

/-- Model of `destPath.replace(/\.[^.]+$/, '')`: drop a final dot-extension
(a dot followed by one or more non-dot characters at the end). -/
def stripLastExt (s : String) : String :=
  let r := s.data.reverse
  let run := r.takeWhile (· ≠ '.')
  if run.length < r.length && !run.isEmpty then ⟨(r.drop (run.length + 1)).reverse⟩
  else s

/-- Outcome of one `fetch` of a candidate URL (the network oracle's answer):
either a response (status, status text, whether a body is present,
content-type and content-length headers), or a thrown error (connection
failure, abort on timeout, or a streaming failure). -/
inductive FetchOutcome where
  | response (status : Nat) (statusText : String) (hasBody : Bool)
      (contentType : Option String) (contentLength : Option Nat)
  | thrown (message : String)
deriving DecidableEq, Repr

/-- A network oracle: the outcome of fetching a given candidate URL at a
given attempt index. -/
def FetchOracle : Type := String → Nat → FetchOutcome

/-- One iteration of the retry loop's `try` block: non-2xx responses and
missing bodies become errors; on success the destination extension is
rewritten from the content type / URL and the reported size is the
`Content-Length` header (0 when absent). -/
def attemptOnce (oracle : FetchOracle) (destPath c : String) (attempt : Nat) :
    Except String (String × Nat) :=
  match oracle c attempt with
  | .thrown e => .error e
  | .response status text hasBody ct len =>
    if !(200 ≤ status && status ≤ 299) then
      .error ("HTTP " ++ toString status ++ ": " ++ text)
    else if !hasBody then .error "Response body is empty"
    else
      let ext := getExtensionFromUrl c ct
      .ok (stripLastExt destPath ++ ext, len.getD 0)

/-- The error produced by one attempt, if it fails. -/
def attemptErr? (oracle : FetchOracle) (destPath c : String) (attempt : Nat) :
    Option String :=
  match attemptOnce oracle destPath c attempt with
  | .error e => some e
  | .ok _ => none

/-- One logged attempt: candidate URL, attempt index, and the backoff delay
executed after it (none for the last attempt on a candidate and on
success). -/
structure AttemptLog where
  candidate : String
  attemptIdx : Nat
  delayAfter : Option Nat
deriving DecidableEq, Repr

/-- The inner `for (attempt …)` loop of `downloadAsset` on one candidate:
runs attempts `attempt, attempt+1, …` while fuel remains, stopping at the
first success, sleeping `min(baseDelay * 2^attempt, maxDelay)` after a
failure when another attempt on this candidate follows, and threading the
last observed error. -/
def attemptLoop (oracle : FetchOracle) (destPath c : String) :
    Nat → Nat → Option String →
    List AttemptLog × Option String × Option (String × Nat)
  | _, 0, lastErr => ([], lastErr, none)
  | attempt, fuel + 1, lastErr =>
    match attemptOnce oracle destPath c attempt with
    | .ok res => ([⟨c, attempt, none⟩], lastErr, some res)
    | .error e =>
      let d := if attempt < RETRY_CONFIG_maxRetries - 1 then
          some (min (RETRY_CONFIG_baseDelay * 2 ^ attempt) RETRY_CONFIG_maxDelay)
        else none
      let rest := attemptLoop oracle destPath c (attempt + 1) fuel (some e)
      (⟨c, attempt, d⟩ :: rest.1, rest.2.1, rest.2.2)

/-- The outer `for (tryUrl of urlsToTry)` loop of `downloadAsset`. -/
def candidateLoop (oracle : FetchOracle) (destPath : String) :
    List String → Option String →
    List AttemptLog × Option String × Option (String × Nat)
  | [], lastErr => ([], lastErr, none)
  | c :: rest, lastErr =>
    let r := attemptLoop oracle destPath c 0 RETRY_CONFIG_maxRetries lastErr
    match r.2.2 with
    | some res => (r.1, r.2.1, some res)
    | none =>
      let r2 := candidateLoop oracle destPath rest r.2.1
      (r.1 ++ r2.1, r2.2.1, r2.2.2)

/-- Candidate list of `downloadAsset`: the CID substituted into every
configured gateway base URL when the url matches `/ipfs/<cid>`, else the
url alone. -/
def downloadCandidates (url : String) : List String :=
  match findIpfsCap url.data with
  | some hash => IPFS_GATEWAY_URLS.map fun gateway => gateway ++ (⟨hash⟩ : String)
  | none => [url]

/-- Model of `downloadAsset` from `downloader.ts`, returning the attempt
trace alongside the result. -/
def downloadAsset (oracle : FetchOracle) (url destPath : String) :
    List AttemptLog × Except String (String × Nat) :=
  let urlsToTry := downloadCandidates url
  let r := candidateLoop oracle destPath urlsToTry none
  match r.2.2 with
  | some res => (r.1, .ok res)
  | none => (r.1, .error ((r.2.1).getD ("Failed to download: " ++ url)))

/-! ## Retry-loop lemmas -/

/-- Shape of the attempt trace of one candidate: every log is on this
candidate with an index in the executed window. -/
theorem attemptLoop_shape (oracle : FetchOracle) (destPath c : String) :
    ∀ fuel attempt le, ∀ l ∈ (attemptLoop oracle destPath c attempt fuel le).1,
      l.candidate = c ∧ attempt ≤ l.attemptIdx ∧ l.attemptIdx < attempt + fuel := by
  intro fuel
  induction fuel with
  | zero => intro attempt le l hl; simp [attemptLoop] at hl
  | succ f ih =>
    intro attempt le l hl
    simp only [attemptLoop] at hl
    rcases h : attemptOnce oracle destPath c attempt with e | res
    all_goals rw [h] at hl
    · rcases List.mem_cons.mp hl with h1 | h1
      · subst h1
        exact ⟨rfl, Nat.le_refl _, by show attempt < attempt + (f + 1); omega⟩
      · rcases ih (attempt + 1) (some e) l h1 with ⟨h2, h3, h4⟩
        exact ⟨h2, by omega, by omega⟩
    · have h1 : l = ⟨c, attempt, none⟩ := by simpa using hl
      subst h1
      exact ⟨rfl, Nat.le_refl _, by show attempt < attempt + (f + 1); omega⟩

/-- The attempt trace of one candidate has at most `fuel` entries. -/
theorem attemptLoop_length (oracle : FetchOracle) (destPath c : String) :
    ∀ fuel attempt le, (attemptLoop oracle destPath c attempt fuel le).1.length ≤ fuel := by
  intro fuel
  induction fuel with
  | zero => intro attempt le; simp [attemptLoop]
  | succ f ih =>
    intro attempt le
    simp only [attemptLoop]
    rcases h : attemptOnce oracle destPath c attempt with e | res
    · simpa using ih (attempt + 1) (some e)
    · simp

/-- Each logged attempt carries the backoff delay dictated by its index:
`min(baseDelay * 2^attempt, maxDelay)` after a failure that is followed by
another attempt on the same candidate, nothing otherwise. -/
theorem attemptLoop_delay (oracle : FetchOracle) (destPath c : String) :
    ∀ fuel attempt le, ∀ l ∈ (attemptLoop oracle destPath c attempt fuel le).1,
      l.delayAfter = if (attemptErr? oracle destPath c l.attemptIdx).isSome = true ∧
          l.attemptIdx < RETRY_CONFIG_maxRetries - 1 then
        some (min (RETRY_CONFIG_baseDelay * 2 ^ l.attemptIdx) RETRY_CONFIG_maxDelay)
      else none := by
  intro fuel
  induction fuel with
  | zero => intro attempt le l hl; simp [attemptLoop] at hl
  | succ f ih =>
    intro attempt le l hl
    simp only [attemptLoop] at hl
    rcases h : attemptOnce oracle destPath c attempt with e | res
    all_goals rw [h] at hl
    · rcases List.mem_cons.mp hl with h1 | h1
      · subst h1
        have herr : (attemptErr? oracle destPath c attempt).isSome = true := by
          simp [attemptErr?, h]
        by_cases hlt : attempt < RETRY_CONFIG_maxRetries - 1 <;> simp [herr, hlt]
      · exact ih (attempt + 1) (some e) l h1
    · have h1 : l = ⟨c, attempt, none⟩ := by simpa using hl
      subst h1
      simp [attemptErr?, h]

/-- The inner loop reports no success exactly when every attempt in its
window fails. -/
theorem attemptLoop_none_iff (oracle : FetchOracle) (destPath c : String) :
    ∀ fuel attempt le, (attemptLoop oracle destPath c attempt fuel le).2.2 = none ↔
      (∀ i, attempt ≤ i → i < attempt + fuel →
        (attemptErr? oracle destPath c i).isSome = true) := by
  intro fuel
  induction fuel with
  | zero => intro attempt le; simp [attemptLoop]; omega
  | succ f ih =>
    intro attempt le
    simp only [attemptLoop]
    rcases h : attemptOnce oracle destPath c attempt with e | res
    · simp only
      rw [ih (attempt + 1) (some e)]
      constructor
      · intro h1 i hge hlt
        rcases Nat.eq_or_lt_of_le hge with h2 | h2
        · subst h2; simp [attemptErr?, h]
        · exact h1 i h2 (by omega)
      · intro h1 i hge hlt
        exact h1 i (by omega) (by omega)
    · simp only
      constructor
      · intro h1; cases h1
      · intro h1
        have := h1 attempt (Nat.le_refl _) (by omega)
        simp [attemptErr?, h] at this

/-- When every attempt in the window fails and the window is nonempty, the
threaded last-error is the error of the window's final attempt. -/
theorem attemptLoop_lastErr (oracle : FetchOracle) (destPath c : String) :
    ∀ fuel attempt le, 0 < fuel →
      (∀ i, attempt ≤ i → i < attempt + fuel →
        (attemptErr? oracle destPath c i).isSome = true) →
      (attemptLoop oracle destPath c attempt fuel le).2.1 =
        attemptErr? oracle destPath c (attempt + fuel - 1) := by
  intro fuel
  induction fuel with
  | zero => intro attempt le h; omega
  | succ f ih =>
    intro attempt le _ hall
    simp only [attemptLoop]
    rcases h : attemptOnce oracle destPath c attempt with e | res
    · simp only
      rcases Nat.eq_zero_or_pos f with hf | hf
      · subst hf
        simp [attemptLoop, attemptErr?, h]
      · rw [ih (attempt + 1) (some e) hf (fun i hge hlt => hall i (by omega) (by omega))]
        congr 1
        omega
    · have := hall attempt (Nat.le_refl _) (by omega)
      simp [attemptErr?, h] at this

/-- Every logged attempt of the outer loop is on one of the candidates,
with an index below `maxRetries`. -/
theorem candidateLoop_shape (oracle : FetchOracle) (destPath : String) :
    ∀ cs le, ∀ l ∈ (candidateLoop oracle destPath cs le).1,
      l.candidate ∈ cs ∧ l.attemptIdx < RETRY_CONFIG_maxRetries := by
  intro cs
  induction cs with
  | nil => intro le l hl; simp [candidateLoop] at hl
  | cons c rest ih =>
    intro le l hl
    simp only [candidateLoop] at hl
    rcases hr : (attemptLoop oracle destPath c 0 RETRY_CONFIG_maxRetries le).2.2 with _ | res
    all_goals rw [hr] at hl
    · rcases List.mem_append.mp hl with h1 | h1
      · rcases attemptLoop_shape oracle destPath c _ _ _ l h1 with ⟨h2, _, h4⟩
        exact ⟨by simp [h2], by simpa using h4⟩
      · rcases ih _ l h1 with ⟨h2, h3⟩
        exact ⟨List.mem_cons_of_mem _ h2, h3⟩
    · rcases attemptLoop_shape oracle destPath c _ _ _ l hl with ⟨h2, _, h4⟩
      exact ⟨by simp [h2], by simpa using h4⟩

/-- All logs of the inner loop are on its own candidate. -/
theorem attemptLoop_candidate (oracle : FetchOracle) (destPath c : String)
    (fuel attempt : Nat) (le : Option String) :
    ∀ l ∈ (attemptLoop oracle destPath c attempt fuel le).1, l.candidate = c :=
  fun l hl => (attemptLoop_shape oracle destPath c fuel attempt le l hl).1

/-- With distinct candidates, at most `maxRetries` logged attempts target
any one candidate string. -/
theorem candidateLoop_count (oracle : FetchOracle) (destPath : String) :
    ∀ cs le, cs.Nodup → ∀ cand,
      ((candidateLoop oracle destPath cs le).1.filter
        fun l => l.candidate == cand).length ≤ RETRY_CONFIG_maxRetries := by
  intro cs
  induction cs with
  | nil => intro le _ cand; simp [candidateLoop]
  | cons c rest ih =>
    intro le hnd cand
    simp only [candidateLoop]
    have hnd1 : c ∉ rest := (List.nodup_cons.mp hnd).1
    have hnd2 : rest.Nodup := (List.nodup_cons.mp hnd).2
    rcases hr : (attemptLoop oracle destPath c 0 RETRY_CONFIG_maxRetries le).2.2 with _ | res
    all_goals simp only
    · by_cases hc : cand = c
      · subst hc
        rw [List.filter_append]
        have hz : ((candidateLoop oracle destPath rest
            (attemptLoop oracle destPath cand 0 RETRY_CONFIG_maxRetries le).2.1).1.filter
              fun l => l.candidate == cand).length = 0 := by
          rw [List.length_eq_zero, List.filter_eq_nil_iff]
          intro l hl hb
          rcases candidateLoop_shape oracle destPath rest _ l hl with ⟨h2, _⟩
          exact hnd1 (by rwa [show l.candidate = cand from by simpa using hb] at h2)
        rw [List.length_append, hz]
        have := List.length_filter_le (fun l => l.candidate == cand)
          (attemptLoop oracle destPath cand 0 RETRY_CONFIG_maxRetries le).1
        have hlen := attemptLoop_length oracle destPath cand RETRY_CONFIG_maxRetries 0 le
        omega
      · rw [List.filter_append]
        have hz : ((attemptLoop oracle destPath c 0 RETRY_CONFIG_maxRetries le).1.filter
            fun l => l.candidate == cand).length = 0 := by
          rw [List.length_eq_zero, List.filter_eq_nil_iff]
          intro l hl hb
          have := attemptLoop_candidate oracle destPath c _ _ _ l hl
          exact hc (by rw [← show l.candidate = cand from by simpa using hb, this])
        rw [List.length_append, hz]
        simpa using ih _ hnd2 cand
    · by_cases hc : cand = c
      · subst hc
        have := List.length_filter_le (fun l => l.candidate == cand)
          (attemptLoop oracle destPath cand 0 RETRY_CONFIG_maxRetries le).1
        have hlen := attemptLoop_length oracle destPath cand RETRY_CONFIG_maxRetries 0 le
        omega
      · have hz : ((attemptLoop oracle destPath c 0 RETRY_CONFIG_maxRetries le).1.filter
            fun l => l.candidate == cand).length = 0 := by
          rw [List.length_eq_zero, List.filter_eq_nil_iff]
          intro l hl hb
          have := attemptLoop_candidate oracle destPath c _ _ _ l hl
          exact hc (by rw [← show l.candidate = cand from by simpa using hb, this])
        omega

/-- The outer loop reports no success exactly when every attempt on every
candidate fails. -/
theorem candidateLoop_none_iff (oracle : FetchOracle) (destPath : String) :
    ∀ cs le, (candidateLoop oracle destPath cs le).2.2 = none ↔
      (∀ c ∈ cs, ∀ i, i < RETRY_CONFIG_maxRetries →
        (attemptErr? oracle destPath c i).isSome = true) := by
  intro cs
  induction cs with
  | nil => intro le; simp [candidateLoop]
  | cons c rest ih =>
    intro le
    simp only [candidateLoop]
    rcases hr : (attemptLoop oracle destPath c 0 RETRY_CONFIG_maxRetries le).2.2 with _ | res
    · simp only
      rw [ih]
      constructor
      · intro h1 c2 hc2 i hi
        rcases List.mem_cons.mp hc2 with h2 | h2
        · subst h2
          exact (attemptLoop_none_iff oracle destPath c2 RETRY_CONFIG_maxRetries 0 le).mp hr
            i (Nat.zero_le _) (by simpa using hi)
        · exact h1 c2 h2 i hi
      · intro h1 c2 hc2 i hi
        exact h1 c2 (List.mem_cons_of_mem _ hc2) i hi
    · simp only
      constructor
      · intro h1; cases h1
      · intro h1
        have hall := h1 c (List.mem_cons_self _ _)
        have : (attemptLoop oracle destPath c 0 RETRY_CONFIG_maxRetries le).2.2 = none :=
          (attemptLoop_none_iff oracle destPath c RETRY_CONFIG_maxRetries 0 le).mpr
            (fun i _ hlt => hall i (by simpa using hlt))
        rw [this] at hr
        cases hr

/-- When everything fails, the error threaded out of the outer loop is the
one of the last attempt on the last candidate. -/
theorem candidateLoop_lastErr (oracle : FetchOracle) (destPath : String) :
    ∀ cs le, cs ≠ [] →
      (∀ c ∈ cs, ∀ i, i < RETRY_CONFIG_maxRetries →
        (attemptErr? oracle destPath c i).isSome = true) →
      ∃ c, cs.getLast? = some c ∧
        (candidateLoop oracle destPath cs le).2.1 =
          attemptErr? oracle destPath c (RETRY_CONFIG_maxRetries - 1) := by
  intro cs
  induction cs with
  | nil => intro le h; exact absurd rfl h
  | cons c rest ih =>
    intro le _ hall
    have hcfail := hall c (List.mem_cons_self _ _)
    have hnone : (attemptLoop oracle destPath c 0 RETRY_CONFIG_maxRetries le).2.2 = none :=
      (attemptLoop_none_iff oracle destPath c RETRY_CONFIG_maxRetries 0 le).mpr
        (fun i _ hlt => hcfail i (by simpa using hlt))
    simp only [candidateLoop]
    rw [hnone]
    rcases rest with _ | ⟨r, rs⟩
    · refine ⟨c, rfl, ?_⟩
      simp only [candidateLoop]
      exact attemptLoop_lastErr oracle destPath c RETRY_CONFIG_maxRetries 0 le
        (by simp [RETRY_CONFIG_maxRetries]) (fun i hge hlt => hcfail i (by simpa using hlt))
    · have hne : r :: rs ≠ [] := by simp
      rcases ih _ hne (fun c2 hc2 => hall c2 (List.mem_cons_of_mem _ hc2)) with ⟨cl, hcl, herr⟩
      refine ⟨cl, ?_, herr⟩
      rw [List.getLast?_cons_cons]
      exact hcl

/-- The candidate list never contains duplicates: the gateway bases are
pairwise distinct and appending the same CID keeps them distinct. -/
theorem nodup_downloadCandidates (url : String) : (downloadCandidates url).Nodup := by
  unfold downloadCandidates
  rcases h : findIpfsCap url.data with _ | hash
  · simp
  · apply List.Nodup.map_on
    · intro g1 h1 g2 h2 heq
      have hdata : g1.data ++ hash = g2.data ++ hash := by
        have := congrArg String.data heq
        simpa [String.data_append] using this
      exact String.ext (List.append_cancel_right hdata)
    · decide

/-- Claim C7: `downloadAsset` builds its candidate list by substituting the
CID into every configured gateway base URL (in configured order) when the
url contains an `/ipfs/<cid>` segment and uses `[url]` otherwise; it tries
candidates in order with at most `maxRetries` attempts per candidate; a
failed attempt that is followed by another attempt on the same candidate is
followed by a backoff delay of `min(baseDelay * 2^attempt, maxDelay)` and
no other delay is executed (in particular none when moving to the next
candidate); and it throws iff every attempt on every candidate fails, the
thrown error being the last observed one (the error of the final attempt on
the final candidate). -/
theorem claim_C7_download_retries (oracle : FetchOracle) (url destPath : String) :
    ((∀ hash, findIpfsCap url.data = some hash →
        downloadCandidates url = IPFS_GATEWAY_URLS.map fun g => g ++ (⟨hash⟩ : String)) ∧
     (findIpfsCap url.data = none → downloadCandidates url = [url])) ∧
    (∀ l ∈ (downloadAsset oracle url destPath).1,
        l.candidate ∈ downloadCandidates url ∧ l.attemptIdx < RETRY_CONFIG_maxRetries) ∧
    (∀ c, ((downloadAsset oracle url destPath).1.filter
        fun l => l.candidate == c).length ≤ RETRY_CONFIG_maxRetries) ∧
    (∀ l ∈ (downloadAsset oracle url destPath).1,
        l.delayAfter = if (attemptErr? oracle destPath l.candidate l.attemptIdx).isSome = true ∧
            l.attemptIdx < RETRY_CONFIG_maxRetries - 1 then
          some (min (RETRY_CONFIG_baseDelay * 2 ^ l.attemptIdx) RETRY_CONFIG_maxDelay)
        else none) ∧
    ((∃ e, (downloadAsset oracle url destPath).2 = .error e) ↔
      ∀ c ∈ downloadCandidates url, ∀ i, i < RETRY_CONFIG_maxRetries →
        (attemptErr? oracle destPath c i).isSome = true) ∧
    (∀ e, (downloadAsset oracle url destPath).2 = .error e →
      ∃ c, (downloadCandidates url).getLast? = some c ∧
        attemptErr? oracle destPath c (RETRY_CONFIG_maxRetries - 1) = some e) := by
  have hlog1 : (downloadAsset oracle url destPath).1 =
      (candidateLoop oracle destPath (downloadCandidates url) none).1 := by
    unfold downloadAsset
    rcases h : (candidateLoop oracle destPath (downloadCandidates url) none).2.2 with _ | res <;>
      simp [h]
  have hne : downloadCandidates url ≠ [] := by
    unfold downloadCandidates
    rcases h : findIpfsCap url.data with _ | hash <;> simp [IPFS_GATEWAY_URLS]
  refine ⟨⟨fun hash hh => by simp [downloadCandidates, hh],
      fun hh => by simp [downloadCandidates, hh]⟩, ?_, ?_, ?_, ?_, ?_⟩
  · rw [hlog1]
    exact candidateLoop_shape oracle destPath (downloadCandidates url) none
  · intro c
    rw [hlog1]
    exact candidateLoop_count oracle destPath (downloadCandidates url) none
      (nodup_downloadCandidates url) c
  · rw [hlog1]
    intro l hl
    rcases candidateLoop_shape oracle destPath (downloadCandidates url) none l hl with ⟨h1, _⟩
    have hdel : ∀ cs le, ∀ l2 ∈ (candidateLoop oracle destPath cs le).1,
        l2.delayAfter = if (attemptErr? oracle destPath l2.candidate l2.attemptIdx).isSome = true ∧
            l2.attemptIdx < RETRY_CONFIG_maxRetries - 1 then
          some (min (RETRY_CONFIG_baseDelay * 2 ^ l2.attemptIdx) RETRY_CONFIG_maxDelay)
        else none := by
      intro cs
      induction cs with
      | nil => intro le l2 hl2; simp [candidateLoop] at hl2
      | cons c2 rest2 ih =>
        intro le l2 hl2
        simp only [candidateLoop] at hl2
        rcases hr : (attemptLoop oracle destPath c2 0 RETRY_CONFIG_maxRetries le).2.2 with _ | res
        all_goals rw [hr] at hl2
        · rcases List.mem_append.mp hl2 with h2 | h2
          · have hcand := attemptLoop_candidate oracle destPath c2 _ _ _ l2 h2
            have := attemptLoop_delay oracle destPath c2 _ _ _ l2 h2
            rwa [hcand]
          · exact ih _ l2 h2
        · have hcand := attemptLoop_candidate oracle destPath c2 _ _ _ l2 hl2
          have := attemptLoop_delay oracle destPath c2 _ _ _ l2 hl2
          rwa [hcand]
    exact hdel (downloadCandidates url) none l hl
  · constructor
    · rintro ⟨e, he⟩
      simp only [downloadAsset] at he
      rcases h : (candidateLoop oracle destPath (downloadCandidates url) none).2.2 with _ | res
      · exact (candidateLoop_none_iff oracle destPath (downloadCandidates url) none).mp h
      · rw [h] at he
        simp at he
    · intro h1
      simp only [downloadAsset]
      have h2 : (candidateLoop oracle destPath (downloadCandidates url) none).2.2 = none :=
        (candidateLoop_none_iff oracle destPath (downloadCandidates url) none).mpr h1
      rw [h2]
      exact ⟨_, rfl⟩
  · intro e he
    have hfail : ∀ c ∈ downloadCandidates url, ∀ i, i < RETRY_CONFIG_maxRetries →
        (attemptErr? oracle destPath c i).isSome = true := by
      rcases h : (candidateLoop oracle destPath (downloadCandidates url) none).2.2 with _ | res
      · exact (candidateLoop_none_iff oracle destPath (downloadCandidates url) none).mp h
      · simp only [downloadAsset] at he
        rw [h] at he
        simp at he
    rcases candidateLoop_lastErr oracle destPath (downloadCandidates url) none hne hfail with
      ⟨c, hc, herr⟩
    refine ⟨c, hc, ?_⟩
    have h2 : (candidateLoop oracle destPath (downloadCandidates url) none).2.2 = none :=
      (candidateLoop_none_iff oracle destPath (downloadCandidates url) none).mpr hfail
    simp only [downloadAsset] at he
    rw [h2] at he
    simp only at he
    have hcl := hc
    have hmem : c ∈ downloadCandidates url := List.mem_of_getLast?_eq_some hcl
    have hsome : (attemptErr? oracle destPath c (RETRY_CONFIG_maxRetries - 1)).isSome = true :=
      hfail c hmem _ (by simp [RETRY_CONFIG_maxRetries])
    rcases Option.isSome_iff_exists.mp hsome with ⟨e2, he2⟩
    rw [herr, he2] at he
    simp at he
    rw [he2, ← he]

/-- Witness for C7 at a concrete oracle that always fails: a non-IPFS url
has itself as the only candidate, all nine attempt facts evaluate, and the
thrown error is the last attempt's error. -/
theorem claim_C7_witness :
    (downloadAsset (fun _ i => .thrown ("boom" ++ toString i)) "https://x.example/a.png"
      "out/file.bin").2 = .error "boom2" := by
  have h := (claim_C7_download_retries (fun _ i => .thrown ("boom" ++ toString i))
    "https://x.example/a.png" "out/file.bin").2.2.2.2.1
  rcases h.mpr (by decide) with ⟨e, he⟩
  have h2 := (claim_C7_download_retries (fun _ i => .thrown ("boom" ++ toString i))
    "https://x.example/a.png" "out/file.bin").2.2.2.2.2 e he
  rcases h2 with ⟨c, hc, herr⟩
  have hc2 : c = "https://x.example/a.png" := by
    have : (downloadCandidates "https://x.example/a.png").getLast? =
        some "https://x.example/a.png" := by decide
    rw [this] at hc
    exact (Option.some_inj.mp hc).symm
  subst hc2
  have he2 : e = "boom2" := by
    have : attemptErr? (fun _ i => .thrown ("boom" ++ toString i)) "out/file.bin"
        "https://x.example/a.png" (RETRY_CONFIG_maxRetries - 1) = some "boom2" := by decide
    rw [this] at herr
    exact (Option.some_inj.mp herr).symm
  rw [← he2]
  exact he

/-! ## File-system model -/

/-- A structural file path: a list of path segments. -/
abbrev FsPath := List String

/-- One element of the Manifest Index (`ManifestIndexEntry` in
`manifest.ts`). -/
structure IndexEntry where
  path : String
  chainName : String
  chainId : Nat
  walletAddress : String
  walletName : Option String
  backupDate : String
deriving DecidableEq, Repr

/-- Parsed content of one file in the manifest store's output tree.  A
canonical manifest file holds a serialized `BackupManifest`, a run record a
serialized `DeltaRecord`, and so on; `raw` models a file whose content does
not parse as JSON (malformed). -/
inductive FileData where
  | manifest (m : BackupManifest)
  | delta (d : DeltaRecord)
  | indexFile (version : Nat) (generatedAt : String) (entries : List IndexEntry)
  | gallery (version : Nat) (generatedAt : String) (entries : List IndexEntry)
      (manifestMap : List (String × BackupManifest))
  | raw (s : String)
deriving DecidableEq, Repr

instance : Inhabited FileData := ⟨.raw ""⟩

/-- File-system state: an association list from paths to file contents,
in creation order. -/
abbrev FS := List (FsPath × FileData)

/-- Read a file. -/
def fsGet? (fs : FS) (p : FsPath) : Option FileData :=
  (fs.find? fun e => e.1 == p).map Prod.snd

/-- Model of `fileExists` (an `access` that does not throw). -/
def fsExists (fs : FS) (p : FsPath) : Bool := (fsGet? fs p).isSome

/-- Write a file (`writeFile` / `copyFile` destination): overwrite in place
or create at the end. -/
def fsWrite (fs : FS) (p : FsPath) (d : FileData) : FS :=
  match fs with
  | [] => [(p, d)]
  | (p', d') :: rest => if p' = p then (p, d) :: rest else (p', d') :: fsWrite rest p d

/-- Delete a file (`rm`). -/
def fsRm (fs : FS) (p : FsPath) : FS := fs.filter fun e => !(e.1 == p)

/-- The name under which `p` appears as an immediate child of `dir`, if it
is one. -/
def childName? (dir p : FsPath) : Option String :=
  if p.dropLast = dir then p.getLast? else none

/-- Model of `readdir(dir)` restricted to plain files: the names of the
immediate children of `dir` (subtrees do not appear, matching the
`entry.isFile()` filters in the source). -/
def dirNames (fs : FS) (dir : FsPath) : List String :=
  fs.filterMap fun e => childName? dir e.1

/-! ## Manifest store (`src/manifest.ts`) -/

/-- `MANIFEST_HISTORY_LIMIT` from `manifest.ts`. -/
def MANIFEST_HISTORY_LIMIT : Nat := 2

/-- Characters kept verbatim by the sanitizer's character class
`[a-zA-Z0-9._-]`. -/
def isSegmentSafeChar (c : Char) : Bool :=
  c.isAlphanum || c = '.' || c = '_' || c = '-'

/-- Replace each maximal run of unsafe characters by one underscore
(`.replace(/[^a-zA-Z0-9._-]+/g, '_')`); the boolean tracks whether the
previous character was part of an unsafe run. -/
def collapseAux : Bool → List Char → List Char
  | _, [] => []
  | inRun, c :: rest =>
    if isSegmentSafeChar c then c :: collapseAux false rest
    else if inRun then collapseAux true rest
    else '_' :: collapseAux true rest

/-- The sanitizer's replacement step. -/
def collapseUnsafeRuns (s : String) : String := ⟨collapseAux false s.data⟩

/-- Model of `sanitizeManifestSegment`: trim, reject empty / `/` / `\` /
`..`, then collapse unsafe runs to `_`. -/
def sanitizeManifestSegment (value : String) : Except String String :=
  let trimmed := jsTrim value
  if trimmed = "" || strIncludes trimmed "/" || strIncludes trimmed "\\" ||
      strIncludes trimmed ".." then
    .error ("Invalid manifest segment: " ++ value)
  else .ok (collapseUnsafeRuns trimmed)

/-- Model of `getManifestBaseName`. -/
def getManifestBaseName (chainName walletAddress : String) : Except String String := do
  let safeChain ← sanitizeManifestSegment chainName
  let safeWallet ← sanitizeManifestSegment walletAddress
  pure ("manifest." ++ safeChain ++ "." ++ safeWallet)

/-- Model of `getManifestPath`. -/
def getManifestPath (outputDir : FsPath) (chainName walletAddress : String) :
    Except String FsPath := do
  let baseName ← getManifestBaseName chainName walletAddress
  pure (outputDir ++ ["manifests", baseName ++ ".json"])

/-- Model of `formatTimestampForFilename`: `date.toISOString()` is the
input string, and every `:` is replaced by `-`. -/
def formatTimestampForFilename (iso : String) : String :=
  ⟨iso.data.map fun c => if c = ':' then '-' else c⟩

/-- The collision suffix `-${attempt}` of the unique-path searches (empty
on the first try). -/
def collisionSuffix : Nat → String
  | 0 => ""
  | n + 1 => "-" ++ toString (n + 1)

/-- Candidate file name of `getUniqueHistoryPath` for the given attempt. -/
def historySnapName (baseName timestamp : String) (n : Nat) : String :=
  baseName ++ "." ++ timestamp ++ collisionSuffix n ++ ".json"

/-- Model of `getUniqueHistoryPath`: the first candidate name not present
in the file system.  The search in the source is unbounded; a fresh name
always exists among the first `fs.length + 1` candidates, so the search is
modelled over that range (the fallback branch is dead code, see
`getUniqueHistoryPath_fresh`). -/
def getUniqueHistoryPath (fs : FS) (historyDir : FsPath) (baseName timestamp : String) :
    FsPath :=
  match (List.range (fs.length + 1)).find?
      (fun n => !(fsExists fs (historyDir ++ [historySnapName baseName timestamp n]))) with
  | some n => historyDir ++ [historySnapName baseName timestamp n]
  | none => historyDir ++ [historySnapName baseName timestamp (fs.length + 1)]

/-- The filter of `pruneHistorySnapshots`:
`name.startsWith(baseName + '.') && name.endsWith('.json')`. -/
def historyMatches (baseName name : String) : Bool :=
  strStartsWith name (baseName ++ ".") && strEndsWith name ".json"

/-- Model of `pruneHistorySnapshots`: list the matching snapshot names,
sort them, and remove all but the last `keep`. -/
def pruneHistorySnapshots (fs : FS) (historyDir : FsPath) (baseName : String)
    (keep : Nat) : FS :=
  let snapshots := (dirNames fs historyDir).filter (historyMatches baseName)
  let sorted := jsSortStrings snapshots
  if sorted.length ≤ keep then fs
  else (sorted.take (sorted.length - keep)).foldl (fun f n => fsRm f (historyDir ++ [n])) fs

/-- Candidate file name of `getUniqueRunPath`. -/
def runFileName (filenameBase : String) (n : Nat) : String :=
  filenameBase ++ collisionSuffix n ++ ".json"

/-- Model of `getUniqueRunPath` (same bounded-search modelling as
`getUniqueHistoryPath`). -/
def getUniqueRunPath (fs : FS) (runsDir : FsPath) (filenameBase : String) : FsPath :=
  match (List.range (fs.length + 1)).find?
      (fun n => !(fsExists fs (runsDir ++ [runFileName filenameBase n]))) with
  | some n => runsDir ++ [runFileName filenameBase n]
  | none => runsDir ++ [runFileName filenameBase (fs.length + 1)]

/-- `JSON.parse` of a stored file interpreted as a manifest: only a
serialized `BackupManifest` parses (a `raw` file throws, and any other
stored shape fails the manifest reads that follow). -/
def parseManifest? : FileData → Option BackupManifest
  | .manifest m => some m
  | _ => none

/-- Index entry built by `collectCanonicalManifests` for one scanned file
(`join('manifests', file.name)` with `/`). -/
def indexEntryFor (name : String) (m : BackupManifest) : IndexEntry :=
  { path := "manifests/" ++ name, chainName := m.chainName, chainId := m.chainId,
    walletAddress := m.walletAddress, walletName := m.ensName, backupDate := m.backupDate }

/-- The scan filter of `collectCanonicalManifests`:
`name.startsWith('manifest.') && name.endsWith('.json')`. -/
def scanNames (fs : FS) (manifestDir : FsPath) : List String :=
  (dirNames fs manifestDir).filter fun n =>
    strStartsWith n "manifest." && strEndsWith n ".json"

/-- The sort of the index entries (`localeCompare` by chain name, then by
wallet address, modelled as code-unit comparison). -/
def indexEntryLe (a b : IndexEntry) : Bool :=
  if a.chainName = b.chainName then jsLeb a.walletAddress b.walletAddress
  else jsLeb a.chainName b.chainName

/-- Model of `collectCanonicalManifests`: scan `manifests/`, parse each
matching file (malformed files are skipped), build sorted index entries
and the path → manifest map. -/
def collectCanonicalManifests (fs : FS) (manifestDir : FsPath) :
    List IndexEntry × List (String × BackupManifest) :=
  let pairs := (scanNames fs manifestDir).filterMap fun n =>
    match fsGet? fs (manifestDir ++ [n]) with
    | some d => (parseManifest? d).map fun m => (n, m)
    | none => none
  let indexEntries := pairs.map fun p => indexEntryFor p.1 p.2
  (List.insertionSort (fun a b => indexEntryLe a b = true) indexEntries,
   pairs.map fun p => ("manifests/" ++ p.1, p.2))

/-- Model of `writeManifestIndex` (the surrounding `mkdir` calls are
no-ops in this model; `now` is `new Date().toISOString()`). -/
def writeManifestIndex (fs : FS) (outputDir : FsPath) (now : String) : FS :=
  let manifestDir := outputDir ++ ["manifests"]
  let c := collectCanonicalManifests fs manifestDir
  fsWrite fs (manifestDir ++ ["index.json"]) (.indexFile 1 now c.1)

/-- Model of `writeGalleryData`. -/
def writeGalleryData (fs : FS) (outputDir : FsPath) (now : String) : FS :=
  let manifestDir := outputDir ++ ["manifests"]
  let c := collectCanonicalManifests fs manifestDir
  fsWrite fs (outputDir ++ ["gallery-data.js"]) (.gallery 1 now c.1 c.2)

/-- Model of `writeManifestWithHistory`: read the previous manifest when a
canonical file exists (the two source `if (hasExisting)` blocks are merged
into one match on the canonical content), snapshot it into `history/` under
a collision-free timestamped name and prune, write the delta run record,
overwrite the canonical file, and regenerate index and gallery bundle.
`tsHist`, `tsRun`, `nowIdx` and `nowGal` are the four `new Date()`
timestamps drawn during one call. -/
def writeManifestWithHistory (fs : FS) (outputDir : FsPath)
    (chainName walletAddress : String) (manifest : BackupManifest)
    (tsHist tsRun nowIdx nowGal : String) : Except String (FS × FsPath) := do
  let manifestDir := outputDir ++ ["manifests"]
  let historyDir := manifestDir ++ ["history"]
  let runsDir := manifestDir ++ ["runs"]
  let baseName ← getManifestBaseName chainName walletAddress
  let manifestPath := manifestDir ++ [baseName ++ ".json"]
  let step : Option BackupManifest × FS ←
    match fsGet? fs manifestPath with
    | none => pure (none, fs)
    | some d =>
      match parseManifest? d with
      | none => .error ("Unexpected token in JSON: " ++ (baseName ++ ".json"))
      | some prev =>
        let historyPath := getUniqueHistoryPath fs historyDir baseName
          (formatTimestampForFilename tsHist)
        pure (some prev,
          pruneHistorySnapshots (fsWrite fs historyPath d) historyDir baseName
            MANIFEST_HISTORY_LIMIT)
  let previousManifest := step.1
  let fs1 := step.2
  let delta := buildDelta previousManifest manifest
  let safeChain ← sanitizeManifestSegment chainName
  let safeWallet ← sanitizeManifestSegment walletAddress
  let runBaseName := "run." ++ formatTimestampForFilename tsRun ++ "." ++
    safeChain ++ "." ++ safeWallet
  let runPath := getUniqueRunPath fs1 runsDir runBaseName
  let fs2 := fsWrite fs1 runPath (.delta delta)
  let fs3 := fsWrite fs2 manifestPath (.manifest manifest)
  let fs4 := writeManifestIndex fs3 outputDir nowIdx
  let fs5 := writeGalleryData fs4 outputDir nowGal
  pure (fs5, manifestPath)

/-! ## Claim C9: segment sanitization and path derivation -/

/-- Modelled from the spec sentence of C9: the sanitized segment is "the
input with characters outside `[A-Za-z0-9._-]` stripped" — a pure deletion
of the unsafe characters of the trimmed input.  Used only to compare the
claim's wording with the code. -/
def specStripSegment (s : String) : String :=
  ⟨(jsTrim s).data.filter isSegmentSafeChar⟩

/-- Claim C9, counterexample: on `"a b"` the code produces `"a_b"` (each
unsafe run becomes one underscore) while the claim's "characters outside
`[A-Za-z0-9._-]` stripped" would produce `"ab"`; the two disagree. -/
theorem claim_C9_counterexample :
    sanitizeManifestSegment "a b" = .ok "a_b" ∧
    specStripSegment "a b" = "ab" ∧ ("a_b" : String) ≠ "ab" := by
  refine ⟨rfl, rfl, by decide⟩

/-- Claim C9 (amended): sanitization raises an error exactly when the
trimmed segment is empty or contains `/`, `\` or `..` (never silently
repairing those); otherwise the sanitized segment is the trimmed input with
each maximal run of characters outside `[A-Za-z0-9._-]` replaced by a
single `_`; and the canonical manifest path is deterministically
`manifests/manifest.<chain>.<wallet>.json` built from the two sanitized
segments. -/
theorem claim_C9_sanitization (s : String) :
    ((∃ e, sanitizeManifestSegment s = .error e) ↔
      (jsTrim s = "" ∨ strIncludes (jsTrim s) "/" = true ∨
       strIncludes (jsTrim s) "\\" = true ∨ strIncludes (jsTrim s) ".." = true)) ∧
    (∀ out, sanitizeManifestSegment s = .ok out → out = collapseUnsafeRuns (jsTrim s)) ∧
    (∀ (outputDir : FsPath) (c w cs ws : String),
      sanitizeManifestSegment c = .ok cs → sanitizeManifestSegment w = .ok ws →
      getManifestPath outputDir c w =
        .ok (outputDir ++ ["manifests", "manifest." ++ cs ++ "." ++ ws ++ ".json"])) := by
  have hs : sanitizeManifestSegment s =
      if (decide (jsTrim s = "") || strIncludes (jsTrim s) "/" ||
          strIncludes (jsTrim s) "\\" || strIncludes (jsTrim s) "..") = true
      then .error ("Invalid manifest segment: " ++ s)
      else .ok (collapseUnsafeRuns (jsTrim s)) := rfl
  refine ⟨?_, ?_, ?_⟩
  · rw [hs]
    by_cases h : (decide (jsTrim s = "") || strIncludes (jsTrim s) "/" ||
        strIncludes (jsTrim s) "\\" || strIncludes (jsTrim s) "..") = true
    · simp only [h, if_true]
      constructor
      · intro _
        have h2 := h
        simp only [Bool.or_eq_true, decide_eq_true_eq] at h2
        tauto
      · intro _
        exact ⟨_, rfl⟩
    · simp only [h, if_false]
      constructor
      · rintro ⟨e, he⟩
        cases he
      · intro hd
        exfalso
        apply h
        rcases hd with h1 | h1 | h1 | h1 <;> simp [h1]
  · intro out hout
    rw [hs] at hout
    by_cases h : (decide (jsTrim s = "") || strIncludes (jsTrim s) "/" ||
        strIncludes (jsTrim s) "\\" || strIncludes (jsTrim s) "..") = true
    · rw [if_pos h] at hout
      cases hout
    · rw [if_neg h] at hout
      cases hout
      rfl
  · intro outputDir c w cs ws hc hw
    unfold getManifestPath getManifestBaseName
    rw [hc, hw]
    rfl

/-- Witness for C9 at concrete inputs: a path-separator segment errors, a
spaced segment collapses to an underscore, and the path of
(`ethereum`, `0xAbC`) is the expected canonical path. -/
theorem claim_C9_witness :
    (∃ e, sanitizeManifestSegment "a/b" = .error e) ∧
    ("a_b" : String) = collapseUnsafeRuns (jsTrim "a b") ∧
    getManifestPath [] "ethereum" "0xAbC" =
      .ok (([] : FsPath) ++ ["manifests", "manifest." ++ "ethereum" ++ "." ++ "0xAbC" ++ ".json"]) := by
  refine ⟨(claim_C9_sanitization "a/b").1.mpr (Or.inr (Or.inl (by decide))),
    (claim_C9_sanitization "a b").2.1 "a_b" rfl,
    (claim_C9_sanitization "x").2.2 [] "ethereum" "0xAbC" "ethereum" "0xAbC" rfl rfl⟩

/-! ## File-system lemmas -/

/-- Keys of the file system, in creation order. -/
def fsKeys (fs : FS) : List FsPath := fs.map Prod.fst

/-- Reading the path just written. -/
theorem fsGet?_fsWrite_self (fs : FS) (p : FsPath) (d : FileData) :
    fsGet? (fsWrite fs p d) p = some d := by
  induction fs with
  | nil => simp [fsWrite, fsGet?, List.find?]
  | cons e rest ih =>
    rcases e with ⟨p1, d1⟩
    by_cases hp : p1 = p
    · simp [fsWrite, hp, fsGet?, List.find?]
    · have hbeq : (p1 == p) = false := by simpa using hp
      simpa [fsWrite, hp, fsGet?, List.find?, hbeq] using ih

/-- Reading another path after a write. -/
theorem fsGet?_fsWrite_ne (fs : FS) (p q : FsPath) (d : FileData) (h : q ≠ p) :
    fsGet? (fsWrite fs p d) q = fsGet? fs q := by
  induction fs with
  | nil =>
    have hbeq : (p == q) = false := by simpa using (Ne.symm h)
    simp [fsWrite, fsGet?, List.find?, hbeq]
  | cons e rest ih =>
    rcases e with ⟨p1, d1⟩
    by_cases hp : p1 = p
    · subst hp
      have hbeq : (p1 == q) = false := by simpa using (Ne.symm h)
      simp [fsWrite, fsGet?, List.find?, hbeq]
    · by_cases hq : p1 = q
      · subst hq
        simp [fsWrite, hp, fsGet?, List.find?]
      · have hbeq : (p1 == q) = false := by simpa using hq
        simpa [fsWrite, hp, fsGet?, List.find?, hbeq] using ih

/-- Reading a removed path. -/
theorem fsGet?_fsRm_self (fs : FS) (p : FsPath) : fsGet? (fsRm fs p) p = none := by
  induction fs with
  | nil => simp [fsRm, fsGet?]
  | cons e rest ih =>
    rcases e with ⟨p1, d1⟩
    by_cases hp : p1 = p
    · simp only [fsRm, List.filter_cons, show (!(p1 == p)) = false from by simp [hp]]
      exact ih
    · have hbeq : (p1 == p) = false := by simpa using hp
      simp only [fsRm, List.filter_cons, Bool.not_eq_eq_eq_not, Bool.not_false, hbeq,
        fsGet?, List.find?]
      simp only [fsRm, fsGet?] at ih
      simp [hbeq, ih]

/-- Reading another path after a removal. -/
theorem fsGet?_fsRm_ne (fs : FS) (p q : FsPath) (h : q ≠ p) :
    fsGet? (fsRm fs p) q = fsGet? fs q := by
  induction fs with
  | nil => simp [fsRm, fsGet?]
  | cons e rest ih =>
    rcases e with ⟨p1, d1⟩
    by_cases hp : p1 = p
    · subst hp
      have hbeq : (p1 == q) = false := by simpa using (Ne.symm h)
      simpa [fsRm, fsGet?, List.find?, hbeq] using ih
    · by_cases hq : p1 = q
      · subst hq
        simp [fsRm, fsGet?, List.find?, show (p1 == p) = false from by simpa using hp]
      · have hbeq : (p1 == q) = false := by simpa using hq
        simpa [fsRm, fsGet?, List.find?, hbeq,
          show (p1 == p) = false from by simpa using hp] using ih

/-- A write preserves key nodup-ness. -/
theorem nodup_fsKeys_fsWrite (fs : FS) (p : FsPath) (d : FileData)
    (h : (fsKeys fs).Nodup) : (fsKeys (fsWrite fs p d)).Nodup := by
  induction fs with
  | nil => simp [fsWrite, fsKeys]
  | cons e rest ih =>
    rcases e with ⟨p1, d1⟩
    simp only [fsKeys, List.map_cons, List.nodup_cons] at h
    by_cases hp : p1 = p
    · subst hp
      simpa [fsWrite, fsKeys, List.nodup_cons] using h
    · simp only [fsWrite, if_neg hp, fsKeys, List.map_cons, List.nodup_cons]
      refine ⟨?_, ih h.2⟩
      intro hmem
      have : p1 ∈ fsKeys (fsWrite rest p d) := hmem
      have hsub : fsKeys (fsWrite rest p d) = fsKeys rest ∨
          fsKeys (fsWrite rest p d) = fsKeys rest ++ [p] := by
        clear h ih hmem this
        induction rest with
        | nil => right; simp [fsWrite, fsKeys]
        | cons e2 rest2 ih2 =>
          rcases e2 with ⟨p2, d2⟩
          by_cases hp2 : p2 = p
          · left; simp [fsWrite, hp2, fsKeys]
          · rcases ih2 with h2 | h2
            · left; simp [fsWrite, hp2, fsKeys, h2]
              simpa [fsKeys] using h2
            · right
              simp only [fsWrite, if_neg hp2, fsKeys, List.map_cons]
              simpa [fsKeys] using h2
      rcases hsub with h2 | h2
      · rw [h2] at this
        exact h.1 (by simpa [fsKeys] using this)
      · rw [h2] at this
        rcases List.mem_append.mp this with h3 | h3
        · exact h.1 (by simpa [fsKeys] using h3)
        · exact hp (by simpa using h3)

/-- A removal preserves key nodup-ness. -/
theorem nodup_fsKeys_fsRm (fs : FS) (p : FsPath)
    (h : (fsKeys fs).Nodup) : (fsKeys (fsRm fs p)).Nodup := by
  have heq : fsKeys (fsRm fs p) = (fsKeys fs).filter (fun q => !(q == p)) := by
    simp only [fsKeys, fsRm, List.filter_map]
    rfl
  rw [heq]
  exact h.filter _

/-- `childName?` recognizes exactly the immediate children. -/
theorem childName?_eq_some (dir p : FsPath) (n : String) :
    childName? dir p = some n ↔ p = dir ++ [n] := by
  constructor
  · intro h
    unfold childName? at h
    by_cases hd : p.dropLast = dir
    · rw [if_pos hd] at h
      rcases p with _ | ⟨a, q⟩
      · cases h
      · have hlast := List.getLast?_eq_getLast (a :: q) (by simp)
        rw [hlast] at h
        have h2 : (a :: q).getLast (by simp) = n := by simpa using h
        have h3 := List.dropLast_append_getLast (l := a :: q) (by simp)
        rw [hd, h2] at h3
        exact h3.symm
    · rw [if_neg hd] at h
      cases h
  · intro h
    subst h
    unfold childName?
    rw [if_pos List.dropLast_concat]
    simp

/-- A name is listed exactly when the corresponding child path exists. -/
theorem mem_dirNames (fs : FS) (dir : FsPath) (n : String) :
    n ∈ dirNames fs dir ↔ (dir ++ [n]) ∈ fsKeys fs := by
  unfold dirNames fsKeys
  rw [List.mem_filterMap]
  constructor
  · rintro ⟨e, he, hch⟩
    rw [childName?_eq_some] at hch
    rw [← hch]
    exact List.mem_map_of_mem Prod.fst he
  · intro h
    rcases List.mem_map.mp h with ⟨e, he, hfst⟩
    exact ⟨e, he, by rw [childName?_eq_some, hfst]⟩

/-- Directory listing after a write: unchanged for an existing key, the new
child name appended for a fresh key. -/
theorem dirNames_fsWrite (fs : FS) (p : FsPath) (d : FileData) (dir : FsPath) :
    dirNames (fsWrite fs p d) dir =
      if p ∈ fsKeys fs then dirNames fs dir
      else dirNames fs dir ++ (childName? dir p).toList := by
  induction fs with
  | nil =>
    rw [if_neg (by simp [fsKeys])]
    simp only [fsWrite, dirNames, List.filterMap_cons, List.filterMap_nil]
    rcases childName? dir p with _ | n <;> simp
  | cons e rest ih =>
    rcases e with ⟨p1, d1⟩
    have hk : fsKeys ((p1, d1) :: rest) = p1 :: fsKeys rest := rfl
    by_cases hp : p1 = p
    · have h1 : fsWrite ((p1, d1) :: rest) p d = (p, d) :: rest := by simp [fsWrite, hp]
      have hcond : p ∈ fsKeys ((p1, d1) :: rest) := by
        rw [hk, hp]
        exact List.mem_cons_self _ _
      rw [h1, if_pos hcond]
      simp only [dirNames, List.filterMap_cons, hp]
    · have h1 : fsWrite ((p1, d1) :: rest) p d = (p1, d1) :: fsWrite rest p d := by
        simp [fsWrite, hp]
      rw [h1]
      by_cases hmem : p ∈ fsKeys rest
      · have hcond : p ∈ fsKeys ((p1, d1) :: rest) := by
          rw [hk]
          exact List.mem_cons_of_mem _ hmem
        rw [if_pos hcond]
        have ih2 := ih
        rw [if_pos hmem] at ih2
        simp only [dirNames] at ih2 ⊢
        simp only [List.filterMap_cons]
        rw [ih2]
      · have hcond : p ∉ fsKeys ((p1, d1) :: rest) := by
          rw [hk]
          simp only [List.mem_cons]
          rintro (h2 | h2)
          · exact hp h2.symm
          · exact hmem h2
        rw [if_neg hcond]
        have ih2 := ih
        rw [if_neg hmem] at ih2
        simp only [dirNames] at ih2 ⊢
        simp only [List.filterMap_cons]
        rw [ih2]
        rcases hch : childName? dir p1 with _ | m <;> simp [hch]

/-- Directory listing after removing a child of the directory. -/
theorem dirNames_fsRm_child (fs : FS) (dir : FsPath) (n : String) :
    dirNames (fsRm fs (dir ++ [n])) dir =
      (dirNames fs dir).filter fun m => !(m == n) := by
  induction fs with
  | nil => simp [fsRm, dirNames]
  | cons e rest ih =>
    rcases e with ⟨p1, d1⟩
    by_cases hp : p1 = dir ++ [n]
    · subst hp
      have hch : childName? dir (dir ++ [n]) = some n := (childName?_eq_some _ _ _).mpr rfl
      have hb : ((dir ++ [n], d1).1 == dir ++ [n]) = true := by simp
      simp only [fsRm, List.filter_cons, hb, Bool.not_true, if_neg (by simp : ¬ false = true)]
      have hstep : dirNames (List.filter (fun e => !(e.1 == dir ++ [n])) rest) dir =
          dirNames (fsRm rest (dir ++ [n])) dir := rfl
      rw [hstep, ih]
      simp only [dirNames, List.filterMap_cons, hch, List.filter_cons,
        show ((!(n == n)) = false) from by simp, if_neg (by simp : ¬ false = true)]
    · have hb : ((p1, d1).1 == dir ++ [n]) = false := by simpa using hp
      simp only [fsRm, List.filter_cons, hb, Bool.not_false, dirNames, List.filterMap_cons]
      simp only [fsRm, dirNames] at ih
      rcases hch : childName? dir p1 with _ | m
      · simpa [hch] using ih
      · have hm : ¬ m = n := by
          intro hmn
          subst hmn
          exact hp ((childName?_eq_some _ _ _).mp hch)
        simp [hch, ih, hm]

/-- Directory listing after touching a path outside the directory. -/
theorem dirNames_fsRm_other (fs : FS) (p : FsPath) (dir : FsPath)
    (h : childName? dir p = none) :
    dirNames (fsRm fs p) dir = dirNames fs dir := by
  induction fs with
  | nil => simp [fsRm, dirNames]
  | cons e rest ih =>
    rcases e with ⟨p1, d1⟩
    by_cases hp : p1 = p
    · subst hp
      have hb : ((p1, d1).1 == p1) = true := by simp
      simp only [fsRm, List.filter_cons, hb, Bool.not_true, dirNames, List.filterMap_cons, h]
      simpa [fsRm, dirNames] using ih
    · have hb : ((p1, d1).1 == p) = false := by simpa using hp
      simp only [fsRm, List.filter_cons, hb, Bool.not_false, dirNames, List.filterMap_cons]
      simp only [fsRm, dirNames] at ih
      rcases hch : childName? dir p1 with _ | m <;> simp [hch, ih]

/-- With nodup keys the directory listing has no duplicate names. -/
theorem nodup_dirNames (fs : FS) (dir : FsPath) (h : (fsKeys fs).Nodup) :
    (dirNames fs dir).Nodup := by
  induction fs with
  | nil => simp [dirNames]
  | cons e rest ih =>
    rcases e with ⟨p1, d1⟩
    simp only [fsKeys, List.map_cons, List.nodup_cons] at h
    rcases hch : childName? dir p1 with _ | m
    · simpa [dirNames, List.filterMap_cons, hch] using ih h.2
    · simp only [dirNames, List.filterMap_cons, hch, List.nodup_cons]
      refine ⟨?_, by simpa [dirNames] using ih h.2⟩
      intro hmem
      have h2 : dir ++ [m] ∈ fsKeys rest := (mem_dirNames rest dir m).mp (by simpa [dirNames] using hmem)
      have h3 : p1 = dir ++ [m] := (childName?_eq_some _ _ _).mp hch
      rw [← h3] at h2
      exact h.1 (by simpa [fsKeys] using h2)

/-! ## Prune lemmas -/

/-- The names `pruneHistorySnapshots` removes: the lexicographically
smallest matching snapshots beyond the `keep` newest. -/
def removedNames (fs : FS) (historyDir : FsPath) (baseName : String) (keep : Nat) :
    List String :=
  let sorted := jsSortStrings ((dirNames fs historyDir).filter (historyMatches baseName))
  if sorted.length ≤ keep then [] else sorted.take (sorted.length - keep)

/-- `pruneHistorySnapshots` is the fold of removals over `removedNames`. -/
theorem prune_eq_foldl (fs : FS) (dir : FsPath) (base : String) (keep : Nat) :
    pruneHistorySnapshots fs dir base keep =
      (removedNames fs dir base keep).foldl (fun f n => fsRm f (dir ++ [n])) fs := by
  unfold pruneHistorySnapshots removedNames
  by_cases h : (jsSortStrings ((dirNames fs dir).filter (historyMatches base))).length ≤ keep <;>
    simp [h]

/-- Removing a batch of children: reads of non-children are unaffected. -/
theorem foldl_fsRm_other (dir : FsPath) (p : FsPath) (h : childName? dir p = none) :
    ∀ (names : List String) (fs : FS),
      fsGet? (names.foldl (fun f n => fsRm f (dir ++ [n])) fs) p = fsGet? fs p := by
  intro names
  induction names with
  | nil => intro fs; rfl
  | cons m rest ih =>
    intro fs
    rw [List.foldl_cons, ih]
    apply fsGet?_fsRm_ne
    intro hp
    rw [(childName?_eq_some dir p m).mpr hp] at h
    cases h

/-- Removing a batch of children: a child read is erased exactly when its
name is in the batch. -/
theorem foldl_fsRm_child (dir : FsPath) (n : String) :
    ∀ (names : List String) (fs : FS),
      fsGet? (names.foldl (fun f n2 => fsRm f (dir ++ [n2])) fs) (dir ++ [n]) =
        if n ∈ names then none else fsGet? fs (dir ++ [n]) := by
  intro names
  induction names with
  | nil => intro fs; simp
  | cons m rest ih =>
    intro fs
    rw [List.foldl_cons, ih]
    by_cases hm : n = m
    · subst hm
      simp [fsGet?_fsRm_self]
    · have hne : dir ++ [n] ≠ dir ++ [m] := by
        intro h2
        exact hm (by simpa using List.append_cancel_left h2)
      rw [fsGet?_fsRm_ne _ _ _ hne]
      simp [hm]

/-- Removing a batch of children: the directory listing keeps exactly the
names outside the batch. -/
theorem foldl_fsRm_dirNames (dir : FsPath) :
    ∀ (names : List String) (fs : FS),
      dirNames (names.foldl (fun f n => fsRm f (dir ++ [n])) fs) dir =
        (dirNames fs dir).filter fun m => !(decide (m ∈ names)) := by
  intro names
  induction names with
  | nil => intro fs; simp
  | cons m2 rest ih =>
    intro fs
    rw [List.foldl_cons, ih, dirNames_fsRm_child, List.filter_filter]
    congr 1
    funext x
    by_cases h1 : x = m2 <;> by_cases h2 : x ∈ rest <;> simp [h1, h2]

/-- Removing a batch of children preserves key nodup-ness. -/
theorem foldl_fsRm_nodup (dir : FsPath) :
    ∀ (names : List String) (fs : FS), (fsKeys fs).Nodup →
      (fsKeys (names.foldl (fun f n => fsRm f (dir ++ [n])) fs)).Nodup := by
  intro names
  induction names with
  | nil => intro fs h; exact h
  | cons m rest ih =>
    intro fs h
    rw [List.foldl_cons]
    exact ih _ (nodup_fsKeys_fsRm _ _ h)

/-- After a prune, the matching listing keeps `min(count, keep)` names. -/
theorem prune_matching_length (fs : FS) (dir : FsPath) (base : String) (keep : Nat)
    (h : (fsKeys fs).Nodup) :
    ((dirNames (pruneHistorySnapshots fs dir base keep) dir).filter
        (historyMatches base)).length =
      min ((dirNames fs dir).filter (historyMatches base)).length keep ∨
    ((dirNames fs dir).filter (historyMatches base)).length ≤ keep ∧
      pruneHistorySnapshots fs dir base keep = fs := by
  set ns := (dirNames fs dir).filter (historyMatches base) with hns
  by_cases hle : (jsSortStrings ns).length ≤ keep
  · right
    have hlen : (jsSortStrings ns).length = ns.length :=
      (List.perm_insertionSort _ ns).length_eq
    refine ⟨by omega, ?_⟩
    unfold pruneHistorySnapshots
    rw [← hns, if_pos hle]
  · left
    have hperm : (jsSortStrings ns).Perm ns := List.perm_insertionSort _ ns
    have hlen : (jsSortStrings ns).length = ns.length := hperm.length_eq
    have hnodup : ns.Nodup := ((nodup_dirNames fs dir h).filter _)
    have hsortnd : (jsSortStrings ns).Nodup := hperm.symm.nodup hnodup
    rw [prune_eq_foldl, foldl_fsRm_dirNames]
    have hsplit := List.take_append_drop ((jsSortStrings ns).length - keep) (jsSortStrings ns)
    set rem := (jsSortStrings ns).take ((jsSortStrings ns).length - keep) with hrem
    set kept := (jsSortStrings ns).drop ((jsSortStrings ns).length - keep) with hkept
    have hrn : removedNames fs dir base keep = rem := by
      unfold removedNames
      rw [← hns, if_neg hle]
    rw [hrn]
    have hfilter_eq : ((dirNames fs dir).filter
        fun a => historyMatches base a && !(decide (a ∈ rem))) =
        ns.filter (fun m => !(decide (m ∈ rem))) := by
      rw [hns, List.filter_filter]
      exact List.filter_congr fun x _ => by
        by_cases h1 : x ∈ rem <;> by_cases h2 : historyMatches base x <;> simp [h1, h2]
    rw [List.filter_filter, hfilter_eq]
    have hpermf : (ns.filter fun m => !(decide (m ∈ rem))).Perm
        ((jsSortStrings ns).filter fun m => !(decide (m ∈ rem))) :=
      (hperm.filter _).symm
    rw [hpermf.length_eq]
    have hdisj : ∀ x ∈ kept, x ∉ rem := by
      have hnd2 : (rem ++ kept).Nodup := by rw [hsplit]; exact hsortnd
      intro x hx hxr
      exact (List.disjoint_of_nodup_append hnd2) hxr hx
    have hself : ∀ x ∈ rem, x ∈ rem := fun x hx => hx
    rw [← hsplit, List.filter_append]
    have h1 : (rem.filter fun m => !(decide (m ∈ rem))) = [] := by
      rw [List.filter_eq_nil_iff]
      intro a ha
      simp [ha]
    have h2 : (kept.filter fun m => !(decide (m ∈ rem))) = kept := by
      rw [List.filter_eq_self]
      intro a ha
      simp [hdisj a ha]
    rw [h1, h2]
    simp only [List.nil_append]
    rw [hkept, List.length_drop]
    omega

/-! ## String and path helper lemmas -/

/-- Left cancellation for string append. -/
theorem strAppend_left_cancel {a s t : String} (h : a ++ s = a ++ t) : s = t := by
  have h2 := congrArg String.data h
  rw [String.data_append, String.data_append] at h2
  exact String.ext (List.append_cancel_left h2)

/-- A string starts with its own prefix. -/
theorem strStartsWith_append (a b : String) : strStartsWith (a ++ b) a = true := by
  unfold strStartsWith
  rw [String.data_append, List.isPrefixOf_iff_prefix]
  exact List.prefix_append _ _

/-- A string ends with its own suffix. -/
theorem strEndsWith_append (a b : String) : strEndsWith (a ++ b) b = true := by
  unfold strEndsWith
  rw [String.data_append, List.isSuffixOf_iff_suffix]
  exact List.suffix_append _ _

/-- Two strings whose concatenation-dots are prefix-incomparable. -/
def prefixIncomp (x y : String) : Prop :=
  ¬ x.data <+: y.data ∧ ¬ y.data <+: x.data

/-- A history snapshot name matches its own base filter. -/
theorem historyMatches_snapName (base ts : String) (n : Nat) :
    historyMatches base (historySnapName base ts n) = true := by
  unfold historyMatches historySnapName
  have h1 : base ++ "." ++ ts ++ collisionSuffix n ++ ".json" =
      (base ++ ".") ++ (ts ++ collisionSuffix n ++ ".json") := by
    simp [String.append_assoc]
  have h2 : base ++ "." ++ ts ++ collisionSuffix n ++ ".json" =
      (base ++ "." ++ ts ++ collisionSuffix n) ++ ".json" := rfl
  rw [Bool.and_eq_true]
  constructor
  · rw [h1]
    exact strStartsWith_append _ _
  · rw [h2]
    exact strEndsWith_append _ _

/-- A name cannot match the filters of two prefix-incomparable bases. -/
theorem historyMatches_incomp (b base name : String)
    (hinc : prefixIncomp (b ++ ".") (base ++ "."))
    (hb : strStartsWith name (b ++ ".") = true) :
    historyMatches base name = false := by
  unfold historyMatches
  rw [Bool.and_eq_false_iff]
  left
  rw [← Bool.not_eq_true]
  intro hbase
  unfold strStartsWith at hb hbase
  rw [List.isPrefixOf_iff_prefix] at hb hbase
  rcases List.prefix_or_prefix_of_prefix hb hbase with h | h
  · exact hinc.1 h
  · exact hinc.2 h

/-- The snapshot names of one base and timestamp are pairwise distinct for
the first three collision indices. -/
theorem historySnapName_distinct (base ts : String) (i j : Nat) (hi : i < 3) (hj : j < 3)
    (hij : i ≠ j) : historySnapName base ts i ≠ historySnapName base ts j := by
  intro h
  unfold historySnapName at h
  have h2 : (base ++ "." ++ ts) ++ (collisionSuffix i ++ ".json") =
      (base ++ "." ++ ts) ++ (collisionSuffix j ++ ".json") := by
    simpa [String.append_assoc] using h
  have h3 := strAppend_left_cancel h2
  interval_cases i <;> interval_cases j <;>
    first
    | exact absurd rfl hij
    | exact absurd h3 (by decide)

/-- Existence is key membership. -/
theorem fsExists_iff_mem_keys (fs : FS) (p : FsPath) :
    fsExists fs p = true ↔ p ∈ fsKeys fs := by
  unfold fsExists fsGet? fsKeys
  rcases hfind : List.find? (fun e => e.1 == p) fs with _ | e
  · simp only [hfind, Option.map_none', Option.isSome_none]
    constructor
    · intro hx; cases hx
    · intro h
      rcases List.mem_map.mp h with ⟨e2, he2, hfst⟩
      have h2 := List.find?_eq_none.mp hfind e2 he2
      simp [hfst] at h2
  · simp only [hfind, Option.map_some', Option.isSome_some, true_iff]
    have hmem := List.mem_of_find?_eq_some hfind
    have hp := List.find?_some hfind
    have he : e.1 = p := by simpa using hp
    rw [← he]
    exact List.mem_map_of_mem Prod.fst hmem

/-- A nodup list containing two distinct elements has length at least 2. -/
theorem two_le_length_of_nodup {l : List String} (h : l.Nodup) {a b : String}
    (ha : a ∈ l) (hb : b ∈ l) (hab : a ≠ b) : 2 ≤ l.length := by
  rw [← List.toFinset_card_of_nodup h]
  have hsub : ({a, b} : Finset String) ⊆ l.toFinset := by
    intro x hx
    rcases Finset.mem_insert.mp hx with h1 | h1
    · subst h1; exact List.mem_toFinset.mpr ha
    · rw [Finset.mem_singleton.mp h1]; exact List.mem_toFinset.mpr hb
  calc 2 = ({a, b} : Finset String).card := (Finset.card_pair hab).symm
  _ ≤ l.toFinset.card := Finset.card_le_card hsub

/-- A nodup list containing three pairwise distinct elements has length at
least 3. -/
theorem three_le_length_of_nodup {l : List String} (h : l.Nodup) {a b c : String}
    (ha : a ∈ l) (hb : b ∈ l) (hc : c ∈ l)
    (hab : a ≠ b) (hac : a ≠ c) (hbc : b ≠ c) : 3 ≤ l.length := by
  rw [← List.toFinset_card_of_nodup h]
  have hsub : ({a, b, c} : Finset String) ⊆ l.toFinset := by
    intro x hx
    rcases Finset.mem_insert.mp hx with h1 | h1
    · subst h1; exact List.mem_toFinset.mpr ha
    rcases Finset.mem_insert.mp h1 with h2 | h2
    · subst h2; exact List.mem_toFinset.mpr hb
    · rw [Finset.mem_singleton.mp h2]; exact List.mem_toFinset.mpr hc
  have hcard : ({a, b, c} : Finset String).card = 3 := by
    rw [Finset.card_insert_of_not_mem (by simp [hab, hac]), Finset.card_pair hbc]
  calc 3 = ({a, b, c} : Finset String).card := hcard.symm
  _ ≤ l.toFinset.card := Finset.card_le_card hsub

/-- Shape of the unique history path: always a child of the history
directory named by the base, timestamp and a collision index. -/
theorem getUniqueHistoryPath_shape (fs : FS) (dir : FsPath) (base ts : String) :
    ∃ n, getUniqueHistoryPath fs dir base ts = dir ++ [historySnapName base ts n] := by
  unfold getUniqueHistoryPath
  rcases (List.range (fs.length + 1)).find?
      (fun n => !(fsExists fs (dir ++ [historySnapName base ts n]))) with _ | n
  · exact ⟨fs.length + 1, rfl⟩
  · exact ⟨n, rfl⟩

/-- Shape of the unique run path. -/
theorem getUniqueRunPath_shape (fs : FS) (dir : FsPath) (base : String) :
    ∃ n, getUniqueRunPath fs dir base = dir ++ [runFileName base n] := by
  unfold getUniqueRunPath
  rcases (List.range (fs.length + 1)).find?
      (fun n => !(fsExists fs (dir ++ [runFileName base n]))) with _ | n
  · exact ⟨fs.length + 1, rfl⟩
  · exact ⟨n, rfl⟩

/-- The unique history path is fresh whenever the store keeps at most
`MANIFEST_HISTORY_LIMIT` matching snapshots: among the first three
candidate names at least one is unused, so the bounded search cannot run
out. -/
theorem getUniqueHistoryPath_fresh (fs : FS) (dir : FsPath) (base ts : String)
    (hnd : (fsKeys fs).Nodup)
    (hm : ((dirNames fs dir).filter (historyMatches base)).length ≤ 2) :
    fsExists fs (getUniqueHistoryPath fs dir base ts) = false := by
  unfold getUniqueHistoryPath
  rcases hfind : (List.range (fs.length + 1)).find?
      (fun n => !(fsExists fs (dir ++ [historySnapName base ts n]))) with _ | n
  · exfalso
    have hall := List.find?_eq_none.mp hfind
    have hex : ∀ n, n ≤ fs.length →
        fsExists fs (dir ++ [historySnapName base ts n]) = true := by
      intro n hn
      have h2 := hall n (List.mem_range.mpr (by omega))
      simpa using h2
    have hmemName : ∀ n, n ≤ fs.length →
        historySnapName base ts n ∈ (dirNames fs dir).filter (historyMatches base) := by
      intro n hn
      rw [List.mem_filter]
      exact ⟨(mem_dirNames fs dir _).mpr ((fsExists_iff_mem_keys _ _).mp (hex n hn)),
        historyMatches_snapName base ts n⟩
    have hnodupM : ((dirNames fs dir).filter (historyMatches base)).Nodup :=
      (nodup_dirNames fs dir hnd).filter _
    rcases Nat.lt_or_ge fs.length 2 with hlen | hlen
    · have hdlen : (dirNames fs dir).length ≤ fs.length := List.length_filterMap_le _ _
      have hflen : ((dirNames fs dir).filter (historyMatches base)).length ≤ fs.length :=
        le_trans (List.length_filter_le _ _) hdlen
      have h01 : fs.length = 0 ∨ fs.length = 1 := by omega
      rcases h01 with h0 | h1
      · have hmem0 := hmemName 0 (by omega)
        have hpos := List.length_pos_of_mem hmem0
        omega
      · have hmem0 := hmemName 0 (by omega)
        have hmem1 := hmemName 1 (by omega)
        have h2 := two_le_length_of_nodup hnodupM hmem0 hmem1
          (historySnapName_distinct base ts 0 1 (by omega) (by omega) (by omega))
        omega
    · have hmem0 := hmemName 0 (by omega)
      have hmem1 := hmemName 1 (by omega)
      have hmem2 := hmemName 2 (by omega)
      have h3 := three_le_length_of_nodup hnodupM hmem0 hmem1 hmem2
        (historySnapName_distinct base ts 0 1 (by omega) (by omega) (by omega))
        (historySnapName_distinct base ts 0 2 (by omega) (by omega) (by omega))
        (historySnapName_distinct base ts 1 2 (by omega) (by omega) (by omega))
      omega
  · have h2 := List.find?_some hfind
    simpa using h2

/-! ## One-write characterization -/

/-- Lists of different length differ. -/
theorem ne_of_length_ne {α : Type} {l1 l2 : List α} (h : l1.length ≠ l2.length) :
    l1 ≠ l2 := fun he => h (he ▸ rfl)

/-- Appending different last segments to the same directory gives different
paths. -/
theorem append_singleton_ne (l : FsPath) {a b : String} (h : a ≠ b) :
    l ++ [a] ≠ l ++ [b] := fun he => h (by simpa using List.append_cancel_left he)

/-- A path whose parent differs from `dir` is not a child of `dir`. -/
theorem childName?_none_of_ne (dir d2 : FsPath) (x : String) (h : d2 ≠ dir) :
    childName? dir (d2 ++ [x]) = none := by
  unfold childName?
  rw [List.dropLast_concat, if_neg h]

/-- Writing outside the directory leaves its listing unchanged. -/
theorem dirNames_fsWrite_other (fs : FS) (p : FsPath) (d : FileData) (dir : FsPath)
    (h : childName? dir p = none) :
    dirNames (fsWrite fs p d) dir = dirNames fs dir := by
  rw [dirNames_fsWrite]
  by_cases hmem : p ∈ fsKeys fs <;> simp [hmem, h]

/-- No write for a first-time (chain, wallet) pair: the canonical file is
absent, so the write takes the no-snapshot branch and produces the
run-record write, the canonical write, and the index/gallery
regeneration. -/
theorem write_ok_none (fs : FS) (o : FsPath) (chain wallet : String) (m : BackupManifest)
    (tsH tsR nI nG : String) (sc sw : String)
    (hc : sanitizeManifestSegment chain = .ok sc)
    (hw : sanitizeManifestSegment wallet = .ok sw)
    (hnone : fsGet? fs
      ((o ++ ["manifests"]) ++ ["manifest." ++ sc ++ "." ++ sw ++ ".json"]) = none) :
    writeManifestWithHistory fs o chain wallet m tsH tsR nI nG = .ok
      (writeGalleryData (writeManifestIndex
        (fsWrite (fsWrite fs
          (getUniqueRunPath fs ((o ++ ["manifests"]) ++ ["runs"])
            ("run." ++ formatTimestampForFilename tsR ++ "." ++ sc ++ "." ++ sw))
          (.delta (buildDelta none m)))
          ((o ++ ["manifests"]) ++ ["manifest." ++ sc ++ "." ++ sw ++ ".json"]) (.manifest m))
        o nI) o nG,
       (o ++ ["manifests"]) ++ ["manifest." ++ sc ++ "." ++ sw ++ ".json"]) := by
  unfold writeManifestWithHistory getManifestBaseName
  simp only [hc, hw, hnone, Except.bind, bind, pure, Except.pure]

/-- A write over an existing canonical manifest: the previous content is
snapshotted under the unique history name, the history is pruned, and the
rest of the pipeline follows. -/
theorem write_ok_some (fs : FS) (o : FsPath) (chain wallet : String)
    (m prev : BackupManifest) (tsH tsR nI nG : String) (sc sw : String)
    (hc : sanitizeManifestSegment chain = .ok sc)
    (hw : sanitizeManifestSegment wallet = .ok sw)
    (hsome : fsGet? fs
      ((o ++ ["manifests"]) ++ ["manifest." ++ sc ++ "." ++ sw ++ ".json"]) =
      some (.manifest prev)) :
    writeManifestWithHistory fs o chain wallet m tsH tsR nI nG =
      (let fs1 := pruneHistorySnapshots
        (fsWrite fs
          (getUniqueHistoryPath fs ((o ++ ["manifests"]) ++ ["history"])
            ("manifest." ++ sc ++ "." ++ sw) (formatTimestampForFilename tsH))
          (.manifest prev))
        ((o ++ ["manifests"]) ++ ["history"]) ("manifest." ++ sc ++ "." ++ sw)
        MANIFEST_HISTORY_LIMIT
      .ok
        (writeGalleryData (writeManifestIndex
          (fsWrite (fsWrite fs1
            (getUniqueRunPath fs1 ((o ++ ["manifests"]) ++ ["runs"])
              ("run." ++ formatTimestampForFilename tsR ++ "." ++ sc ++ "." ++ sw))
            (.delta (buildDelta (some prev) m)))
            ((o ++ ["manifests"]) ++ ["manifest." ++ sc ++ "." ++ sw ++ ".json"])
            (.manifest m))
          o nI) o nG,
         (o ++ ["manifests"]) ++ ["manifest." ++ sc ++ "." ++ sw ++ ".json"])) := by
  unfold writeManifestWithHistory getManifestBaseName
  simp only [hc, hw, hsome, Except.bind, bind, pure, Except.pure, parseManifest?]

/-! ## History view of the store -/

/-- The history snapshots currently matching a base name, as the prune
filter sees them. -/
def matchingHistory (fs : FS) (o : FsPath) (base : String) : List String :=
  (dirNames fs ((o ++ ["manifests"]) ++ ["history"])).filter (historyMatches base)

/-- Children of different directories are different paths. -/
theorem concat_ne_concat_of_dir_ne {d1 d2 : FsPath} (x y : String) (h : d1 ≠ d2) :
    d1 ++ [x] ≠ d2 ++ [y] := by
  intro he
  apply h
  have h2 := congrArg List.dropLast he
  rwa [List.dropLast_concat, List.dropLast_concat] at h2

/-- A write into `manifests/` itself does not change the history view. -/
theorem matchingHistory_fsWrite_manifests (fs : FS) (o : FsPath) (x : String)
    (d : FileData) (base : String) :
    matchingHistory (fsWrite fs ((o ++ ["manifests"]) ++ [x]) d) o base =
      matchingHistory fs o base := by
  unfold matchingHistory
  rw [dirNames_fsWrite_other]
  exact childName?_none_of_ne _ _ _ (ne_of_length_ne (by simp))

/-- A write into `manifests/runs/` does not change the history view. -/
theorem matchingHistory_fsWrite_runs (fs : FS) (o : FsPath) (x : String)
    (d : FileData) (base : String) :
    matchingHistory (fsWrite fs (((o ++ ["manifests"]) ++ ["runs"]) ++ [x]) d) o base =
      matchingHistory fs o base := by
  unfold matchingHistory
  rw [dirNames_fsWrite_other]
  exact childName?_none_of_ne _ _ _ (append_singleton_ne _ (by decide))

/-- A write at the output root does not change the history view. -/
theorem matchingHistory_fsWrite_root (fs : FS) (o : FsPath) (x : String)
    (d : FileData) (base : String) :
    matchingHistory (fsWrite fs (o ++ [x]) d) o base = matchingHistory fs o base := by
  unfold matchingHistory
  rw [dirNames_fsWrite_other]
  exact childName?_none_of_ne _ _ _ (ne_of_length_ne (by simp))

/-- Index regeneration does not change the history view. -/
theorem matchingHistory_writeManifestIndex (fs : FS) (o : FsPath) (n : String)
    (base : String) :
    matchingHistory (writeManifestIndex fs o n) o base = matchingHistory fs o base :=
  matchingHistory_fsWrite_manifests fs o "index.json" _ base

/-- Gallery regeneration does not change the history view. -/
theorem matchingHistory_writeGalleryData (fs : FS) (o : FsPath) (n : String)
    (base : String) :
    matchingHistory (writeGalleryData fs o n) o base = matchingHistory fs o base :=
  matchingHistory_fsWrite_root fs o "gallery-data.js" _ base

/-- A fresh snapshot of the focal base goes to a fresh child of the
history directory and appends exactly one matching name. -/
theorem matchingHistory_snapshot_focal (fs : FS) (o : FsPath) (base ts : String)
    (d : FileData) (hnd : (fsKeys fs).Nodup)
    (hm : (matchingHistory fs o base).length ≤ 2) :
    ∃ nm, historyMatches base nm = true ∧
      getUniqueHistoryPath fs ((o ++ ["manifests"]) ++ ["history"]) base ts =
        ((o ++ ["manifests"]) ++ ["history"]) ++ [nm] ∧
      (((o ++ ["manifests"]) ++ ["history"]) ++ [nm]) ∉ fsKeys fs ∧
      dirNames
        (fsWrite fs (getUniqueHistoryPath fs ((o ++ ["manifests"]) ++ ["history"]) base ts) d)
        ((o ++ ["manifests"]) ++ ["history"]) =
        dirNames fs ((o ++ ["manifests"]) ++ ["history"]) ++ [nm] ∧
      matchingHistory
        (fsWrite fs (getUniqueHistoryPath fs ((o ++ ["manifests"]) ++ ["history"]) base ts) d)
        o base = matchingHistory fs o base ++ [nm] := by
  rcases getUniqueHistoryPath_shape fs ((o ++ ["manifests"]) ++ ["history"]) base ts with
    ⟨n, hshape⟩
  have hfresh := getUniqueHistoryPath_fresh fs ((o ++ ["manifests"]) ++ ["history"]) base ts
    hnd hm
  rw [hshape] at hfresh
  have hnotmem :
      (((o ++ ["manifests"]) ++ ["history"]) ++ [historySnapName base ts n]) ∉ fsKeys fs := by
    intro hmem
    rw [(fsExists_iff_mem_keys _ _).mpr hmem] at hfresh
    cases hfresh
  have hdirN : dirNames
      (fsWrite fs (getUniqueHistoryPath fs ((o ++ ["manifests"]) ++ ["history"]) base ts) d)
      ((o ++ ["manifests"]) ++ ["history"]) =
      dirNames fs ((o ++ ["manifests"]) ++ ["history"]) ++ [historySnapName base ts n] := by
    rw [hshape, dirNames_fsWrite, if_neg hnotmem, (childName?_eq_some _ _ _).mpr rfl]
    rfl
  refine ⟨historySnapName base ts n, historyMatches_snapName base ts n, hshape, hnotmem,
    hdirN, ?_⟩
  unfold matchingHistory
  rw [hdirN, List.filter_append]
  simp [historyMatches_snapName base ts n]

/-- A snapshot of a prefix-incomparable base leaves the focal view
unchanged. -/
theorem matchingHistory_snapshot_other (fs : FS) (o : FsPath) (b base ts : String)
    (d : FileData) (hinc : prefixIncomp (b ++ ".") (base ++ ".")) :
    matchingHistory
      (fsWrite fs (getUniqueHistoryPath fs ((o ++ ["manifests"]) ++ ["history"]) b ts) d)
      o base = matchingHistory fs o base := by
  rcases getUniqueHistoryPath_shape fs ((o ++ ["manifests"]) ++ ["history"]) b ts with
    ⟨n, hshape⟩
  unfold matchingHistory
  rw [hshape, dirNames_fsWrite]
  by_cases hmem : ((o ++ ["manifests"]) ++ ["history"]) ++ [historySnapName b ts n] ∈ fsKeys fs
  · rw [if_pos hmem]
  · rw [if_neg hmem]
    rw [(childName?_eq_some _ _ _).mpr rfl]
    rw [List.filter_append]
    have hno : historyMatches base (historySnapName b ts n) = false := by
      apply historyMatches_incomp b base _ hinc
      have h2 := historyMatches_snapName b ts n
      simp only [historyMatches, Bool.and_eq_true] at h2
      exact h2.1
    simp [hno]

/-- Pruning a prefix-incomparable base leaves the focal view unchanged. -/
theorem matchingHistory_prune_other (fs : FS) (o : FsPath) (b base : String) (keep : Nat)
    (hinc : prefixIncomp (b ++ ".") (base ++ ".")) :
    matchingHistory
      (pruneHistorySnapshots fs ((o ++ ["manifests"]) ++ ["history"]) b keep) o base =
      matchingHistory fs o base := by
  unfold matchingHistory
  rw [prune_eq_foldl, foldl_fsRm_dirNames, List.filter_filter]
  apply List.filter_congr
  intro x _
  by_cases hb : historyMatches base x = true
  · rw [hb]
    have hxnotrem : x ∉ removedNames fs ((o ++ ["manifests"]) ++ ["history"]) b keep := by
      intro hxr
      have hxmem : x ∈ jsSortStrings
          ((dirNames fs ((o ++ ["manifests"]) ++ ["history"])).filter (historyMatches b)) := by
        unfold removedNames at hxr
        by_cases hle : (jsSortStrings ((dirNames fs ((o ++ ["manifests"]) ++ ["history"])).filter
            (historyMatches b))).length ≤ keep
        · rw [if_pos hle] at hxr
          cases hxr
        · rw [if_neg hle] at hxr
          exact List.mem_of_mem_take hxr
      have hxb : historyMatches b x = true := by
        rw [mem_jsSortStrings, List.mem_filter] at hxmem
        exact hxmem.2
      have hbx : strStartsWith x (b ++ ".") = true := by
        simp only [historyMatches, Bool.and_eq_true] at hxb
        exact hxb.1
      rw [historyMatches_incomp b base x hinc hbx] at hb
      cases hb
    rw [decide_eq_false_iff_not.mpr hxnotrem]
    simp
  · simp only [Bool.not_eq_true] at hb
    simp [hb]

/-- After a prune, the focal matching count is the minimum of the prior
count and `keep`. -/
theorem prune_matching_min (fs : FS) (o : FsPath) (base : String) (keep : Nat)
    (hnd : (fsKeys fs).Nodup) :
    (matchingHistory (pruneHistorySnapshots fs ((o ++ ["manifests"]) ++ ["history"]) base keep)
        o base).length = min (matchingHistory fs o base).length keep := by
  rcases prune_matching_length fs ((o ++ ["manifests"]) ++ ["history"]) base keep hnd with
    h | ⟨hle, heq⟩
  · exact h
  · unfold matchingHistory
    rw [heq]
    omega

/-! ## Sequences of writes -/

/-- One `writeManifestWithHistory` call: its arguments and the four
`new Date()` timestamps drawn during it. -/
structure WriteOp where
  chain : String
  wallet : String
  manifest : BackupManifest
  tsHist : String
  tsRun : String
  nowIdx : String
  nowGal : String

/-- Run a sequence of writes, stopping at the first error. -/
def runWrites (o : FsPath) : List WriteOp → FS → Except String FS
  | [], fs => .ok fs
  | op :: rest, fs =>
    match writeManifestWithHistory fs o op.chain op.wallet op.manifest
        op.tsHist op.tsRun op.nowIdx op.nowGal with
    | .ok r => runWrites o rest r.1
    | .error e => .error e

/-- One successful write preserves key nodup-ness and keeps the focal
matching-snapshot count at most `MANIFEST_HISTORY_LIMIT`, provided the
written pair's base name is the focal base or prefix-incomparable with
it. -/
theorem write_preserves_focal (fs : FS) (o : FsPath) (chain wallet : String)
    (m : BackupManifest) (tsH tsR nI nG : String) (base : String)
    (hnd : (fsKeys fs).Nodup)
    (hm : (matchingHistory fs o base).length ≤ 2)
    (hrel : ∀ sc sw, sanitizeManifestSegment chain = .ok sc →
      sanitizeManifestSegment wallet = .ok sw →
      ("manifest." ++ sc ++ "." ++ sw) = base ∨
        prefixIncomp (("manifest." ++ sc ++ "." ++ sw) ++ ".") (base ++ "."))
    (fs' : FS) (pth : FsPath)
    (hok : writeManifestWithHistory fs o chain wallet m tsH tsR nI nG = .ok (fs', pth)) :
    (fsKeys fs').Nodup ∧ (matchingHistory fs' o base).length ≤ 2 := by
  rcases hc : sanitizeManifestSegment chain with e | sc
  · rw [writeManifestWithHistory, getManifestBaseName] at hok
    simp only [hc, Except.bind, bind] at hok
    cases hok
  rcases hw : sanitizeManifestSegment wallet with e | sw
  · rw [writeManifestWithHistory, getManifestBaseName] at hok
    simp only [hc, hw, Except.bind, bind] at hok
    cases hok
  rcases hget : fsGet? fs ((o ++ ["manifests"]) ++ ["manifest." ++ sc ++ "." ++ sw ++ ".json"])
    with _ | d
  · rw [write_ok_none fs o chain wallet m tsH tsR nI nG sc sw hc hw hget] at hok
    have hfs : fs' = writeGalleryData (writeManifestIndex
        (fsWrite (fsWrite fs
          (getUniqueRunPath fs ((o ++ ["manifests"]) ++ ["runs"])
            ("run." ++ formatTimestampForFilename tsR ++ "." ++ sc ++ "." ++ sw))
          (.delta (buildDelta none m)))
          ((o ++ ["manifests"]) ++ ["manifest." ++ sc ++ "." ++ sw ++ ".json"]) (.manifest m))
        o nI) o nG := by
      have h2 := congrArg (fun r : FS × FsPath => r.1) (Except.ok.inj hok)
      exact h2.symm
    subst hfs
    rcases getUniqueRunPath_shape fs ((o ++ ["manifests"]) ++ ["runs"])
        ("run." ++ formatTimestampForFilename tsR ++ "." ++ sc ++ "." ++ sw) with ⟨k, hk⟩
    constructor
    · unfold writeGalleryData writeManifestIndex
      apply nodup_fsKeys_fsWrite
      apply nodup_fsKeys_fsWrite
      exact nodup_fsKeys_fsWrite _ _ _ (nodup_fsKeys_fsWrite _ _ _ hnd)
    · rw [matchingHistory_writeGalleryData, matchingHistory_writeManifestIndex,
        matchingHistory_fsWrite_manifests, hk, matchingHistory_fsWrite_runs]
      exact hm
  · rcases hd : parseManifest? d with _ | prev
    · rw [writeManifestWithHistory, getManifestBaseName] at hok
      simp only [hc, hw, Except.bind, bind, pure, Except.pure, hget, hd] at hok
      cases hok
    · have hdm : d = .manifest prev := by
        cases d <;> simp [parseManifest?] at hd
        rw [hd]
      subst hdm
      rw [write_ok_some fs o chain wallet m prev tsH tsR nI nG sc sw hc hw hget] at hok
      have hfs : fs' = writeGalleryData (writeManifestIndex
          (fsWrite (fsWrite (pruneHistorySnapshots
            (fsWrite fs
              (getUniqueHistoryPath fs ((o ++ ["manifests"]) ++ ["history"])
                ("manifest." ++ sc ++ "." ++ sw) (formatTimestampForFilename tsH))
              (.manifest prev))
            ((o ++ ["manifests"]) ++ ["history"]) ("manifest." ++ sc ++ "." ++ sw)
            MANIFEST_HISTORY_LIMIT)
            (getUniqueRunPath (pruneHistorySnapshots
              (fsWrite fs
                (getUniqueHistoryPath fs ((o ++ ["manifests"]) ++ ["history"])
                  ("manifest." ++ sc ++ "." ++ sw) (formatTimestampForFilename tsH))
                (.manifest prev))
              ((o ++ ["manifests"]) ++ ["history"]) ("manifest." ++ sc ++ "." ++ sw)
              MANIFEST_HISTORY_LIMIT) ((o ++ ["manifests"]) ++ ["runs"])
              ("run." ++ formatTimestampForFilename tsR ++ "." ++ sc ++ "." ++ sw))
            (.delta (buildDelta (some prev) m)))
            ((o ++ ["manifests"]) ++ ["manifest." ++ sc ++ "." ++ sw ++ ".json"])
            (.manifest m))
          o nI) o nG := by
        have h2 := congrArg (fun r : FS × FsPath => r.1) (Except.ok.inj hok)
        exact h2.symm
      subst hfs
      have hnd1 : (fsKeys (pruneHistorySnapshots
          (fsWrite fs
            (getUniqueHistoryPath fs ((o ++ ["manifests"]) ++ ["history"])
              ("manifest." ++ sc ++ "." ++ sw) (formatTimestampForFilename tsH))
            (.manifest prev))
          ((o ++ ["manifests"]) ++ ["history"]) ("manifest." ++ sc ++ "." ++ sw)
          MANIFEST_HISTORY_LIMIT)).Nodup := by
        rw [prune_eq_foldl]
        exact foldl_fsRm_nodup _ _ _ (nodup_fsKeys_fsWrite _ _ _ hnd)
      rcases getUniqueRunPath_shape (pruneHistorySnapshots
          (fsWrite fs
            (getUniqueHistoryPath fs ((o ++ ["manifests"]) ++ ["history"])
              ("manifest." ++ sc ++ "." ++ sw) (formatTimestampForFilename tsH))
            (.manifest prev))
          ((o ++ ["manifests"]) ++ ["history"]) ("manifest." ++ sc ++ "." ++ sw)
          MANIFEST_HISTORY_LIMIT) ((o ++ ["manifests"]) ++ ["runs"])
          ("run." ++ formatTimestampForFilename tsR ++ "." ++ sc ++ "." ++ sw) with ⟨k, hk⟩
      constructor
      · unfold writeGalleryData writeManifestIndex
        apply nodup_fsKeys_fsWrite
        apply nodup_fsKeys_fsWrite
        exact nodup_fsKeys_fsWrite _ _ _ (nodup_fsKeys_fsWrite _ _ _ hnd1)
      · rw [matchingHistory_writeGalleryData, matchingHistory_writeManifestIndex,
          matchingHistory_fsWrite_manifests, hk, matchingHistory_fsWrite_runs]
        rcases hrel sc sw hc hw with hfocal | hincomp
        · rw [hfocal, show MANIFEST_HISTORY_LIMIT = 2 from rfl]
          rw [prune_matching_min _ _ _ _ (nodup_fsKeys_fsWrite _ _ _ hnd)]
          omega
        · rw [matchingHistory_prune_other _ _ _ _ _ hincomp,
            matchingHistory_snapshot_other _ _ _ _ _ _ hincomp]
          exact hm

/-- Any successful write sequence from a state satisfying the focal
invariant preserves it. -/
theorem runWrites_focal (o : FsPath) (base : String) :
    ∀ (ops : List WriteOp) (fs : FS), (fsKeys fs).Nodup →
      (matchingHistory fs o base).length ≤ 2 →
      (∀ op ∈ ops, ∀ sc sw, sanitizeManifestSegment op.chain = .ok sc →
        sanitizeManifestSegment op.wallet = .ok sw →
        ("manifest." ++ sc ++ "." ++ sw) = base ∨
          prefixIncomp (("manifest." ++ sc ++ "." ++ sw) ++ ".") (base ++ ".")) →
      ∀ fs', runWrites o ops fs = .ok fs' →
        (fsKeys fs').Nodup ∧ (matchingHistory fs' o base).length ≤ 2 := by
  intro ops
  induction ops with
  | nil =>
    intro fs hnd hm _ fs' hok
    cases hok
    exact ⟨hnd, hm⟩
  | cons op rest ih =>
    intro fs hnd hm hrel fs' hok
    rw [runWrites] at hok
    rcases hw : writeManifestWithHistory fs o op.chain op.wallet op.manifest
        op.tsHist op.tsRun op.nowIdx op.nowGal with e | r
    · rw [hw] at hok
      cases hok
    · rw [hw] at hok
      rcases write_preserves_focal fs o op.chain op.wallet op.manifest
        op.tsHist op.tsRun op.nowIdx op.nowGal base hnd hm
        (hrel op (List.mem_cons_self _ _)) r.1 r.2 (by rw [hw]) with ⟨hnd2, hm2⟩
      exact ih r.1 hnd2 hm2 (fun op2 h2 => hrel op2 (List.mem_cons_of_mem _ h2)) fs' hok

/-! ## Detailed write effect -/

/-- Prune is the identity when at most `keep` snapshots match. -/
theorem prune_id_of_le (fs : FS) (dir : FsPath) (base : String) (keep : Nat)
    (h : ((dirNames fs dir).filter (historyMatches base)).length ≤ keep) :
    pruneHistorySnapshots fs dir base keep = fs := by
  have hlen : (jsSortStrings ((dirNames fs dir).filter (historyMatches base))).length ≤
      keep := by
    unfold jsSortStrings
    rw [(List.perm_insertionSort _ _).length_eq]
    exact h
  unfold pruneHistorySnapshots
  rw [if_pos hlen]

/-- A name of the `manifest.…` family is never `index.json`. -/
theorem manifest_name_ne_index (x : String) : ("manifest." ++ x) ≠ "index.json" := by
  intro h
  have h2 := congrArg (fun s : String => s.data.head?) h
  simp only [String.data_append] at h2
  have h3 : ("manifest.".data ++ x.data).head? = some (Char.ofNat 109) := rfl
  rw [h3] at h2
  exact absurd h2 (by decide)

/-- The canonical manifest file name is never `index.json`. -/
theorem baseJson_ne_index (sc sw : String) :
    ("manifest." ++ sc ++ "." ++ sw ++ ".json") ≠ "index.json" := by
  have h : "manifest." ++ sc ++ "." ++ sw ++ ".json" =
      "manifest." ++ (sc ++ ("." ++ (sw ++ ".json"))) := by
    simp [String.append_assoc]
  rw [h]
  exact manifest_name_ne_index _

/-- Reads away from `index.json` pass through index regeneration. -/
theorem fsGet?_writeManifestIndex (fs : FS) (o : FsPath) (n : String) (q : FsPath)
    (h : q ≠ (o ++ ["manifests"]) ++ ["index.json"]) :
    fsGet? (writeManifestIndex fs o n) q = fsGet? fs q :=
  fsGet?_fsWrite_ne fs _ q _ h

/-- Reads away from `gallery-data.js` pass through gallery regeneration. -/
theorem fsGet?_writeGalleryData (fs : FS) (o : FsPath) (n : String) (q : FsPath)
    (h : q ≠ o ++ ["gallery-data.js"]) :
    fsGet? (writeGalleryData fs o n) q = fsGet? fs q :=
  fsGet?_fsWrite_ne fs _ q _ h

/-- Listings of other directories pass through index regeneration. -/
theorem dirNames_writeManifestIndex (fs : FS) (o : FsPath) (n : String) (dir : FsPath)
    (h : childName? dir ((o ++ ["manifests"]) ++ ["index.json"]) = none) :
    dirNames (writeManifestIndex fs o n) dir = dirNames fs dir :=
  dirNames_fsWrite_other fs _ _ dir h

/-- Listings of other directories pass through gallery regeneration. -/
theorem dirNames_writeGalleryData (fs : FS) (o : FsPath) (n : String) (dir : FsPath)
    (h : childName? dir (o ++ ["gallery-data.js"]) = none) :
    dirNames (writeGalleryData fs o n) dir = dirNames fs dir :=
  dirNames_fsWrite_other fs _ _ dir h

/-- Joint facts about the tail of the write pipeline (run record, canonical
write, index and gallery regeneration) applied to any intermediate state. -/
theorem pipeline_tail (fsP : FS) (o : FsPath) (name : String) (dd dcan : FileData)
    (rb nI nG : String) (hname : name ≠ "index.json") :
    ((fsKeys fsP).Nodup → (fsKeys (writeGalleryData (writeManifestIndex
      (fsWrite (fsWrite fsP (getUniqueRunPath fsP ((o ++ ["manifests"]) ++ ["runs"]) rb) dd)
        ((o ++ ["manifests"]) ++ [name]) dcan) o nI) o nG)).Nodup) ∧
    (∀ base, matchingHistory (writeGalleryData (writeManifestIndex
      (fsWrite (fsWrite fsP (getUniqueRunPath fsP ((o ++ ["manifests"]) ++ ["runs"]) rb) dd)
        ((o ++ ["manifests"]) ++ [name]) dcan) o nI) o nG) o base =
      matchingHistory fsP o base) ∧
    fsGet? (writeGalleryData (writeManifestIndex
      (fsWrite (fsWrite fsP (getUniqueRunPath fsP ((o ++ ["manifests"]) ++ ["runs"]) rb) dd)
        ((o ++ ["manifests"]) ++ [name]) dcan) o nI) o nG)
      ((o ++ ["manifests"]) ++ [name]) = some dcan ∧
    (∀ nm, fsGet? (writeGalleryData (writeManifestIndex
      (fsWrite (fsWrite fsP (getUniqueRunPath fsP ((o ++ ["manifests"]) ++ ["runs"]) rb) dd)
        ((o ++ ["manifests"]) ++ [name]) dcan) o nI) o nG)
      (((o ++ ["manifests"]) ++ ["history"]) ++ [nm]) =
      fsGet? fsP (((o ++ ["manifests"]) ++ ["history"]) ++ [nm])) ∧
    dirNames (writeGalleryData (writeManifestIndex
      (fsWrite (fsWrite fsP (getUniqueRunPath fsP ((o ++ ["manifests"]) ++ ["runs"]) rb) dd)
        ((o ++ ["manifests"]) ++ [name]) dcan) o nI) o nG)
      ((o ++ ["manifests"]) ++ ["history"]) =
      dirNames fsP ((o ++ ["manifests"]) ++ ["history"]) := by
  rcases getUniqueRunPath_shape fsP ((o ++ ["manifests"]) ++ ["runs"]) rb with ⟨k, hk⟩
  refine ⟨?_, ?_, ?_, ?_, ?_⟩
  · intro h
    exact nodup_fsKeys_fsWrite _ _ _ (nodup_fsKeys_fsWrite _ _ _
      (nodup_fsKeys_fsWrite _ _ _ (nodup_fsKeys_fsWrite _ _ _ h)))
  · intro base
    rw [matchingHistory_writeGalleryData, matchingHistory_writeManifestIndex,
      matchingHistory_fsWrite_manifests, hk, matchingHistory_fsWrite_runs]
  · rw [fsGet?_writeGalleryData _ _ _ _ (ne_of_length_ne (by simp)),
      fsGet?_writeManifestIndex _ _ _ _ (append_singleton_ne _ hname)]
    exact fsGet?_fsWrite_self _ _ _
  · intro nm
    rw [fsGet?_writeGalleryData _ _ _ _ (ne_of_length_ne (by simp)),
      fsGet?_writeManifestIndex _ _ _ _ (ne_of_length_ne (by simp)),
      fsGet?_fsWrite_ne _ _ _ _ (ne_of_length_ne (by simp)), hk,
      fsGet?_fsWrite_ne _ _ _ _
        (concat_ne_concat_of_dir_ne _ _ (append_singleton_ne _ (by decide)))]
  · rw [dirNames_writeGalleryData _ _ _ _
        (childName?_none_of_ne _ _ _ (ne_of_length_ne (by simp))),
      dirNames_writeManifestIndex _ _ _ _
        (childName?_none_of_ne _ _ _ (ne_of_length_ne (by simp))),
      dirNames_fsWrite_other _ _ _ _
        (childName?_none_of_ne _ _ _ (ne_of_length_ne (by simp))), hk,
      dirNames_fsWrite_other _ _ _ _
        (childName?_none_of_ne _ _ _ (append_singleton_ne _ (by decide)))]

/-- Detailed effect of a first write (no canonical file yet): the write
succeeds, keys stay nodup, the history directory is untouched, and the
canonical file now holds the new manifest. -/
theorem write_first_detail (fs : FS) (o : FsPath) (chain wallet : String)
    (m : BackupManifest) (tsH tsR nI nG sc sw : String)
    (hc : sanitizeManifestSegment chain = .ok sc)
    (hw : sanitizeManifestSegment wallet = .ok sw)
    (hget : fsGet? fs
      ((o ++ ["manifests"]) ++ ["manifest." ++ sc ++ "." ++ sw ++ ".json"]) = none)
    (hnd : (fsKeys fs).Nodup) :
    ∃ fs1, writeManifestWithHistory fs o chain wallet m tsH tsR nI nG =
        .ok (fs1, (o ++ ["manifests"]) ++ ["manifest." ++ sc ++ "." ++ sw ++ ".json"]) ∧
      (fsKeys fs1).Nodup ∧
      dirNames fs1 ((o ++ ["manifests"]) ++ ["history"]) =
        dirNames fs ((o ++ ["manifests"]) ++ ["history"]) ∧
      (∀ nm, fsGet? fs1 (((o ++ ["manifests"]) ++ ["history"]) ++ [nm]) =
        fsGet? fs (((o ++ ["manifests"]) ++ ["history"]) ++ [nm])) ∧
      fsGet? fs1 ((o ++ ["manifests"]) ++ ["manifest." ++ sc ++ "." ++ sw ++ ".json"]) =
        some (.manifest m) := by
  obtain ⟨hnod, hmatchAll, hcan, hhist, hdirs⟩ := pipeline_tail fs o
    ("manifest." ++ sc ++ "." ++ sw ++ ".json") (.delta (buildDelta none m)) (.manifest m)
    ("run." ++ formatTimestampForFilename tsR ++ "." ++ sc ++ "." ++ sw) nI nG
    (baseJson_ne_index sc sw)
  exact ⟨_, write_ok_none fs o chain wallet m tsH tsR nI nG sc sw hc hw hget,
    hnod hnd, hdirs, hhist, hcan⟩

/-- Detailed effect of a write over an existing canonical manifest: the
previous manifest is snapshotted into `history/` under a fresh matching
name, the matching count becomes `min (previous + 1) 2`, and the canonical
file holds the new manifest.  When at most one snapshot matched before,
the prune removes nothing: the listing gains exactly the new name and the
other history files are untouched. -/
theorem write_focal_detail (fs : FS) (o : FsPath) (chain wallet : String)
    (m prev : BackupManifest) (tsH tsR nI nG sc sw : String)
    (hc : sanitizeManifestSegment chain = .ok sc)
    (hw : sanitizeManifestSegment wallet = .ok sw)
    (hget : fsGet? fs
      ((o ++ ["manifests"]) ++ ["manifest." ++ sc ++ "." ++ sw ++ ".json"]) =
      some (.manifest prev))
    (hnd : (fsKeys fs).Nodup)
    (hm : (matchingHistory fs o ("manifest." ++ sc ++ "." ++ sw)).length ≤ 2) :
    ∃ fs2 nm, writeManifestWithHistory fs o chain wallet m tsH tsR nI nG =
        .ok (fs2, (o ++ ["manifests"]) ++ ["manifest." ++ sc ++ "." ++ sw ++ ".json"]) ∧
      (fsKeys fs2).Nodup ∧
      historyMatches ("manifest." ++ sc ++ "." ++ sw) nm = true ∧
      (matchingHistory fs2 o ("manifest." ++ sc ++ "." ++ sw)).length =
        min ((matchingHistory fs o ("manifest." ++ sc ++ "." ++ sw)).length + 1) 2 ∧
      fsGet? fs2 ((o ++ ["manifests"]) ++ ["manifest." ++ sc ++ "." ++ sw ++ ".json"]) =
        some (.manifest m) ∧
      ((matchingHistory fs o ("manifest." ++ sc ++ "." ++ sw)).length ≤ 1 →
        dirNames fs2 ((o ++ ["manifests"]) ++ ["history"]) =
          dirNames fs ((o ++ ["manifests"]) ++ ["history"]) ++ [nm] ∧
        fsGet? fs2 (((o ++ ["manifests"]) ++ ["history"]) ++ [nm]) =
          some (.manifest prev) ∧
        (∀ nm2, nm2 ≠ nm →
          fsGet? fs2 (((o ++ ["manifests"]) ++ ["history"]) ++ [nm2]) =
            fsGet? fs (((o ++ ["manifests"]) ++ ["history"]) ++ [nm2]))) := by
  obtain ⟨nm, hnmM, hshape, hnotmem, hdirW, hmatchW⟩ :=
    matchingHistory_snapshot_focal fs o ("manifest." ++ sc ++ "." ++ sw)
      (formatTimestampForFilename tsH) (.manifest prev) hnd hm
  obtain ⟨hnod, hmatchAll, hcan, hhist, hdirs⟩ := pipeline_tail
    (pruneHistorySnapshots
      (fsWrite fs
        (getUniqueHistoryPath fs ((o ++ ["manifests"]) ++ ["history"])
          ("manifest." ++ sc ++ "." ++ sw) (formatTimestampForFilename tsH))
        (.manifest prev))
      ((o ++ ["manifests"]) ++ ["history"]) ("manifest." ++ sc ++ "." ++ sw)
      MANIFEST_HISTORY_LIMIT) o
    ("manifest." ++ sc ++ "." ++ sw ++ ".json") (.delta (buildDelta (some prev) m))
    (.manifest m)
    ("run." ++ formatTimestampForFilename tsR ++ "." ++ sc ++ "." ++ sw) nI nG
    (baseJson_ne_index sc sw)
  have hndW : (fsKeys (fsWrite fs
      (getUniqueHistoryPath fs ((o ++ ["manifests"]) ++ ["history"])
        ("manifest." ++ sc ++ "." ++ sw) (formatTimestampForFilename tsH))
      (.manifest prev))).Nodup := nodup_fsKeys_fsWrite _ _ _ hnd
  have hndP : (fsKeys (pruneHistorySnapshots
      (fsWrite fs
        (getUniqueHistoryPath fs ((o ++ ["manifests"]) ++ ["history"])
          ("manifest." ++ sc ++ "." ++ sw) (formatTimestampForFilename tsH))
        (.manifest prev))
      ((o ++ ["manifests"]) ++ ["history"]) ("manifest." ++ sc ++ "." ++ sw)
      MANIFEST_HISTORY_LIMIT)).Nodup := by
    rw [prune_eq_foldl]
    exact foldl_fsRm_nodup _ _ _ hndW
  have hcount := prune_matching_min (fsWrite fs
      (getUniqueHistoryPath fs ((o ++ ["manifests"]) ++ ["history"])
        ("manifest." ++ sc ++ "." ++ sw) (formatTimestampForFilename tsH))
      (.manifest prev)) o ("manifest." ++ sc ++ "." ++ sw) MANIFEST_HISTORY_LIMIT hndW
  rw [hmatchW] at hcount
  refine ⟨_, nm, ?_, hnod hndP, hnmM, ?_, hcan, ?_⟩
  · rw [write_ok_some fs o chain wallet m prev tsH tsR nI nG sc sw hc hw hget]
  · rw [hmatchAll, hcount]
    simp [MANIFEST_HISTORY_LIMIT]
  · intro hle1
    have hlenW : ((dirNames (fsWrite fs
        (getUniqueHistoryPath fs ((o ++ ["manifests"]) ++ ["history"])
          ("manifest." ++ sc ++ "." ++ sw) (formatTimestampForFilename tsH))
        (.manifest prev)) ((o ++ ["manifests"]) ++ ["history"])).filter
        (historyMatches ("manifest." ++ sc ++ "." ++ sw))).length ≤
        MANIFEST_HISTORY_LIMIT := by
      have h2 : (matchingHistory (fsWrite fs
          (getUniqueHistoryPath fs ((o ++ ["manifests"]) ++ ["history"])
            ("manifest." ++ sc ++ "." ++ sw) (formatTimestampForFilename tsH))
          (.manifest prev)) o ("manifest." ++ sc ++ "." ++ sw)).length ≤
          MANIFEST_HISTORY_LIMIT := by
        rw [hmatchW]
        simp only [List.length_append, List.length_cons, List.length_nil,
          MANIFEST_HISTORY_LIMIT]
        omega
      exact h2
    have hPid : pruneHistorySnapshots
        (fsWrite fs
          (getUniqueHistoryPath fs ((o ++ ["manifests"]) ++ ["history"])
            ("manifest." ++ sc ++ "." ++ sw) (formatTimestampForFilename tsH))
          (.manifest prev))
        ((o ++ ["manifests"]) ++ ["history"]) ("manifest." ++ sc ++ "." ++ sw)
        MANIFEST_HISTORY_LIMIT =
        fsWrite fs
          (getUniqueHistoryPath fs ((o ++ ["manifests"]) ++ ["history"])
            ("manifest." ++ sc ++ "." ++ sw) (formatTimestampForFilename tsH))
          (.manifest prev) :=
      prune_id_of_le _ _ _ _ hlenW
    refine ⟨?_, ?_, ?_⟩
    · rw [hdirs, hPid, hdirW]
    · rw [hhist, hPid, hshape]
      exact fsGet?_fsWrite_self _ _ _
    · intro nm2 hne
      rw [hhist nm2, hPid, hshape, fsGet?_fsWrite_ne _ _ _ _ (append_singleton_ne _ hne)]

/-! ## Claim C2: two writes, one snapshot -/

/-- A minimal manifest with the given backup date, used to instantiate the
store theorems on concrete inputs. -/
def tinyManifest (d : String) : BackupManifest :=
  { walletAddress := "w", ensName := none, chainName := "c", chainId := 1,
    backupDate := d, summary := ⟨0, 0, 0, 0, 0⟩, nfts := [] }

/-- Claim C2: for a (chain, wallet) pair with no canonical manifest and no
matching history snapshots, two successive `writeManifestWithHistory`
calls with manifests `m1` (backup date T1) then `m2` (T2) leave exactly
one matching file in `history/`: the first write creates no snapshot, the
second write snapshots the canonical content as it stood before the
overwrite, so the snapshot content equals the stored `m1` manifest
verbatim, and the canonical file ends up holding `m2`. -/
theorem claim_C2_two_writes_one_snapshot (fs0 : FS) (o : FsPath) (chain wallet : String)
    (m1 m2 : BackupManifest) (t1h t1r t1i t1g t2h t2r t2i t2g : String) (sc sw : String)
    (hc : sanitizeManifestSegment chain = .ok sc)
    (hw : sanitizeManifestSegment wallet = .ok sw)
    (hnd : (fsKeys fs0).Nodup)
    (hnone : fsGet? fs0
      ((o ++ ["manifests"]) ++ ["manifest." ++ sc ++ "." ++ sw ++ ".json"]) = none)
    (hzero : matchingHistory fs0 o ("manifest." ++ sc ++ "." ++ sw) = []) :
    ∃ fs1 fs2 nm,
      writeManifestWithHistory fs0 o chain wallet m1 t1h t1r t1i t1g =
        .ok (fs1, (o ++ ["manifests"]) ++ ["manifest." ++ sc ++ "." ++ sw ++ ".json"]) ∧
      dirNames fs1 ((o ++ ["manifests"]) ++ ["history"]) =
        dirNames fs0 ((o ++ ["manifests"]) ++ ["history"]) ∧
      writeManifestWithHistory fs1 o chain wallet m2 t2h t2r t2i t2g =
        .ok (fs2, (o ++ ["manifests"]) ++ ["manifest." ++ sc ++ "." ++ sw ++ ".json"]) ∧
      historyMatches ("manifest." ++ sc ++ "." ++ sw) nm = true ∧
      dirNames fs2 ((o ++ ["manifests"]) ++ ["history"]) =
        dirNames fs0 ((o ++ ["manifests"]) ++ ["history"]) ++ [nm] ∧
      matchingHistory fs2 o ("manifest." ++ sc ++ "." ++ sw) = [nm] ∧
      fsGet? fs2 (((o ++ ["manifests"]) ++ ["history"]) ++ [nm]) = some (.manifest m1) ∧
      fsGet? fs2 ((o ++ ["manifests"]) ++ ["manifest." ++ sc ++ "." ++ sw ++ ".json"]) =
        some (.manifest m2) := by
  obtain ⟨fs1, hok1, hnd1, hdir1, hhist1, hcan1⟩ :=
    write_first_detail fs0 o chain wallet m1 t1h t1r t1i t1g sc sw hc hw hnone hnd
  have hm1 : matchingHistory fs1 o ("manifest." ++ sc ++ "." ++ sw) =
      matchingHistory fs0 o ("manifest." ++ sc ++ "." ++ sw) := by
    unfold matchingHistory
    rw [hdir1]
  obtain ⟨fs2, nm, hok2, hnd2, hnmM, hcount2, hcan2, hdetail⟩ :=
    write_focal_detail fs1 o chain wallet m2 m1 t2h t2r t2i t2g sc sw hc hw hcan1 hnd1
      (by rw [hm1, hzero]; simp)
  obtain ⟨hdir2, hsnap2, hother2⟩ := hdetail (by rw [hm1, hzero]; simp)
  refine ⟨fs1, fs2, nm, hok1, hdir1, hok2, hnmM, ?_, ?_, hsnap2, hcan2⟩
  · rw [hdir2, hdir1]
  · unfold matchingHistory
    rw [hdir2, hdir1, List.filter_append]
    rw [show (dirNames fs0 ((o ++ ["manifests"]) ++ ["history"])).filter
        (historyMatches ("manifest." ++ sc ++ "." ++ sw)) = [] from hzero]
    simp [hnmM]

/-- Witness for C2 at concrete inputs: chain `c`, wallet `w`, empty file
system, two tiny manifests. -/
theorem claim_C2_witness :
    ∃ fs1 fs2 nm,
      writeManifestWithHistory [] [] "c" "w" (tinyManifest "2026-01-01T00:00:00.000Z")
          "2026-01-01T00:00:01.000Z" "2026-01-01T00:00:02.000Z"
          "2026-01-01T00:00:03.000Z" "2026-01-01T00:00:04.000Z" =
        .ok (fs1, (([] : FsPath) ++ ["manifests"]) ++ ["manifest." ++ "c" ++ "." ++ "w" ++ ".json"]) ∧
      dirNames fs1 ((([] : FsPath) ++ ["manifests"]) ++ ["history"]) =
        dirNames [] ((([] : FsPath) ++ ["manifests"]) ++ ["history"]) ∧
      writeManifestWithHistory fs1 [] "c" "w" (tinyManifest "2026-01-02T00:00:00.000Z")
          "2026-01-02T00:00:01.000Z" "2026-01-02T00:00:02.000Z"
          "2026-01-02T00:00:03.000Z" "2026-01-02T00:00:04.000Z" =
        .ok (fs2, (([] : FsPath) ++ ["manifests"]) ++ ["manifest." ++ "c" ++ "." ++ "w" ++ ".json"]) ∧
      historyMatches ("manifest." ++ "c" ++ "." ++ "w") nm = true ∧
      dirNames fs2 ((([] : FsPath) ++ ["manifests"]) ++ ["history"]) =
        dirNames [] ((([] : FsPath) ++ ["manifests"]) ++ ["history"]) ++ [nm] ∧
      matchingHistory fs2 [] ("manifest." ++ "c" ++ "." ++ "w") = [nm] ∧
      fsGet? fs2 (((([] : FsPath) ++ ["manifests"]) ++ ["history"]) ++ [nm]) =
        some (.manifest (tinyManifest "2026-01-01T00:00:00.000Z")) ∧
      fsGet? fs2 ((([] : FsPath) ++ ["manifests"]) ++ ["manifest." ++ "c" ++ "." ++ "w" ++ ".json"]) =
        some (.manifest (tinyManifest "2026-01-02T00:00:00.000Z")) :=
  claim_C2_two_writes_one_snapshot [] [] "c" "w"
    (tinyManifest "2026-01-01T00:00:00.000Z") (tinyManifest "2026-01-02T00:00:00.000Z")
    "2026-01-01T00:00:01.000Z" "2026-01-01T00:00:02.000Z" "2026-01-01T00:00:03.000Z"
    "2026-01-01T00:00:04.000Z" "2026-01-02T00:00:01.000Z" "2026-01-02T00:00:02.000Z"
    "2026-01-02T00:00:03.000Z" "2026-01-02T00:00:04.000Z" "c" "w" rfl rfl
    (by decide) rfl rfl

/-! ## Claim C3: history retention -/

/-- One successful write steps `runWrites`. -/
theorem runWrites_cons_ok (o : FsPath) (op : WriteOp) (rest : List WriteOp)
    (fs fs1 : FS) (p : FsPath)
    (h : writeManifestWithHistory fs o op.chain op.wallet op.manifest
      op.tsHist op.tsRun op.nowIdx op.nowGal = .ok (fs1, p)) :
    runWrites o (op :: rest) fs = runWrites o rest fs1 := by
  rw [runWrites, h]

/-- In a sorted list, every dropped-prefix element bounds every kept-suffix
element. -/
theorem take_le_drop_of_sorted (l : List String) (k : Nat) (x y : String)
    (hx : x ∈ l.take k) (hy : y ∈ l.drop k)
    (hs : List.Sorted (fun a c => jsLeb a c = true) l) : jsLeb x y = true := by
  have hsplit := List.take_append_drop k l
  rw [← hsplit] at hs
  rcases List.pairwise_append.mp hs with ⟨h1, h2, hcross⟩
  exact hcross x hx y hy

/-- Eight concrete writes: four for the pair (`c`, `w.x`), then four for
the pair (`c`, `w`). -/
def c3Ops : List WriteOp :=
  [⟨"c", "w.x", tinyManifest "2026-01-01T00:00:00.000Z", "2026-01-01T00:00:01.000Z",
     "2026-01-01T00:00:02.000Z", "2026-01-01T00:00:03.000Z", "2026-01-01T00:00:04.000Z"⟩,
   ⟨"c", "w.x", tinyManifest "2026-01-02T00:00:00.000Z", "2026-01-02T00:00:01.000Z",
     "2026-01-02T00:00:02.000Z", "2026-01-02T00:00:03.000Z", "2026-01-02T00:00:04.000Z"⟩,
   ⟨"c", "w.x", tinyManifest "2026-01-03T00:00:00.000Z", "2026-01-03T00:00:01.000Z",
     "2026-01-03T00:00:02.000Z", "2026-01-03T00:00:03.000Z", "2026-01-03T00:00:04.000Z"⟩,
   ⟨"c", "w.x", tinyManifest "2026-01-04T00:00:00.000Z", "2026-01-04T00:00:01.000Z",
     "2026-01-04T00:00:02.000Z", "2026-01-04T00:00:03.000Z", "2026-01-04T00:00:04.000Z"⟩,
   ⟨"c", "w", tinyManifest "2026-01-05T00:00:00.000Z", "2026-01-05T00:00:01.000Z",
     "2026-01-05T00:00:02.000Z", "2026-01-05T00:00:03.000Z", "2026-01-05T00:00:04.000Z"⟩,
   ⟨"c", "w", tinyManifest "2026-01-06T00:00:00.000Z", "2026-01-06T00:00:01.000Z",
     "2026-01-06T00:00:02.000Z", "2026-01-06T00:00:03.000Z", "2026-01-06T00:00:04.000Z"⟩,
   ⟨"c", "w", tinyManifest "2026-01-07T00:00:00.000Z", "2026-01-07T00:00:01.000Z",
     "2026-01-07T00:00:02.000Z", "2026-01-07T00:00:03.000Z", "2026-01-07T00:00:04.000Z"⟩,
   ⟨"c", "w", tinyManifest "2026-01-08T00:00:00.000Z", "2026-01-08T00:00:01.000Z",
     "2026-01-08T00:00:02.000Z", "2026-01-08T00:00:03.000Z", "2026-01-08T00:00:04.000Z"⟩]

/-- Claim C3, counterexample: after the eight writes of `c3Ops` — the last
four being successive writes for the single pair (`c`, `w`) — the history
directory holds two files, and none of them is a snapshot of the pair
(`c`, `w`): every name matching that pair's prune filter belongs to the
pair (`c`, `w.x`).  So neither "exactly HISTORY_LIMIT history files for it
remain" nor "pruning removes only snapshots belonging to that same
(chain, wallet) pair" holds: each (`c`, `w`) snapshot was pruned away
while the (`c`, `w.x`) snapshots survive its filter. -/
theorem claim_C3_counterexample :
    ∃ fsF, runWrites [] c3Ops [] = .ok fsF ∧
      (dirNames fsF ["manifests", "history"]).length = 2 ∧
      (dirNames fsF ["manifests", "history"]).filter
        (fun n => historyMatches "manifest.c.w" n &&
          !(strStartsWith n "manifest.c.w.x.")) = [] ∧
      (dirNames fsF ["manifests", "history"]).filter
        (fun n => strStartsWith n "manifest.c.w.x.") =
        dirNames fsF ["manifests", "history"] := by
  refine ⟨_, rfl, ?_, ?_, ?_⟩ <;> rfl

/-- Claim C3 (amended): (1) for a focal pair, after any successful write
sequence whose pairs each have the focal base name or a prefix-incomparable
one, at most `MANIFEST_HISTORY_LIMIT` snapshots matching the focal prune
filter remain; (2) pruning removes exactly the `removedNames`, each of
which matches the pruned base's filter, and only the lexicographically
smallest matching names are removed (oldest first under the
timestamp-coded names); (3) after `MANIFEST_HISTORY_LIMIT + 2` successive
writes for one pair starting with no canonical file and no matching
snapshots, exactly `MANIFEST_HISTORY_LIMIT` matching history files
remain. -/
theorem claim_C3_history_retention (o : FsPath) :
    (∀ (base : String) (ops : List WriteOp) (fs0 : FS),
      (fsKeys fs0).Nodup →
      (matchingHistory fs0 o base).length ≤ MANIFEST_HISTORY_LIMIT →
      (∀ op ∈ ops, ∀ sc sw, sanitizeManifestSegment op.chain = .ok sc →
        sanitizeManifestSegment op.wallet = .ok sw →
        ("manifest." ++ sc ++ "." ++ sw) = base ∨
          prefixIncomp (("manifest." ++ sc ++ "." ++ sw) ++ ".") (base ++ ".")) →
      ∀ fsA, runWrites o ops fs0 = .ok fsA →
        (matchingHistory fsA o base).length ≤ MANIFEST_HISTORY_LIMIT) ∧
    (∀ (fs : FS) (dir : FsPath) (b : String) (keep : Nat),
      pruneHistorySnapshots fs dir b keep =
        (removedNames fs dir b keep).foldl (fun f n => fsRm f (dir ++ [n])) fs ∧
      (∀ x ∈ removedNames fs dir b keep, historyMatches b x = true) ∧
      (∀ x ∈ removedNames fs dir b keep,
        ∀ y ∈ (dirNames fs dir).filter (historyMatches b),
          y ∉ removedNames fs dir b keep → jsLeb x y = true)) ∧
    (∀ (chain wallet sc sw : String) (m1 m2 m3 m4 : BackupManifest)
      (t1h t1r t1i t1g t2h t2r t2i t2g t3h t3r t3i t3g t4h t4r t4i t4g : String)
      (fs0 : FS),
      sanitizeManifestSegment chain = .ok sc →
      sanitizeManifestSegment wallet = .ok sw →
      (fsKeys fs0).Nodup →
      fsGet? fs0
        ((o ++ ["manifests"]) ++ ["manifest." ++ sc ++ "." ++ sw ++ ".json"]) = none →
      matchingHistory fs0 o ("manifest." ++ sc ++ "." ++ sw) = [] →
      ∃ fsF, runWrites o
          [⟨chain, wallet, m1, t1h, t1r, t1i, t1g⟩, ⟨chain, wallet, m2, t2h, t2r, t2i, t2g⟩,
           ⟨chain, wallet, m3, t3h, t3r, t3i, t3g⟩, ⟨chain, wallet, m4, t4h, t4r, t4i, t4g⟩]
          fs0 = .ok fsF ∧
        (matchingHistory fsF o ("manifest." ++ sc ++ "." ++ sw)).length =
          MANIFEST_HISTORY_LIMIT) := by
  refine ⟨?_, ?_, ?_⟩
  · intro base ops fs0 hnd hm hrel fsA hok
    have h2 := runWrites_focal o base ops fs0 hnd
      (by simpa [MANIFEST_HISTORY_LIMIT] using hm) hrel fsA hok
    simpa [MANIFEST_HISTORY_LIMIT] using h2.2
  · intro fs dir b keep
    refine ⟨prune_eq_foldl fs dir b keep, ?_, ?_⟩
    · intro x hx
      have hxs : x ∈ jsSortStrings ((dirNames fs dir).filter (historyMatches b)) := by
        unfold removedNames at hx
        by_cases hle : (jsSortStrings
            ((dirNames fs dir).filter (historyMatches b))).length ≤ keep
        · rw [if_pos hle] at hx
          cases hx
        · rw [if_neg hle] at hx
          exact List.mem_of_mem_take hx
      rw [mem_jsSortStrings, List.mem_filter] at hxs
      exact hxs.2
    · intro x hx y hy hynot
      by_cases hle : (jsSortStrings
          ((dirNames fs dir).filter (historyMatches b))).length ≤ keep
      · have hnil : removedNames fs dir b keep = [] := by
          unfold removedNames
          rw [if_pos hle]
        rw [hnil] at hx
        cases hx
      · have hrem : removedNames fs dir b keep =
            (jsSortStrings ((dirNames fs dir).filter (historyMatches b))).take
              ((jsSortStrings ((dirNames fs dir).filter (historyMatches b))).length -
                keep) := by
          unfold removedNames
          rw [if_neg hle]
        have hys : y ∈ jsSortStrings ((dirNames fs dir).filter (historyMatches b)) :=
          (mem_jsSortStrings _ y).mpr hy
        have hyd : y ∈ (jsSortStrings
            ((dirNames fs dir).filter (historyMatches b))).drop
            ((jsSortStrings ((dirNames fs dir).filter (historyMatches b))).length -
              keep) := by
          have hsplit : y ∈ (jsSortStrings
              ((dirNames fs dir).filter (historyMatches b))).take
              ((jsSortStrings ((dirNames fs dir).filter (historyMatches b))).length -
                keep) ++ (jsSortStrings
              ((dirNames fs dir).filter (historyMatches b))).drop
              ((jsSortStrings ((dirNames fs dir).filter (historyMatches b))).length -
                keep) := by
            rw [List.take_append_drop]
            exact hys
          rcases List.mem_append.mp hsplit with h | h
          · rw [hrem] at hynot
            exact absurd h hynot
          · exact h
        rw [hrem] at hx
        exact take_le_drop_of_sorted _ _ x y hx hyd (sorted_jsSortStrings _)
  · intro chain wallet sc sw m1 m2 m3 m4 t1h t1r t1i t1g t2h t2r t2i t2g
      t3h t3r t3i t3g t4h t4r t4i t4g fs0 hc hw hnd hnone hzero
    obtain ⟨fs1, hok1, hnd1, hdir1, hh1, hcan1⟩ :=
      write_first_detail fs0 o chain wallet m1 t1h t1r t1i t1g sc sw hc hw hnone hnd
    have hm1 : matchingHistory fs1 o ("manifest." ++ sc ++ "." ++ sw) = [] := by
      unfold matchingHistory
      unfold matchingHistory at hzero
      rw [hdir1]
      exact hzero
    obtain ⟨fs2, nm2, hok2, hnd2, hnm2, hcount2, hcan2, hx2⟩ :=
      write_focal_detail fs1 o chain wallet m2 m1 t2h t2r t2i t2g sc sw hc hw hcan1 hnd1
        (by rw [hm1]; simp)
    obtain ⟨fs3, nm3, hok3, hnd3, hnm3, hcount3, hcan3, hx3⟩ :=
      write_focal_detail fs2 o chain wallet m3 m2 t3h t3r t3i t3g sc sw hc hw hcan2 hnd2
        (by rw [hcount2]; omega)
    obtain ⟨fs4, nm4, hok4, hnd4, hnm4, hcount4, hcan4, hx4⟩ :=
      write_focal_detail fs3 o chain wallet m4 m3 t4h t4r t4i t4g sc sw hc hw hcan3 hnd3
        (by rw [hcount3]; omega)
    refine ⟨fs4, ?_, ?_⟩
    · rw [runWrites_cons_ok o ⟨chain, wallet, m1, t1h, t1r, t1i, t1g⟩ _ _ _ _ hok1,
        runWrites_cons_ok o ⟨chain, wallet, m2, t2h, t2r, t2i, t2g⟩ _ _ _ _ hok2,
        runWrites_cons_ok o ⟨chain, wallet, m3, t3h, t3r, t3i, t3g⟩ _ _ _ _ hok3,
        runWrites_cons_ok o ⟨chain, wallet, m4, t4h, t4r, t4i, t4g⟩ _ _ _ _ hok4]
      rfl
    · rw [hcount4, hcount3, hcount2, hm1]
      simp only [List.length_nil, MANIFEST_HISTORY_LIMIT]
      omega

/-- Witness for C3 at concrete inputs: four writes for chain `c`, wallet
`w` from the empty file system leave exactly `MANIFEST_HISTORY_LIMIT`
matching snapshots. -/
theorem claim_C3_witness :
    ∃ fsF, runWrites []
        [⟨"c", "w", tinyManifest "2026-01-01T00:00:00.000Z", "2026-01-01T00:00:01.000Z",
           "2026-01-01T00:00:02.000Z", "2026-01-01T00:00:03.000Z", "2026-01-01T00:00:04.000Z"⟩,
         ⟨"c", "w", tinyManifest "2026-01-02T00:00:00.000Z", "2026-01-02T00:00:01.000Z",
           "2026-01-02T00:00:02.000Z", "2026-01-02T00:00:03.000Z", "2026-01-02T00:00:04.000Z"⟩,
         ⟨"c", "w", tinyManifest "2026-01-03T00:00:00.000Z", "2026-01-03T00:00:01.000Z",
           "2026-01-03T00:00:02.000Z", "2026-01-03T00:00:03.000Z", "2026-01-03T00:00:04.000Z"⟩,
         ⟨"c", "w", tinyManifest "2026-01-04T00:00:00.000Z", "2026-01-04T00:00:01.000Z",
           "2026-01-04T00:00:02.000Z", "2026-01-04T00:00:03.000Z", "2026-01-04T00:00:04.000Z"⟩]
        [] = .ok fsF ∧
      (matchingHistory fsF [] ("manifest." ++ "c" ++ "." ++ "w")).length =
        MANIFEST_HISTORY_LIMIT :=
  (claim_C3_history_retention []).2.2 "c" "w" "c" "w"
    (tinyManifest "2026-01-01T00:00:00.000Z") (tinyManifest "2026-01-02T00:00:00.000Z")
    (tinyManifest "2026-01-03T00:00:00.000Z") (tinyManifest "2026-01-04T00:00:00.000Z")
    "2026-01-01T00:00:01.000Z" "2026-01-01T00:00:02.000Z" "2026-01-01T00:00:03.000Z"
    "2026-01-01T00:00:04.000Z" "2026-01-02T00:00:01.000Z" "2026-01-02T00:00:02.000Z"
    "2026-01-02T00:00:03.000Z" "2026-01-02T00:00:04.000Z" "2026-01-03T00:00:01.000Z"
    "2026-01-03T00:00:02.000Z" "2026-01-03T00:00:03.000Z" "2026-01-03T00:00:04.000Z"
    "2026-01-04T00:00:01.000Z" "2026-01-04T00:00:02.000Z" "2026-01-04T00:00:03.000Z"
    "2026-01-04T00:00:04.000Z" [] rfl rfl (by decide) rfl rfl

/-! ## Claim C4: index and gallery regeneration -/

/-- A successful read means the path is a live key. -/
theorem fsGet?_mem_keys (fs : FS) (p : FsPath) (d : FileData) (h : fsGet? fs p = some d) :
    p ∈ fsKeys fs := by
  unfold fsGet? at h
  rcases hf : fs.find? (fun e => e.1 == p) with _ | e
  · rw [hf] at h
    simp at h
  · have hmem := List.mem_of_find?_eq_some hf
    have hp := List.find?_some hf
    have he : e.1 = p := by simpa using hp
    unfold fsKeys
    rw [← he]
    exact List.mem_map_of_mem Prod.fst hmem

/-- Writing `index.json` into the scanned directory does not change the
scan (the scan filter rejects it). -/
theorem scanNames_fsWrite_index (fs : FS) (dir : FsPath) (d : FileData) :
    scanNames (fsWrite fs (dir ++ ["index.json"]) d) dir = scanNames fs dir := by
  unfold scanNames
  rw [dirNames_fsWrite]
  by_cases hmem : dir ++ ["index.json"] ∈ fsKeys fs
  · rw [if_pos hmem]
  · rw [if_neg hmem, (childName?_eq_some _ _ _).mpr rfl]
    rw [show (some "index.json").toList = ["index.json"] from rfl, List.filter_append]
    rw [show List.filter (fun n => strStartsWith n "manifest." && strEndsWith n ".json")
      ["index.json"] = [] from rfl]
    rw [List.append_nil]

/-- Writing `index.json` into the scanned directory does not change the
collected manifests. -/
theorem collect_fsWrite_index (fs : FS) (dir : FsPath) (d : FileData) :
    collectCanonicalManifests (fsWrite fs (dir ++ ["index.json"]) d) dir =
      collectCanonicalManifests fs dir := by
  unfold collectCanonicalManifests
  rw [scanNames_fsWrite_index]
  have hfm : (scanNames fs dir).filterMap (fun n =>
      match fsGet? (fsWrite fs (dir ++ ["index.json"]) d) (dir ++ [n]) with
      | some d2 => (parseManifest? d2).map fun mm => (n, mm)
      | none => none) = (scanNames fs dir).filterMap (fun n =>
      match fsGet? fs (dir ++ [n]) with
      | some d2 => (parseManifest? d2).map fun mm => (n, mm)
      | none => none) := by
    apply List.filterMap_congr
    intro n hn
    have hne : n ≠ "index.json" := by
      unfold scanNames at hn
      rw [List.mem_filter] at hn
      intro he
      subst he
      have h2 := hn.2
      rw [show (strStartsWith "index.json" "manifest." &&
        strEndsWith "index.json" ".json") = false from rfl] at h2
      cases h2
    rw [fsGet?_fsWrite_ne _ _ _ _ (append_singleton_ne _ hne)]
  rw [hfm]

/-- Membership in the scanned pair list: exactly the filter-matching names
whose stored content parses as a manifest. -/
theorem scanPairs_mem (fs : FS) (dir : FsPath) (n : String) (mm : BackupManifest) :
    (n, mm) ∈ ((scanNames fs dir).filterMap fun n2 =>
        match fsGet? fs (dir ++ [n2]) with
        | some d => (parseManifest? d).map fun m2 => (n2, m2)
        | none => none) ↔
      (strStartsWith n "manifest." && strEndsWith n ".json") = true ∧
      fsGet? fs (dir ++ [n]) = some (.manifest mm) := by
  rw [List.mem_filterMap]
  constructor
  · rintro ⟨a, ha, hfa⟩
    rcases hg : fsGet? fs (dir ++ [a]) with _ | dd
    · rw [hg] at hfa
      cases hfa
    · rw [hg] at hfa
      have hfa2 : Option.map (fun m2 => (a, m2)) (parseManifest? dd) = some (n, mm) := hfa
      rcases hpm : parseManifest? dd with _ | mm2
      · rw [hpm] at hfa2
        cases hfa2
      · rw [hpm, Option.map_some'] at hfa2
        have h2 := Option.some.inj hfa2
        have ha2 : a = n := congrArg Prod.fst h2
        have hm2 : mm2 = mm := congrArg Prod.snd h2
        subst ha2
        subst hm2
        constructor
        · unfold scanNames at ha
          exact (List.mem_filter.mp ha).2
        · rw [hg]
          cases dd <;> simp [parseManifest?] at hpm
          rw [hpm]
  · rintro ⟨hf, hget⟩
    refine ⟨n, ?_, ?_⟩
    · unfold scanNames
      rw [List.mem_filter]
      exact ⟨(mem_dirNames fs dir n).mpr (fsGet?_mem_keys fs _ _ hget), hf⟩
    · rw [hget]
      rfl

/-- Membership in the collected index entries. -/
theorem collect_mem_entries (fs : FS) (dir : FsPath) (e : IndexEntry) :
    e ∈ (collectCanonicalManifests fs dir).1 ↔
      ∃ n mm, e = indexEntryFor n mm ∧
        (strStartsWith n "manifest." && strEndsWith n ".json") = true ∧
        fsGet? fs (dir ++ [n]) = some (.manifest mm) := by
  have h1 : (collectCanonicalManifests fs dir).1 =
      List.insertionSort (fun a b => indexEntryLe a b = true)
        (((scanNames fs dir).filterMap fun n =>
          match fsGet? fs (dir ++ [n]) with
          | some d => (parseManifest? d).map fun mm => (n, mm)
          | none => none).map fun p => indexEntryFor p.1 p.2) := rfl
  rw [h1, List.mem_insertionSort, List.mem_map]
  constructor
  · rintro ⟨⟨n, mm⟩, hp, hpe⟩
    rcases (scanPairs_mem fs dir n mm).mp hp with ⟨hf, hg⟩
    exact ⟨n, mm, hpe.symm, hf, hg⟩
  · rintro ⟨n, mm, he, hf, hg⟩
    exact ⟨(n, mm), (scanPairs_mem fs dir n mm).mpr ⟨hf, hg⟩, he.symm⟩

/-- Membership in the collected gallery manifest map. -/
theorem collect_mem_pairs (fs : FS) (dir : FsPath) (pr : String × BackupManifest) :
    pr ∈ (collectCanonicalManifests fs dir).2 ↔
      ∃ n mm, pr = ("manifests/" ++ n, mm) ∧
        (strStartsWith n "manifest." && strEndsWith n ".json") = true ∧
        fsGet? fs (dir ++ [n]) = some (.manifest mm) := by
  have h1 : (collectCanonicalManifests fs dir).2 =
      ((scanNames fs dir).filterMap fun n =>
        match fsGet? fs (dir ++ [n]) with
        | some d => (parseManifest? d).map fun mm => (n, mm)
        | none => none).map fun p => ("manifests/" ++ p.1, p.2) := rfl
  rw [h1, List.mem_map]
  constructor
  · rintro ⟨⟨n, mm⟩, hp, hpe⟩
    rcases (scanPairs_mem fs dir n mm).mp hp with ⟨hf, hg⟩
    exact ⟨n, mm, hpe.symm, hf, hg⟩
  · rintro ⟨n, mm, he, hf, hg⟩
    exact ⟨(n, mm), (scanPairs_mem fs dir n mm).mpr ⟨hf, hg⟩, he.symm⟩

/-- Left projection of a true boolean conjunction. -/
theorem bool_and_left {a b : Bool} (h : (a && b) = true) : a = true := by
  simp only [Bool.and_eq_true] at h
  exact h.1

/-- After index and gallery regeneration: the index file holds the
collected entries of the pre-regeneration state, the gallery bundle holds
the same entries and map, and reads of scan-eligible names pass
through. -/
theorem index_gallery_facts (fs3 : FS) (o : FsPath) (nI nG : String) :
    fsGet? (writeGalleryData (writeManifestIndex fs3 o nI) o nG)
      ((o ++ ["manifests"]) ++ ["index.json"]) =
      some (.indexFile 1 nI (collectCanonicalManifests fs3 (o ++ ["manifests"])).1) ∧
    fsGet? (writeGalleryData (writeManifestIndex fs3 o nI) o nG) (o ++ ["gallery-data.js"]) =
      some (.gallery 1 nG (collectCanonicalManifests fs3 (o ++ ["manifests"])).1
        (collectCanonicalManifests fs3 (o ++ ["manifests"])).2) ∧
    (∀ n, strStartsWith n "manifest." = true →
      fsGet? (writeGalleryData (writeManifestIndex fs3 o nI) o nG)
        ((o ++ ["manifests"]) ++ [n]) = fsGet? fs3 ((o ++ ["manifests"]) ++ [n])) := by
  have hcol : collectCanonicalManifests (writeManifestIndex fs3 o nI) (o ++ ["manifests"]) =
      collectCanonicalManifests fs3 (o ++ ["manifests"]) :=
    collect_fsWrite_index fs3 (o ++ ["manifests"]) _
  refine ⟨?_, ?_, ?_⟩
  · rw [fsGet?_writeGalleryData _ _ _ _ (ne_of_length_ne (by simp))]
    exact fsGet?_fsWrite_self _ _ _
  · have h2 : fsGet? (writeGalleryData (writeManifestIndex fs3 o nI) o nG)
        (o ++ ["gallery-data.js"]) =
        some (.gallery 1 nG
          (collectCanonicalManifests (writeManifestIndex fs3 o nI) (o ++ ["manifests"])).1
          (collectCanonicalManifests (writeManifestIndex fs3 o nI) (o ++ ["manifests"])).2) :=
      fsGet?_fsWrite_self _ _ _
    rw [h2, hcol]
  · intro n hn
    have hne : n ≠ "index.json" := by
      intro he
      subst he
      rw [show strStartsWith "index.json" "manifest." = false from rfl] at hn
      cases hn
    rw [fsGet?_writeGalleryData _ _ _ _ (ne_of_length_ne (by simp)),
      fsGet?_writeManifestIndex _ _ _ _ (append_singleton_ne _ hne)]

/-- The canonical manifest name passes the scan filter. -/
theorem canonical_name_filter (sc sw : String) :
    (strStartsWith ("manifest." ++ sc ++ "." ++ sw ++ ".json") "manifest." &&
      strEndsWith ("manifest." ++ sc ++ "." ++ sw ++ ".json") ".json") = true := by
  rw [Bool.and_eq_true]
  constructor
  · rw [show "manifest." ++ sc ++ "." ++ sw ++ ".json" =
      "manifest." ++ (sc ++ ("." ++ (sw ++ ".json"))) from by simp [String.append_assoc]]
    exact strStartsWith_append _ _
  · exact strEndsWith_append _ _

/-- The index and gallery bundle regenerated over a state whose canonical
file holds `m` list exactly the parseable canonical manifests of the final
state, including `m`. -/
theorem index_gallery_spec (fs3 : FS) (o : FsPath) (sc sw : String) (m : BackupManifest)
    (nI nG : String)
    (hcan : fsGet? fs3
      ((o ++ ["manifests"]) ++ ["manifest." ++ sc ++ "." ++ sw ++ ".json"]) =
      some (.manifest m)) :
    ∃ entries pairs,
      fsGet? (writeGalleryData (writeManifestIndex fs3 o nI) o nG)
        ((o ++ ["manifests"]) ++ ["index.json"]) = some (.indexFile 1 nI entries) ∧
      fsGet? (writeGalleryData (writeManifestIndex fs3 o nI) o nG)
        (o ++ ["gallery-data.js"]) = some (.gallery 1 nG entries pairs) ∧
      (∀ e, e ∈ entries ↔ ∃ n mm, e = indexEntryFor n mm ∧
        (strStartsWith n "manifest." && strEndsWith n ".json") = true ∧
        fsGet? (writeGalleryData (writeManifestIndex fs3 o nI) o nG)
          ((o ++ ["manifests"]) ++ [n]) = some (.manifest mm)) ∧
      (∀ pr, pr ∈ pairs ↔ ∃ n mm, pr = ("manifests/" ++ n, mm) ∧
        (strStartsWith n "manifest." && strEndsWith n ".json") = true ∧
        fsGet? (writeGalleryData (writeManifestIndex fs3 o nI) o nG)
          ((o ++ ["manifests"]) ++ [n]) = some (.manifest mm)) ∧
      fsGet? (writeGalleryData (writeManifestIndex fs3 o nI) o nG)
        ((o ++ ["manifests"]) ++ ["manifest." ++ sc ++ "." ++ sw ++ ".json"]) =
        some (.manifest m) ∧
      indexEntryFor ("manifest." ++ sc ++ "." ++ sw ++ ".json") m ∈ entries := by
  obtain ⟨hidx, hgal, hpass⟩ := index_gallery_facts fs3 o nI nG
  have hcanG : fsGet? (writeGalleryData (writeManifestIndex fs3 o nI) o nG)
      ((o ++ ["manifests"]) ++ ["manifest." ++ sc ++ "." ++ sw ++ ".json"]) =
      some (.manifest m) := by
    rw [hpass _ (bool_and_left (canonical_name_filter sc sw))]
    exact hcan
  refine ⟨(collectCanonicalManifests fs3 (o ++ ["manifests"])).1,
    (collectCanonicalManifests fs3 (o ++ ["manifests"])).2, hidx, hgal, ?_, ?_, hcanG, ?_⟩
  · intro e
    rw [collect_mem_entries]
    constructor
    · rintro ⟨n, mm, he, hf, hg⟩
      refine ⟨n, mm, he, hf, ?_⟩
      rw [hpass n (bool_and_left hf)]
      exact hg
    · rintro ⟨n, mm, he, hf, hg⟩
      refine ⟨n, mm, he, hf, ?_⟩
      rw [← hpass n (bool_and_left hf)]
      exact hg
  · intro pr
    rw [collect_mem_pairs]
    constructor
    · rintro ⟨n, mm, he, hf, hg⟩
      refine ⟨n, mm, he, hf, ?_⟩
      rw [hpass n (bool_and_left hf)]
      exact hg
    · rintro ⟨n, mm, he, hf, hg⟩
      refine ⟨n, mm, he, hf, ?_⟩
      rw [← hpass n (bool_and_left hf)]
      exact hg
  · rw [collect_mem_entries]
    exact ⟨"manifest." ++ sc ++ "." ++ sw ++ ".json", m, rfl,
      canonical_name_filter sc sw, hcan⟩

/-- Claim C4: immediately after every successful `writeManifestWithHistory`
call, the manifest index and the gallery data bundle have been regenerated
from a re-scan of `manifests/`: each holds exactly one entry per
scan-eligible name of the final state whose stored content parses as a
manifest — so every currently-existing parseable canonical manifest,
including the one just written, and no stale or removed ones, with
malformed files skipped rather than failing the write. -/
theorem claim_C4_index_gallery_fresh (fs : FS) (o : FsPath) (chain wallet : String)
    (m : BackupManifest) (tsH tsR nI nG : String) (fs2 : FS) (pth : FsPath)
    (hok : writeManifestWithHistory fs o chain wallet m tsH tsR nI nG = .ok (fs2, pth)) :
    ∃ sc sw entries pairs,
      sanitizeManifestSegment chain = .ok sc ∧
      sanitizeManifestSegment wallet = .ok sw ∧
      pth = (o ++ ["manifests"]) ++ ["manifest." ++ sc ++ "." ++ sw ++ ".json"] ∧
      fsGet? fs2 ((o ++ ["manifests"]) ++ ["index.json"]) =
        some (.indexFile 1 nI entries) ∧
      fsGet? fs2 (o ++ ["gallery-data.js"]) = some (.gallery 1 nG entries pairs) ∧
      (∀ e, e ∈ entries ↔ ∃ n mm, e = indexEntryFor n mm ∧
        (strStartsWith n "manifest." && strEndsWith n ".json") = true ∧
        fsGet? fs2 ((o ++ ["manifests"]) ++ [n]) = some (.manifest mm)) ∧
      (∀ pr, pr ∈ pairs ↔ ∃ n mm, pr = ("manifests/" ++ n, mm) ∧
        (strStartsWith n "manifest." && strEndsWith n ".json") = true ∧
        fsGet? fs2 ((o ++ ["manifests"]) ++ [n]) = some (.manifest mm)) ∧
      fsGet? fs2 ((o ++ ["manifests"]) ++ ["manifest." ++ sc ++ "." ++ sw ++ ".json"]) =
        some (.manifest m) ∧
      indexEntryFor ("manifest." ++ sc ++ "." ++ sw ++ ".json") m ∈ entries := by
  rcases hc : sanitizeManifestSegment chain with ec | sc
  · rw [writeManifestWithHistory, getManifestBaseName] at hok
    simp only [hc, Except.bind, bind] at hok
    cases hok
  rcases hw : sanitizeManifestSegment wallet with ec | sw
  · rw [writeManifestWithHistory, getManifestBaseName] at hok
    simp only [hc, hw, Except.bind, bind] at hok
    cases hok
  rcases hget : fsGet? fs ((o ++ ["manifests"]) ++ ["manifest." ++ sc ++ "." ++ sw ++ ".json"])
    with _ | d
  · rw [write_ok_none fs o chain wallet m tsH tsR nI nG sc sw hc hw hget] at hok
    have hpair := Except.ok.inj hok
    have hfs : writeGalleryData (writeManifestIndex
        (fsWrite (fsWrite fs
          (getUniqueRunPath fs ((o ++ ["manifests"]) ++ ["runs"])
            ("run." ++ formatTimestampForFilename tsR ++ "." ++ sc ++ "." ++ sw))
          (.delta (buildDelta none m)))
          ((o ++ ["manifests"]) ++ ["manifest." ++ sc ++ "." ++ sw ++ ".json"])
          (.manifest m)) o nI) o nG = fs2 := congrArg Prod.fst hpair
    have hpth : ((o ++ ["manifests"]) ++ ["manifest." ++ sc ++ "." ++ sw ++ ".json"] :
        FsPath) = pth := congrArg Prod.snd hpair
    subst hfs
    obtain ⟨entries, pairs, h1, h2, h3, h4, h5, h6⟩ := index_gallery_spec
      (fsWrite (fsWrite fs
        (getUniqueRunPath fs ((o ++ ["manifests"]) ++ ["runs"])
          ("run." ++ formatTimestampForFilename tsR ++ "." ++ sc ++ "." ++ sw))
        (.delta (buildDelta none m)))
        ((o ++ ["manifests"]) ++ ["manifest." ++ sc ++ "." ++ sw ++ ".json"])
        (.manifest m)) o sc sw m nI nG (fsGet?_fsWrite_self _ _ _)
    exact ⟨sc, sw, entries, pairs, rfl, rfl, hpth.symm, h1, h2, h3, h4, h5, h6⟩
  · rcases hd : parseManifest? d with _ | prev
    · rw [writeManifestWithHistory, getManifestBaseName] at hok
      simp only [hc, hw, Except.bind, bind, pure, Except.pure, hget, hd] at hok
      cases hok
    · have hdm : d = .manifest prev := by
        cases d <;> simp [parseManifest?] at hd
        rw [hd]
      subst hdm
      rw [write_ok_some fs o chain wallet m prev tsH tsR nI nG sc sw hc hw hget] at hok
      have hpair := Except.ok.inj hok
      have hfs : writeGalleryData (writeManifestIndex
          (fsWrite (fsWrite (pruneHistorySnapshots
            (fsWrite fs
              (getUniqueHistoryPath fs ((o ++ ["manifests"]) ++ ["history"])
                ("manifest." ++ sc ++ "." ++ sw) (formatTimestampForFilename tsH))
              (.manifest prev))
            ((o ++ ["manifests"]) ++ ["history"]) ("manifest." ++ sc ++ "." ++ sw)
            MANIFEST_HISTORY_LIMIT)
            (getUniqueRunPath (pruneHistorySnapshots
              (fsWrite fs
                (getUniqueHistoryPath fs ((o ++ ["manifests"]) ++ ["history"])
                  ("manifest." ++ sc ++ "." ++ sw) (formatTimestampForFilename tsH))
                (.manifest prev))
              ((o ++ ["manifests"]) ++ ["history"]) ("manifest." ++ sc ++ "." ++ sw)
              MANIFEST_HISTORY_LIMIT) ((o ++ ["manifests"]) ++ ["runs"])
              ("run." ++ formatTimestampForFilename tsR ++ "." ++ sc ++ "." ++ sw))
            (.delta (buildDelta (some prev) m)))
            ((o ++ ["manifests"]) ++ ["manifest." ++ sc ++ "." ++ sw ++ ".json"])
            (.manifest m)) o nI) o nG = fs2 := congrArg Prod.fst hpair
      have hpth : ((o ++ ["manifests"]) ++ ["manifest." ++ sc ++ "." ++ sw ++ ".json"] :
          FsPath) = pth := congrArg Prod.snd hpair
      subst hfs
      obtain ⟨entries, pairs, h1, h2, h3, h4, h5, h6⟩ := index_gallery_spec
        (fsWrite (fsWrite (pruneHistorySnapshots
          (fsWrite fs
            (getUniqueHistoryPath fs ((o ++ ["manifests"]) ++ ["history"])
              ("manifest." ++ sc ++ "." ++ sw) (formatTimestampForFilename tsH))
            (.manifest prev))
          ((o ++ ["manifests"]) ++ ["history"]) ("manifest." ++ sc ++ "." ++ sw)
          MANIFEST_HISTORY_LIMIT)
          (getUniqueRunPath (pruneHistorySnapshots
            (fsWrite fs
              (getUniqueHistoryPath fs ((o ++ ["manifests"]) ++ ["history"])
                ("manifest." ++ sc ++ "." ++ sw) (formatTimestampForFilename tsH))
              (.manifest prev))
            ((o ++ ["manifests"]) ++ ["history"]) ("manifest." ++ sc ++ "." ++ sw)
            MANIFEST_HISTORY_LIMIT) ((o ++ ["manifests"]) ++ ["runs"])
            ("run." ++ formatTimestampForFilename tsR ++ "." ++ sc ++ "." ++ sw))
          (.delta (buildDelta (some prev) m)))
          ((o ++ ["manifests"]) ++ ["manifest." ++ sc ++ "." ++ sw ++ ".json"])
          (.manifest m)) o sc sw m nI nG (fsGet?_fsWrite_self _ _ _)
      exact ⟨sc, sw, entries, pairs, rfl, rfl, hpth.symm, h1, h2, h3, h4, h5, h6⟩

/-- Witness for C4 at a concrete write from the empty file system. -/
theorem claim_C4_witness :
    ∃ fsW pth, writeManifestWithHistory [] [] "c" "w"
        (tinyManifest "2026-01-01T00:00:00.000Z") "2026-01-01T00:00:01.000Z"
        "2026-01-01T00:00:02.000Z" "2026-01-01T00:00:03.000Z"
        "2026-01-01T00:00:04.000Z" = .ok (fsW, pth) ∧
      ∃ sc sw entries pairs,
        sanitizeManifestSegment "c" = .ok sc ∧
        sanitizeManifestSegment "w" = .ok sw ∧
        pth = (([] : FsPath) ++ ["manifests"]) ++
          ["manifest." ++ sc ++ "." ++ sw ++ ".json"] ∧
        fsGet? fsW ((([] : FsPath) ++ ["manifests"]) ++ ["index.json"]) =
          some (.indexFile 1 "2026-01-01T00:00:03.000Z" entries) ∧
        fsGet? fsW (([] : FsPath) ++ ["gallery-data.js"]) =
          some (.gallery 1 "2026-01-01T00:00:04.000Z" entries pairs) ∧
        (∀ e, e ∈ entries ↔ ∃ n mm, e = indexEntryFor n mm ∧
          (strStartsWith n "manifest." && strEndsWith n ".json") = true ∧
          fsGet? fsW ((([] : FsPath) ++ ["manifests"]) ++ [n]) = some (.manifest mm)) ∧
        (∀ pr, pr ∈ pairs ↔ ∃ n mm, pr = ("manifests/" ++ n, mm) ∧
          (strStartsWith n "manifest." && strEndsWith n ".json") = true ∧
          fsGet? fsW ((([] : FsPath) ++ ["manifests"]) ++ [n]) = some (.manifest mm)) ∧
        fsGet? fsW ((([] : FsPath) ++ ["manifests"]) ++
          ["manifest." ++ sc ++ "." ++ sw ++ ".json"]) =
          some (.manifest (tinyManifest "2026-01-01T00:00:00.000Z")) ∧
        indexEntryFor ("manifest." ++ sc ++ "." ++ sw ++ ".json")
          (tinyManifest "2026-01-01T00:00:00.000Z") ∈ entries := by
  refine ⟨_, _, rfl, ?_⟩
  exact claim_C4_index_gallery_fresh [] [] "c" "w"
    (tinyManifest "2026-01-01T00:00:00.000Z") "2026-01-01T00:00:01.000Z"
    "2026-01-01T00:00:02.000Z" "2026-01-01T00:00:03.000Z" "2026-01-01T00:00:04.000Z"
    _ _ rfl

end NftRescue



